import Mathlib

/-!
# tiledither: error-diffusion dithering onto tile palettes

A shallow embedding of `dither/dither.go`, `c64mcbmp.go` and the master palette
of `main.go`, followed by theorems about the embedded functions.

Conventions of the embedding.

* Go's `int32` and `uint32` values are integers; every arithmetic operation of
  the source that can wrap is followed by `toInt32` or by a reduction modulo
  `2^32`.
* `x >> 1` on a signed value is floor division by two, which is what `/` on
  `Int` computes for a positive divisor.  Go's `/` truncates toward zero and is
  `Int.tdiv`.
* A `color.Color` is represented by the four values its `RGBA()` method
  returns.
* An index expression that panics in Go makes the embedded function return
  `none`.
-/

namespace Tiledither

/-! ## Machine integers -/

/-- Conversion of an integer to `int32`, wrapping around modulo `2^32`. -/
def toInt32 (n : Int) : Int := (n + 2147483648) % 4294967296 - 2147483648

/-- Conversion of an integer to `uint32`, wrapping around modulo `2^32`. -/
def toUint32 (n : Int) : Nat := (n % 4294967296).toNat

/-! ## Colours and palettes -/

/-- A `color.Color`, given by the results of its `RGBA()` method. -/
structure Color where
  r : Nat
  g : Nat
  b : Nat
  a : Nat
deriving DecidableEq, Repr

/-- The `color.Palette` type: an ordered list of colours. -/
abbrev Palette := List Color

/-- The contract of `RGBA()`: every channel lies in `[0, 0xffff]`. -/
def Color.valid (c : Color) : Prop :=
  c.r < 65536 ∧ c.g < 65536 ∧ c.b < 65536 ∧ c.a < 65536

instance (c : Color) : Decidable c.valid := by
  unfold Color.valid; infer_instance

/-- A colour whose channels are those of an 8-bit `color.RGBA` value: `RGBA()`
returns `v | v << 8 = 257 * v` for each 8-bit field `v`. -/
def Color.is8bit (c : Color) : Prop :=
  c.valid ∧ c.r % 257 = 0 ∧ c.g % 257 = 0 ∧ c.b % 257 = 0 ∧ c.a % 257 = 0

instance (c : Color) : Decidable c.is8bit := by
  unfold Color.is8bit; infer_instance

/-! ## `closest` (dither.go, lines 26-43) -/

/-- One channel of the loop body of `closest`:
`component := (q - int32(v)) >> 1; uint32(component * component)`. -/
def sqComponent (q : Int) (v : Nat) : Nat :=
  let component := toInt32 (q - toInt32 v) / 2
  toUint32 (toInt32 (component * component))

/-- The value `ssd` that the loop body of `closest` computes for palette entry
`v`; the two `+=` are `uint32` additions. -/
def ssdOf (r g b : Int) (v : Color) : Nat :=
  let ssd := sqComponent r v.r
  let ssd := (ssd + sqComponent g v.g) % 4294967296
  (ssd + sqComponent b v.b) % 4294967296

/-- The `for i, v := range p` loop of `closest`, from index `i` on, carrying
`(best_index, best_diff)`. -/
def closestLoop (r g b : Int) : List Color → Nat → Nat × Nat → Nat × Nat
  | [], _, st => st
  | v :: rest, i, st =>
    if ssdOf r g b v < st.2 then closestLoop r g b rest (i + 1) (i, ssdOf r g b v)
    else closestLoop r g b rest (i + 1) st

/-- The function `closest`: `none` stands for the index panic of `p[best_index]`
on an empty palette. -/
def closest (r g b : Int) (p : Palette) : Option Color :=
  p[(closestLoop r g b p 0 (0, 4294967295)).1]?

/-- The distance the specification names: the sum of the squared per-channel
differences between the query and the entry's RGB values. -/
def sqDist (r g b : Int) (v : Color) : Int :=
  (r - v.r) ^ 2 + (g - v.g) ^ 2 + (b - v.b) ^ 2

/-- The distance `closest` minimises when nothing wraps: the sum of the squares
of the halved (rounded down) per-channel differences. -/
def halvedDist (r g b : Int) (v : Color) : Int :=
  ((r - v.r) / 2) ^ 2 + ((g - v.g) / 2) ^ 2 + ((b - v.b) / 2) ^ 2

/-! ## `Convert` (dither.go, lines 45-101) -/

/-- The `Context` interface, over contexts of type `σ`.  `Set` returns the
context as the call leaves it. -/
structure Context (σ : Type) where
  Width : σ → Nat
  Height : σ → Nat
  At : σ → Nat → Nat → Color
  PaletteAt : σ → Nat → Nat → Palette
  Set : σ → Nat → Nat → Color → σ

/-- The struct `colError`: three `int32` error terms. -/
structure colError where
  R : Int
  G : Int
  B : Int
deriving DecidableEq, Repr

/-- The grid `gerror`, read as `gerror y x`; its bounds are the height and the
width that `Convert` allocated it with. -/
abbrev ErrGrid := Nat → Nat → colError

/-- The three `int32` additions `e.R += dr`, `e.G += dg`, `e.B += db` on one
error term. -/
def colError.add32 (e : colError) (dr dg db : Int) : colError :=
  ⟨toInt32 (e.R + dr), toInt32 (e.G + dg), toInt32 (e.B + db)⟩

/-- The three statements `gerror[y][x].R += dr`, `.G += dg`, `.B += db`. -/
def addErr (g : ErrGrid) (y x : Nat) (dr dg db : Int) : ErrGrid :=
  fun y' x' => if y' = y ∧ x' = x then (g y x).add32 dr dg db else g y' x'

/-- The expression `c * k / 16` on `int32` values: the product wraps, the
division truncates toward zero. -/
def share (c k : Int) : Int := Int.tdiv (toInt32 (c * k)) 16

/-- What `Convert` holds while it runs: the context, the grid `gerror`, and the
record of the `Set` calls made so far, oldest first, as `(x, y, colour)`. -/
structure ConvertState (σ : Type) where
  ctx : σ
  gerror : ErrGrid
  calls : List (Nat × Nat × Color)

/-- Lines 78-82 of `Convert`: the share of the pixel to the right. -/
def diffuseRight (g : ErrGrid) (w x y : Nat) (cr cg cb : Int) : ErrGrid :=
  if x + 1 < w then addErr g y (x + 1) (share cr 7) (share cg 7) (share cb 7) else g

/-- Lines 84-88 of `Convert`: the share of the pixel below left. -/
def diffuseBelowLeft (g : ErrGrid) (x y : Nat) (cr cg cb : Int) : ErrGrid :=
  if (x : Int) - 1 > 0 then addErr g (y + 1) (x - 1) (share cr 3) (share cg 3) (share cb 3)
  else g

/-- Lines 89-93 of `Convert`: the share of the pixel below right. -/
def diffuseBelowRight (g : ErrGrid) (w x y : Nat) (cr cg cb : Int) : ErrGrid :=
  if x + 2 < w then
    addErr g (y + 1) (x + 1) (Int.tdiv cr 16) (Int.tdiv cg 16) (Int.tdiv cb 16)
  else g

/-- Lines 94-96 of `Convert`: the share of the pixel below. -/
def diffuseBelow (g : ErrGrid) (x y : Nat) (cr cg cb : Int) : ErrGrid :=
  addErr g (y + 1) x (share cr 5) (share cg 5) (share cb 5)

/-- Lines 78-97 of `Convert`: the residual `(cr, cg, cb)` of pixel `(x, y)` is
spread over `gerror`, whose height is `h` and whose rows have length `w`. -/
def diffuse (g : ErrGrid) (w h x y : Nat) (cr cg cb : Int) : ErrGrid :=
  let g1 := diffuseRight g w x y cr cg cb
  if y + 1 < h then
    diffuseBelow (diffuseBelowRight (diffuseBelowLeft g1 x y cr cg cb) w x y cr cg cb)
      x y cr cg cb
  else g1

/-- The body of the inner loop of `Convert` at pixel `(x, y)`, for a grid of
height `h` and width `w`. -/
def pixelStep {σ : Type} (C : Context σ) (w h : Nat) (s : ConvertState σ) (x y : Nat) :
    Option (ConvertState σ) :=
  let c := C.At s.ctx x y
  let cr := toInt32 (toInt32 c.r + (s.gerror y x).R)
  let cg := toInt32 (toInt32 c.g + (s.gerror y x).G)
  let cb := toInt32 (toInt32 c.b + (s.gerror y x).B)
  match closest cr cg cb (C.PaletteAt s.ctx x y) with
  | none => none
  | some target =>
    let cr := toInt32 (toInt32 c.r - toInt32 target.r)
    let cg := toInt32 (toInt32 c.g - toInt32 target.g)
    let cb := toInt32 (toInt32 c.b - toInt32 target.b)
    some ⟨C.Set s.ctx x y target, diffuse s.gerror w h x y cr cg cb,
      s.calls ++ [(x, y, target)]⟩

/-- The residual of a pixel as the specification names it: per channel, the
source sample minus the chosen colour. -/
def residual (sample target : Color) : colError :=
  ⟨(sample.r : Int) - target.r, (sample.g : Int) - target.g, (sample.b : Int) - target.b⟩

/-- An error term increased, per channel, by `k * res / 16` with the division
truncating toward zero. -/
def colError.plusShare (e : colError) (k : Int) (res : colError) : colError :=
  ⟨e.R + Int.tdiv (k * res.R) 16, e.G + Int.tdiv (k * res.G) 16, e.B + Int.tdiv (k * res.B) 16⟩

/-- Every channel of the error term lies in `[-bound, bound]`. -/
def colError.within (e : colError) (bound : Int) : Prop :=
  (-bound ≤ e.R ∧ e.R ≤ bound) ∧ (-bound ≤ e.G ∧ e.G ≤ bound) ∧ (-bound ≤ e.B ∧ e.B ≤ bound)

instance (e : colError) (bound : Int) : Decidable (e.within bound) := by
  unfold colError.within; infer_instance

/-- The inner loop `for x := 0; x < w; x++` of `Convert`, on row `y`. -/
def rowLoop {σ : Type} (C : Context σ) (w h : Nat) (s : ConvertState σ) (y : Nat) :
    Option (ConvertState σ) :=
  (List.range w).foldlM (fun s x => pixelStep C w h s x y) s

/-- The state `Convert` starts its loops in: `gerror` is all zero. -/
def convertInit {σ : Type} (ctx : σ) : ConvertState σ :=
  ⟨ctx, fun _ _ => ⟨0, 0, 0⟩, []⟩

/-- The function `Convert`; the result is the state after the last pixel, or
`none` when `closest` panicked on an empty palette. -/
def Convert {σ : Type} (C : Context σ) (ctx : σ) : Option (ConvertState σ) :=
  let h := C.Height ctx
  let w := C.Width ctx
  (List.range h).foldlM (fun s y => rowLoop C w h s y) (convertInit ctx)

/-- The state of `Convert` after its first `n` loop iterations, in the order of
the loops: iteration number `k` is pixel `(k % w, k / w)`. -/
def convertSteps {σ : Type} (C : Context σ) (ctx : σ) (n : Nat) : Option (ConvertState σ) :=
  let h := C.Height ctx
  let w := C.Width ctx
  (List.range n).foldlM (fun s k => pixelStep C w h s (k % w) (k / w)) (convertInit ctx)

/-- The pixel coordinates in row-major order: `(0,0), (1,0), ..., (w-1,0),
(0,1), ..., (w-1,h-1)`. -/
def rowMajor (w h : Nat) : List (Nat × Nat) :=
  (List.range h).flatMap (fun y => (List.range w).map (fun x => (x, y)))

/-! ## `imageCtx` and `ToPalette` (dither.go, lines 103-143) -/

/-- An `image.Image`: its bounds (`Min` and the extents `Dx`, `Dy`) and its `At`
method. -/
structure Image where
  minX : Int
  minY : Int
  w : Nat
  h : Nat
  At : Int → Int → Color

/-- A `color.RGBA` value: four 8-bit fields. -/
structure RGBA8 where
  R : Nat
  G : Nat
  B : Nat
  A : Nat
deriving DecidableEq, Repr

/-- The method `color.RGBA.RGBA()` of the Go library: `r |= r << 8` on each
field. -/
def RGBA8.RGBA (c : RGBA8) : Color := ⟨c.R * 257, c.G * 257, c.B * 257, c.A * 257⟩

/-- The conversion `color.RGBAModel.Convert` of the Go library:
`RGBA{uint8(r >> 8), uint8(g >> 8), uint8(b >> 8), uint8(a >> 8)}`. -/
def rgbaModel (c : Color) : RGBA8 :=
  ⟨c.r / 256 % 256, c.g / 256 % 256, c.b / 256 % 256, c.a / 256 % 256⟩

/-- An `image.RGBA` of the Go library: its rectangle and the pixel stored at each
point of it. -/
structure RGBAImage where
  minX : Int
  minY : Int
  w : Nat
  h : Nat
  pix : Int → Int → RGBA8

/-- Membership of `(x, y)` in the rectangle of the image. -/
def RGBAImage.inRect (img : RGBAImage) (x y : Int) : Bool :=
  decide (img.minX ≤ x ∧ x < img.minX + img.w ∧ img.minY ≤ y ∧ y < img.minY + img.h)

/-- The constructor `image.NewRGBA`: every pixel is zero. -/
def NewRGBA (minX minY : Int) (w h : Nat) : RGBAImage :=
  ⟨minX, minY, w, h, fun _ _ => ⟨0, 0, 0, 0⟩⟩

/-- The method `(*image.RGBA).Set`: outside the rectangle nothing happens, inside
it the colour is stored after conversion to `color.RGBA`. -/
def RGBAImage.Set (img : RGBAImage) (x y : Int) (c : Color) : RGBAImage :=
  if img.inRect x y then
    { img with pix := fun x' y' => if x' = x ∧ y' = y then rgbaModel c else img.pix x' y' }
  else img

/-- The method `(*image.RGBA).At` followed by `RGBA()`: outside the rectangle the
zero colour. -/
def RGBAImage.At (img : RGBAImage) (x y : Int) : Color :=
  if img.inRect x y then (img.pix x y).RGBA else ⟨0, 0, 0, 0⟩

/-- The struct `imageCtx`. -/
structure imageCtx where
  src : Image
  dest : RGBAImage
  palette : Palette

/-- The five methods of `*imageCtx`. -/
def imageCtxOps : Context imageCtx where
  Width := fun ctx => ctx.src.w
  Height := fun ctx => ctx.src.h
  At := fun ctx x y => ctx.src.At (x + ctx.src.minX) (y + ctx.src.minY)
  PaletteAt := fun ctx _ _ => ctx.palette
  Set := fun ctx x y c => { ctx with dest := ctx.dest.Set (x + ctx.dest.minX) (y + ctx.dest.minY) c }

/-- The state in which `ToPalette` leaves `Convert`. -/
def ToPaletteState (img : Image) (palette : Palette) : Option (ConvertState imageCtx) :=
  Convert imageCtxOps ⟨img, NewRGBA img.minX img.minY img.w img.h, palette⟩

/-- The function `ToPalette`. -/
def ToPalette (img : Image) (palette : Palette) : Option RGBAImage :=
  (ToPaletteState img palette).map (fun s => s.ctx.dest)

/-- A 2x2 image of one colour, for concrete instances. -/
def sampleImage : Image := ⟨0, 0, 2, 2, fun _ _ => ⟨65535, 0, 0, 65535⟩⟩

/-- Black and white as 8-bit colours, for concrete instances. -/
def samplePalette : Palette := [⟨0, 0, 0, 65535⟩, ⟨65535, 65535, 65535, 65535⟩]

/-- The context `ToPalette` builds from `sampleImage` and `samplePalette`. -/
def sampleCtx : imageCtx := ⟨sampleImage, NewRGBA 0 0 2 2, samplePalette⟩

/-- A 1x1 image of one 16-bit colour, for a concrete instance. -/
def deepImage : Image := ⟨0, 0, 1, 1, fun _ _ => ⟨4660, 0, 0, 65535⟩⟩

/-- A palette whose only colour, `color.RGBA64{0x1234, 0, 0, 0xffff}`, is not an
8-bit colour. -/
def deepPalette : Palette := [⟨4660, 0, 0, 65535⟩]

/-! ## The master palette (main.go, lines 26-44) -/

/-- The colour of a `color.RGBA{r, g, b, a}` literal. -/
def rgba (r g b a : Nat) : Color := (⟨r, g, b, a⟩ : RGBA8).RGBA

/-- The palette `C64`. -/
def C64 : Palette :=
  [rgba 0x00 0x00 0x00 0xFF, rgba 0xFF 0xFF 0xFF 0xFF, rgba 0x8A 0x41 0x33 0xFF,
   rgba 0x2B 0xBC 0xD8 0xFF, rgba 0x95 0x49 0x9E 0xFF, rgba 0x39 0x9D 0x2C 0xFF,
   rgba 0x40 0x3A 0x7B 0xFF, rgba 0xBF 0xD1 0x0E 0xFF, rgba 0x95 0x56 0x21 0xFF,
   rgba 0x53 0x40 0x09 0xFF, rgba 0xDC 0x68 0x52 0xFF, rgba 0x50 0x50 0x50 0xFF,
   rgba 0x78 0x78 0x78 0xFF, rgba 0x55 0xEC 0x42 0xFF, rgba 0x78 0x6C 0xE7 0xFF,
   rgba 0x9F 0x9F 0x9F 0xFF]

/-! ## `convertMC`, step one (c64mcbmp.go, lines 38-58) -/

/-- Lines 41-46 of `convertMC`: the half width `bounds.Dx() / 2` and the height,
or the error the function returns with a nil result. -/
def convertMCGuard (src : Image) : Except String (Nat × Nat) :=
  let w := src.w / 2
  let h := src.h
  if w ≠ 160 ∨ h ≠ 200 then Except.error "Image to convert must be 320x200"
  else Except.ok (w, h)

/-- The expression `uint16((c1 + c2) / 2)` on `uint32` operands. -/
def average (c1 c2 : Nat) : Nat := (c1 + c2) % 4294967296 / 2 % 65536

/-- The `color.RGBA64` that lines 50-55 build for output pixel `(x, y)`. -/
def averagePair (src : Image) (x y : Nat) : Color :=
  let c1 := src.At ((x : Int) * 2 + src.minX) ((y : Int) + src.minY)
  let c2 := src.At ((x : Int) * 2 + src.minX + 1) ((y : Int) + src.minY)
  ⟨average c1.r c2.r, average c1.g c2.g, average c1.b c2.b, average c1.a c2.a⟩

/-- The inner loop of lines 48-58, on row `y`. -/
def downsampleRow (src : Image) (w : Nat) (dest : RGBAImage) (y : Nat) : RGBAImage :=
  (List.range w).foldl (fun dest (x : Nat) => dest.Set (x : Int) (y : Int) (averagePair src x y)) dest

/-- Lines 47-58 of `convertMC`: the half-width image `dest`. -/
def downsample (src : Image) (w h : Nat) : RGBAImage :=
  (List.range h).foldl (fun dest y => downsampleRow src w dest y) (NewRGBA 0 0 w h)

/-! ## `convertMC`, steps three and four (c64mcbmp.go, lines 74-156) -/

/-- A `for` loop over the indices of the list, in order, whose body starts with
`if brk i { break }`. -/
def loopBreak {α : Type} (brk : Nat → Bool) (body : Nat → α → Option α) :
    List Nat → α → Option α
  | [], a => some a
  | i :: is, a => if brk i then some a else (body i a).bind (loopBreak brk body is)

/-- The loop `for i := i0; i < bound; i += step`.  It makes at most `fuel - 1`
iterations; `none` is a panic of the body or the exhaustion of `fuel`. -/
def loopStep {α : Type} (step bound : Nat) (body : Nat → α → Option α) :
    Nat → Nat → α → Option α
  | 0, _, _ => none
  | fuel + 1, i, a =>
    if i < bound then (body i a).bind (loopStep step bound body fuel (i + step))
    else some a

/-- The pixel index grid `pixmap`, read as `p[x][y]`. -/
abbrev Pixmap := List (List Nat)

/-- The body of the loops over `cx` and `cy` after the two `break` tests, at grid
cell `(xx, yy)`: the state is `charUse` and `charColorCount`. -/
def charUseCell (p : Pixmap) (bg : Int) (xx yy : Nat) (st : List Nat × Nat) :
    Option (List Nat × Nat) :=
  match (p[xx]?).bind (fun col => col[yy]?) with
  | none => none
  | some c =>
    if (c : Int) = bg then some st
    else
      match st.1[c]? with
      | none => none
      | some u => some (st.1.set c (u + 1), if u = 0 then st.2 + 1 else st.2)

/-- Lines 82-101 (and, without `charColorCount`, lines 123-138): the histogram
`charUse` of the tile whose top left pixel is `(x, y)`, and the number
`charColorCount` of its non-zero entries. -/
def charUseTile (p : Pixmap) (w h : Nat) (bg : Int) (x y : Nat) : Option (List Nat × Nat) :=
  loopBreak (fun cy => decide (y + cy ≥ h))
    (fun cy st => loopBreak (fun cx => decide (x + cx ≥ w))
      (fun cx st => charUseCell p bg (x + cx) (y + cy) st) (List.range 4) st)
    (List.range 8) (List.replicate 16 0, 0)

/-- The function `sort.Ints` of the Go library: the list in increasing order. -/
def sortInts (l : List Nat) : List Nat := l.insertionSort (fun a b => a ≤ b)

/-- Lines 82-107: the body of the loop over `x`, adding the cost of one tile to
`pixerr`. -/
def tileCost (p : Pixmap) (w h proposedBG x y pixerr : Nat) : Option Nat :=
  (charUseTile p w h proposedBG x y).map fun st =>
    if st.2 > 3 then ((sortInts st.1).take 13).foldl (fun acc v => acc + v) pixerr
    else pixerr

/-- Lines 79-109: the value of `pixerr` for the candidate `proposedBG`. -/
def bgCost (p : Pixmap) (w h proposedBG : Nat) : Option Nat :=
  loopStep 8 h
    (fun y pixerr => loopStep 4 w (fun x pixerr => tileCost p w h proposedBG x y pixerr)
      (w + 1) 0 pixerr)
    (h + 1) 0 0

/-- Lines 76-114: the search over the 16 candidates; the result is
`(besterr, bmp.bg)`. -/
def bgSearch (p : Pixmap) (w h : Nat) : Option (Nat × Int) :=
  (List.range 16).foldlM
    (fun st proposedBG => (bgCost p w h proposedBG).map fun pixerr =>
      if pixerr < st.1 then (pixerr, (proposedBG : Int)) else st)
    (65000, -1)

/-- The state of lines 140-153: the counts `c1, c2, c3` and the indices
`i1, i2, i3`. -/
structure Top3 where
  c1 : Int
  c2 : Int
  c3 : Int
  i1 : Nat
  i2 : Nat
  i3 : Nat
deriving DecidableEq, Repr

/-- The body of the loop of lines 142-153 for index `i` and count `c`. -/
def top3Step (t : Top3) (i : Nat) (c : Int) : Top3 :=
  if c > t.c3 then ⟨t.c2, t.c3, c, t.i2, t.i3, i⟩
  else if c > t.c2 then ⟨t.c2, c, t.c3, t.i2, i, t.i3⟩
  else if c > t.c1 then ⟨c, t.c2, t.c3, i, t.i2, t.i3⟩
  else t

/-- The loop `for i, c := range charUse` of lines 142-153, from index `i` on. -/
def top3Loop : List Nat → Nat → Top3 → Top3
  | [], _, t => t
  | c :: rest, i, t => top3Loop rest (i + 1) (top3Step t i c)

/-- Lines 140-153: the three most common entries of `charUse`. -/
def top3 (charUse : List Nat) : Top3 := top3Loop charUse 0 ⟨-1, -1, -1, 0, 0, 0⟩

/-- Lines 123-154: the palette
`color.Palette{C64[bmp.bg], C64[i1], C64[i2], C64[i3]}` of the tile with top left
pixel `(x, y)`; `none` when an index expression panics. -/
def tilePalette (p : Pixmap) (w h : Nat) (bg : Int) (x y : Nat) : Option Palette :=
  match charUseTile p w h bg x y with
  | none => none
  | some st =>
    let t := top3 st.1
    if bg < 0 then none
    else
      match C64[bg.toNat]?, C64[t.i1]?, C64[t.i2]?, C64[t.i3]? with
      | some c0, some c1, some c2, some c3 => some [c0, c1, c2, c3]
      | _, _, _, _ => none

/-! ## Concrete inputs for `convertMC` -/

/-- A 321x200 image of one colour. -/
def wideImage : Image := ⟨0, 0, 321, 200, fun _ _ => ⟨0, 0, 0, 65535⟩⟩

/-- A 320x200 image, black except for the pixel `(1, 0)`, which is
`color.RGBA{1, 0, 0, 255}`. -/
def stepImage : Image :=
  ⟨0, 0, 320, 200, fun x y => if x = 1 ∧ y = 0 then ⟨257, 0, 0, 65535⟩ else ⟨0, 0, 0, 65535⟩⟩

/-- A 5x2 image of one colour, for a concrete instance with an interior pixel. -/
def stripImage : Image := ⟨0, 0, 5, 2, fun _ _ => ⟨30000, 20000, 10000, 65535⟩⟩

/-- The state in which `Convert` starts on `stripImage` with `samplePalette`. -/
def stripState : ConvertState imageCtx :=
  convertInit ⟨stripImage, NewRGBA 0 0 5 2, samplePalette⟩

/-! ## The error one pixel hands on (dither.go, lines 78-97) -/

/-- The sum of the shares that lines 78-97 add to `gerror` for one channel with
residual `c`, at pixel `(x, y)` of a grid of height `h` and width `w`: each
share is counted under the condition that guards its three `+=`. -/
def distributed (w h x y : Nat) (c : Int) : Int :=
  (if x + 1 < w then share c 7 else 0) +
  (if y + 1 < h then
    (if (x : Int) - 1 > 0 then share c 3 else 0) +
    (if x + 2 < w then Int.tdiv c 16 else 0) + share c 5
   else 0)

/-- The total weight, in sixteenths, of the shares that cell `(cx, cy)` of
`gerror` has received once the first `k` iterations of `Convert` are done: 7
from the pixel to its left, 3 from the pixel above right, 1 from the pixel above
left and 5 from the pixel above, each counted when that pixel has been processed
and the condition guarding the share held there. -/
def received (w h k cy cx : Nat) : Int :=
  (if 1 ≤ cx ∧ cx < w ∧ cy < h ∧ cy * w + (cx - 1) < k then 7 else 0) +
  (if 1 ≤ cy ∧ cy < h ∧ 1 ≤ cx ∧ cx + 1 < w ∧ (cy - 1) * w + (cx + 1) < k then 3 else 0) +
  (if 1 ≤ cy ∧ cy < h ∧ 1 ≤ cx ∧ cx + 1 < w ∧ (cy - 1) * w + (cx - 1) < k then 1 else 0) +
  (if 1 ≤ cy ∧ cy < h ∧ cx < w ∧ (cy - 1) * w + cx < k then 5 else 0)

/-- Every channel of the error term is at most `weight / 16` of 65535 in
absolute value. -/
def colError.scaledWithin (e : colError) (weight : Int) : Prop :=
  (-(65535 * weight) ≤ 16 * e.R ∧ 16 * e.R ≤ 65535 * weight) ∧
  (-(65535 * weight) ≤ 16 * e.G ∧ 16 * e.G ≤ 65535 * weight) ∧
  (-(65535 * weight) ≤ 16 * e.B ∧ 16 * e.B ≤ 65535 * weight)

/-- The weight, in sixteenths, of the share that the iteration at pixel `(x, y)`
adds to cell `(cx, cy)` of `gerror`: 7, 3, 1 or 5 for the four neighbours that
lines 78-97 update under their conditions, 0 for every other cell. -/
def gain (w h x y cy cx : Nat) : Int :=
  (if cy = y ∧ cx = x + 1 ∧ x + 1 < w then 7 else 0) +
  (if cy = y + 1 ∧ y + 1 < h ∧ cx + 1 = x ∧ 2 ≤ x then 3 else 0) +
  (if cy = y + 1 ∧ y + 1 < h ∧ cx = x + 1 ∧ x + 2 < w then 1 else 0) +
  (if cy = y + 1 ∧ y + 1 < h ∧ cx = x then 5 else 0)

/-- The share of weight `k` of the residual `c` as the code computes it:
`c / 16` for the weight 1 and `c * k / 16` for the others. -/
def shareOf (k c : Int) : Int := if k = 1 then Int.tdiv c 16 else share c k

/-- The contexts `Convert` is meant for, described by a property `P` of the
context that `Set` preserves: at every pixel the palette is non-empty and the
palette colours and the source sample are 16-bit. -/
def WellFormed16 {σ : Type} (C : Context σ) (P : σ → Prop) (ctx : σ) : Prop :=
  P ctx ∧ (∀ s x y c, P s → P (C.Set s x y c)) ∧
  ∀ s x y, P s → x < C.Width ctx → y < C.Height ctx →
    C.PaletteAt s x y ≠ [] ∧ (∀ v ∈ C.PaletteAt s x y, v.valid) ∧ (C.At s x y).valid

/-- The value fits the type `int32`. -/
def fitsInt32 (n : Int) : Prop := -2147483648 ≤ n ∧ n < 2147483648

/-- An error term increased, per channel, by the share of weight `k` of the
residual, in unbounded integers. -/
def colError.plusShareOf (e : colError) (k : Int) (res : colError) : colError :=
  ⟨e.R + shareOf k res.R, e.G + shareOf k res.G, e.B + shareOf k res.B⟩

/-- The property of the contexts reached from the one of `stripState`: the
source image and the palette stay as they are. -/
def stripInvariant (s : imageCtx) : Prop := s.src = stripImage ∧ s.palette = samplePalette

/-! ## The three most common colours of a tile -/

/-- The count of colour `i` in the histogram `u`, as an integer. -/
@[irreducible]
def countOf (u : List Nat) (i : Nat) : Int := ((u.getD i 0 : Nat) : Int)

/-- The index `j` is held by one of the slots that have been filled (a slot is
empty while its count is the initial -1). -/
def Top3.selected (t : Top3) (j : Nat) : Prop :=
  (0 ≤ t.c1 ∧ j = t.i1) ∨ (0 ≤ t.c2 ∧ j = t.i2) ∨ (0 ≤ t.c3 ∧ j = t.i3)

/-- What the loop of lines 142-153 has established once the indices below `n`
are scanned: the slots are in increasing order of count, a slot that ties with a
higher one holds the later index, filled slots hold distinct scanned indices
with their counts, as many slots are filled as indices were scanned (up to
three), and every scanned index not in a slot has a count at most that of every
slot, and comes after the slot's index when the counts are equal. -/
def Top3Inv (u : List Nat) (n : Nat) (t : Top3) : Prop :=
  (t.c1 ≤ t.c2 ∧ t.c2 ≤ t.c3) ∧
  ((t.c1 = -1 ∨ (t.i1 < n ∧ t.c1 = countOf u t.i1)) ∧
    (t.c2 = -1 ∨ (t.i2 < n ∧ t.c2 = countOf u t.i2)) ∧
    (t.c3 = -1 ∨ (t.i3 < n ∧ t.c3 = countOf u t.i3))) ∧
  ((0 ≤ t.c1 → t.c1 = t.c2 → t.i2 < t.i1) ∧ (0 ≤ t.c2 → t.c2 = t.c3 → t.i3 < t.i2)) ∧
  ((0 ≤ t.c1 → t.i1 ≠ t.i2 ∧ t.i1 ≠ t.i3) ∧ (0 ≤ t.c2 → t.i2 ≠ t.i3)) ∧
  ((1 ≤ n → 0 ≤ t.c3) ∧ (2 ≤ n → 0 ≤ t.c2) ∧ (3 ≤ n → 0 ≤ t.c1)) ∧
  ∀ j, j < n → ¬ t.selected j →
    countOf u j ≤ t.c1 ∧ (countOf u j = t.c1 → t.i1 < j) ∧ (countOf u j = t.c2 → t.i2 < j) ∧
      (countOf u j = t.c3 → t.i3 < j)


/-! ## The Go library function `color.Palette.Index` -/

/-- The function `sqDiff` of the Go library (package `image/color`): the
difference of two `uint32` values, squared in `uint32` and shifted right by 2. -/
def sqDiff (x y : Nat) : Nat :=
  toUint32 ((toUint32 ((x : Int) - (y : Int)) : Int) * (toUint32 ((x : Int) - (y : Int)) : Int)) / 4

/-- The loop of `color.Palette.Index` from entry `i` of the palette on; the state
is `(ret, bestSum)`, and a sum of zero returns at once. -/
def indexLoop (c : Color) : List Color → Nat → Nat × Nat → Nat
  | [], _, st => st.1
  | v :: rest, i, st =>
    if toUint32 ((sqDiff c.r v.r + sqDiff c.g v.g + sqDiff c.b v.b + sqDiff c.a v.a : Nat) : Int)
        < st.2 then
      if toUint32 ((sqDiff c.r v.r + sqDiff c.g v.g + sqDiff c.b v.b + sqDiff c.a v.a : Nat) : Int)
          = 0 then i
      else indexLoop c rest (i + 1)
        (i, toUint32 ((sqDiff c.r v.r + sqDiff c.g v.g + sqDiff c.b v.b + sqDiff c.a v.a : Nat) : Int))
    else indexLoop c rest (i + 1) st

/-- The method `color.Palette.Index` of the Go library: the index of the palette
colour closest to `c`, and 0 for the empty palette. -/
def Index (p : Palette) (c : Color) : Nat := indexLoop c p 0 (0, 4294967295)

/-! ## The struct `c64bmp` (c64mcbmp.go, lines 12-36 and 183-203) -/

/-- The index expression `g[x][y]` on a slice of slices. -/
def cellAt {α : Type} (g : List (List α)) (x y : Nat) : Option α :=
  (g[x]?).bind (fun col => col[y]?)

/-- The assignment `g[x][y] = v` on a slice of slices. -/
def setCell {α : Type} (g : List (List α)) (x y : Nat) (v : α) : Option (List (List α)) :=
  match g[x]? with
  | none => none
  | some col => if y < col.length then some (g.set x (col.set y v)) else none

/-- The assignment `result[i] = v` on a slice. -/
def setByte (result : List Nat) (i v : Nat) : Option (List Nat) :=
  if i < result.length then some (result.set i v) else none

/-- The struct `c64bmp`.  The field `src` has the type of the one value that
`convertMC` stores in it, the `*image.RGBA` of line 47. -/
structure c64bmp where
  src : RGBAImage
  pixmap : Pixmap
  palettes : List (List Palette)
  bg : Int

/-- The function `newC64bmp`: a `w` by `h` grid of zeros, a grid of
`(w + 3) / 4` by `(h + 7) / 8` nil palettes, and zero values in the fields that
are not assigned. -/
def newC64bmp (w h : Nat) : c64bmp :=
  ⟨NewRGBA 0 0 0 0, List.replicate w (List.replicate h 0),
    List.replicate ((w + 3) / 4) (List.replicate ((h + 7) / 8) []), 0⟩

/-- The five methods of `*c64bmp` (lines 184-203).  The methods are total here:
an index expression of `PaletteAt` that is out of range gives the empty palette,
on which `closest` fails, and `Set` outside the grid changes nothing. -/
def c64bmpOps : Context c64bmp where
  Width := fun ctx => ctx.pixmap.length
  Height := fun ctx => (ctx.pixmap.headD []).length
  At := fun ctx x y => ctx.src.At (x : Int) (y : Int)
  PaletteAt := fun ctx x y => (ctx.palettes.getD (x / 4) []).getD (y / 8) []
  Set := fun ctx x y c =>
    ⟨ctx.src,
      ctx.pixmap.set x
        ((ctx.pixmap.getD x []).set y (Index ((ctx.palettes.getD (x / 4) []).getD (y / 8) []) c)),
      ctx.palettes, ctx.bg⟩

/-- An `*image.RGBA` used as an `image.Image`. -/
def RGBAImage.toImage (img : RGBAImage) : Image := ⟨img.minX, img.minY, img.w, img.h, img.At⟩

/-! ## `convertMC`, steps two and three (c64mcbmp.go, lines 59-157) -/

/-- Lines 68-72: the loops that fill the pixel index grid from `pass1`. -/
def fillPixmap (pass1 : RGBAImage) (w h : Nat) (p : Pixmap) : Option Pixmap :=
  (List.range h).foldlM
    (fun p y => (List.range w).foldlM
      (fun p x => setCell p x y (Index C64 (pass1.At (x : Int) (y : Int)))) p) p

/-- Lines 121-156: the loops that assign a palette to every tile. -/
def assignPalettes (p : Pixmap) (w h : Nat) (bg : Int) (pals : List (List Palette)) :
    Option (List (List Palette)) :=
  loopStep 8 h
    (fun y pals => loopStep 4 w
      (fun x pals => (tilePalette p w h bg x y).bind fun pal => setCell pals (x / 4) (y / 8) pal)
      (w + 1) 0 pals)
    (h + 1) 0 pals

/-- Lines 47-156 of `convertMC`, after the test of the size has passed with the
half width `w` and the height `h`: the `c64bmp` on which `dither.Convert` is
then called. -/
def convertMCPlan (src : Image) (w h : Nat) : Option c64bmp :=
  (ToPalette (downsample src w h).toImage C64).bind fun pass1 =>
    (fillPixmap pass1 w h (newC64bmp w h).pixmap).bind fun p =>
      (bgSearch p w h).bind fun best =>
        (assignPalettes p w h best.2 (newC64bmp w h).palettes).map fun pals =>
          ⟨downsample src w h, p, pals, best.2⟩

/-- Lines 47-157 of `convertMC`: the `c64bmp` after `dither.Convert(bmp)`. -/
def convertMCDither (src : Image) (w h : Nat) : Option c64bmp :=
  (convertMCPlan src w h).bind fun bmp => (Convert c64bmpOps bmp).map fun s => s.ctx

/-! ## The output of `convertMC` (c64mcbmp.go, lines 159-260) -/

/-- The expression `bmp.PaletteAt(x, y)[bmp.pixmap[x][y]]` of line 166. -/
def previewColor (bmp : c64bmp) (x y : Nat) : Option Color :=
  (cellAt bmp.pixmap x y).bind fun i => (c64bmpOps.PaletteAt bmp x y)[i]?

/-- Lines 162-170: the preview image. -/
def convertMCPreview (bmp : c64bmp) : Option RGBAImage :=
  (List.range (c64bmpOps.Height bmp)).foldlM
    (fun img y => (List.range (c64bmpOps.Width bmp)).foldlM
      (fun (img : RGBAImage) x => (previewColor bmp x y).map fun c =>
        (img.Set ((x : Int) * 2) (y : Int) c).Set ((x : Int) * 2 + 1) (y : Int) c) img)
    (NewRGBA 0 0 (c64bmpOps.Width bmp * 2) (c64bmpOps.Height bmp))

/-- The function `colormap`; the state of the loops is `(result, i)`. -/
def colormap (bmp : c64bmp) : Option (List Nat) :=
  match bmp.palettes[0]? with
  | none => none
  | some col0 =>
    ((List.range col0.length).foldlM
      (fun (st : List Nat × Nat) y => (List.range bmp.palettes.length).foldlM
        (fun (st : List Nat × Nat) x =>
          ((cellAt bmp.palettes x y).bind fun pal => pal[3]?).bind fun c =>
            (setByte st.1 st.2 (Index C64 c % 256)).map fun r => (r, st.2 + 1)) st)
      (List.replicate (bmp.palettes.length * col0.length) 0, 0)).map fun st => st.1

/-- The function `textmap`; the state of the loops is `(result, i)`. -/
def textmap (bmp : c64bmp) : Option (List Nat) :=
  match bmp.palettes[0]? with
  | none => none
  | some col0 =>
    ((List.range col0.length).foldlM
      (fun (st : List Nat × Nat) y => (List.range bmp.palettes.length).foldlM
        (fun (st : List Nat × Nat) x =>
          ((cellAt bmp.palettes x y).bind fun pal => pal[1]?).bind fun c1 =>
            ((cellAt bmp.palettes x y).bind fun pal => pal[2]?).bind fun c2 =>
              (setByte st.1 st.2 ((Index C64 c1 % 256 * 16 + Index C64 c2 % 256) % 256)).map
                fun r => (r, st.2 + 1)) st)
      (List.replicate (bmp.palettes.length * col0.length) 0, 0)).map fun st => st.1

/-- Lines 245-253 of `bitmap`: the byte `v` of row `yy` of the tile whose left
column is `x`, when the row is inside the grid. -/
def bitmapRow (p : Pixmap) (w x yy : Nat) : Option Nat :=
  (List.range 4).foldlM
    (fun v cx =>
      if x + cx < w then (cellAt p (x + cx) yy).map fun c => (v * 4 % 256 + c % 256) % 256
      else some (v * 4 % 256)) 0

/-- Lines 244-256 of `bitmap`: the eight bytes of the tile with top left pixel
`(x, y)`; the state is `(result, i)`. -/
def bitmapTile (p : Pixmap) (w h x y : Nat) (st : List Nat × Nat) : Option (List Nat × Nat) :=
  (List.range 8).foldlM
    (fun (st : List Nat × Nat) cy =>
      (if y + cy < h then bitmapRow p w x (y + cy) else some 0).bind fun v =>
        (setByte st.1 st.2 v).map fun r => (r, st.2 + 1)) st

/-- Lines 235-258 of `bitmap`: the values of `result` and `i` after the
loops. -/
def bitmapState (bmp : c64bmp) : Option (List Nat × Nat) :=
  match bmp.pixmap[0]?, bmp.palettes[0]? with
  | some col0, some pal0 =>
    loopStep 8 col0.length
      (fun y st => loopStep 4 bmp.pixmap.length
        (fun x st => bitmapTile bmp.pixmap bmp.pixmap.length col0.length x y st)
        (bmp.pixmap.length + 1) 0 st)
      (col0.length + 1) 0
      (List.replicate (bmp.palettes.length * pal0.length * 8) 0, 0)
  | _, _ => none

/-- The function `bitmap`. -/
def bitmap (bmp : c64bmp) : Option (List Nat) := (bitmapState bmp).map fun st => st.1

/-- Lines 172-179: the bytes written to `outbuf`; the last one is
`byte(bmp.bg)`. -/
def convertMCData (bmp : c64bmp) : Option (List Nat) :=
  (bitmap bmp).bind fun bm => (textmap bmp).bind fun tm => (colormap bmp).map fun cm =>
    [0x00, 0x60] ++ bm ++ tm ++ cm ++ [(bmp.bg % 256).toNat]

/-- The struct `DitherResult`. -/
structure DitherResult where
  Preview : RGBAImage
  Data : List Nat

/-- Lines 47-180 of `convertMC`, after the test of the size has passed. -/
def convertMCResult (src : Image) (w h : Nat) : Option DitherResult :=
  (convertMCDither src w h).bind fun bmp =>
    (convertMCPreview bmp).bind fun pv => (convertMCData bmp).map fun d => ⟨pv, d⟩

/-- The function `convertMC`: the error it returns, or its result, which is
`none` when the function panics. -/
def convertMC (src : Image) : Except String (Option DitherResult) :=
  match convertMCGuard src with
  | Except.error e => Except.error e
  | Except.ok wh => Except.ok (convertMCResult src wh.1 wh.2)

/-! ## The cost of a candidate background in the words of the specification -/

/-- A grid of `w` columns of `h` cells each. -/
def isGrid {α : Type} (g : List (List α)) (w h : Nat) : Prop :=
  g.length = w ∧ ∀ col ∈ g, col.length = h

/-- Every cell of the grid is a colour index below `n`. -/
def cellsBelow (p : Pixmap) (n : Nat) : Prop := ∀ col ∈ p, ∀ c ∈ col, c < n

/-- The colours of the pixels of the tile with top left pixel `(x, y)`, as far as
the tile lies inside the `w` by `h` grid. -/
def tilePixels (p : Pixmap) (w h x y : Nat) : List Nat :=
  (List.range (min 8 (h - y))).flatMap fun cy =>
    (List.range (min 4 (w - x))).map fun cx => (p.getD (x + cx) []).getD (y + cy) 0

/-- The number of pixels of colour `c` among the pixels whose colour is not
`b`. -/
def specCount (pixels : List Nat) (b c : Nat) : Nat := if c = b then 0 else pixels.count c

/-- The sum of the three largest entries of a list of counts: the largest entry,
the largest of the remaining ones, and the largest of those that then remain. -/
def largest3 (counts : List Nat) : Nat :=
  counts.foldr max 0 + (counts.erase (counts.foldr max 0)).foldr max 0 +
    ((counts.erase (counts.foldr max 0)).erase
      ((counts.erase (counts.foldr max 0)).foldr max 0)).foldr max 0

/-- The number of distinct colours other than `b` in a tile. -/
def specDistinct (pixels : List Nat) (b : Nat) : Nat :=
  ((List.range 16).filter (fun c => decide (c ≠ b ∧ c ∈ pixels))).length

/-- The contribution of one tile to the cost of background `b`: nothing for at
most three distinct colours other than `b`, and otherwise the number of pixels
whose colour is not `b` minus the sum of the three largest counts. -/
def specTileCost (pixels : List Nat) (b : Nat) : Nat :=
  if specDistinct pixels b > 3 then
    (pixels.filter (fun c => decide (c ≠ b))).length -
      largest3 ((List.range 16).map (specCount pixels b))
  else 0

/-- The cost of background `b`: the sum of the contributions of all tiles. -/
def specCost (p : Pixmap) (w h b : Nat) : Nat :=
  ((List.range ((h + 7) / 8)).map fun ty =>
    ((List.range ((w + 3) / 4)).map fun tx =>
      specTileCost (tilePixels p w h (4 * tx) (8 * ty)) b).sum).sum

/-! ## The histogram of a tile as a fold -/

/-- The effect of `charUseCell` on `(charUse, charColorCount)` at a cell that
holds the colour `c`. -/
def histStep (bg : Int) (st : List Nat × Nat) (c : Nat) : List Nat × Nat :=
  if (c : Int) = bg then st
  else (st.1.set c (st.1.getD c 0 + 1), if st.1.getD c 0 = 0 then st.2 + 1 else st.2)

/-- One 4x8 tile as a grid of its own, with five colours besides colour 0. -/
def tileGrid : Pixmap :=
  [[0, 1, 2, 3, 4, 0, 0, 0], [1, 1, 2, 3, 4, 0, 0, 0], [1, 1, 2, 2, 4, 0, 0, 0],
   [5, 1, 2, 3, 3, 0, 0, 0]]

/-- The pixel index grid of 160 by 200 zeros. -/
def zeroGrid : Pixmap := List.replicate 160 (List.replicate 200 0)

/-! ## The bytes of the output as functions of the grids -/

/-- The value that `bitmapRow` computes on a grid, read off the grid. -/
def rowByte (p : Pixmap) (w x yy : Nat) : Nat :=
  (List.range 4).foldl
    (fun v cx =>
      if x + cx < w then (v * 4 % 256 + (p.getD (x + cx) []).getD yy 0 % 256) % 256
      else v * 4 % 256) 0

/-- The value that `bitmap` writes at index `j` of `result`: row `j % 8` of
tile number `j / 8`, the tiles being counted row by row. -/
def bitmapByte (p : Pixmap) (w h j : Nat) : Nat :=
  if j / 8 / ((w + 3) / 4) * 8 + j % 8 < h then
    rowByte p w (j / 8 % ((w + 3) / 4) * 4) (j / 8 / ((w + 3) / 4) * 8 + j % 8)
  else 0

/-- The value that `textmap` writes for a tile with palette `pal`. -/
def textByte (pal : Palette) : Nat :=
  (Index C64 (pal.getD 1 ⟨0, 0, 0, 0⟩) % 256 * 16 + Index C64 (pal.getD 2 ⟨0, 0, 0, 0⟩) % 256) % 256

/-- The value that `colormap` writes for a tile with palette `pal`. -/
def colorByte (pal : Palette) : Nat := Index C64 (pal.getD 3 ⟨0, 0, 0, 0⟩) % 256

/-! ## More concrete inputs -/

/-- A 320x200 image whose every pixel is the colour `C64[k]`. -/
def uniformImage (k : Nat) : Image := ⟨0, 0, 320, 200, fun _ _ => C64.getD k ⟨0, 0, 0, 0⟩⟩

/-- A 5x9 grid with values in 0..3: two tiles across and two down, the right
and the lower ones partial. -/
def edgeGrid : Pixmap :=
  [[0, 1, 2, 3, 0, 1, 2, 3, 1], [1, 1, 2, 3, 0, 1, 2, 3, 2], [2, 1, 2, 3, 0, 1, 2, 3, 3],
   [3, 1, 2, 3, 0, 1, 2, 3, 0], [3, 2, 1, 0, 3, 2, 1, 0, 2]]

/-- A 4x8 grid with values in 0..3: one tile. -/
def bitGrid : Pixmap :=
  [[0, 1, 2, 3, 0, 1, 2, 3], [1, 1, 2, 3, 0, 1, 2, 0], [2, 1, 2, 3, 0, 1, 2, 1],
   [3, 1, 2, 3, 0, 1, 2, 2]]

/-- A `c64bmp` whose pixel index grid is `bitGrid`, with the palette grid that
`newC64bmp` builds for its size. -/
def bitBmp : c64bmp := ⟨NewRGBA 0 0 0 0, bitGrid, (newC64bmp 4 8).palettes, 0⟩

/-- A `c64bmp` whose pixel index grid is `edgeGrid`, with the palette grid that
`newC64bmp` builds for its size. -/
def edgeBmp : c64bmp := ⟨NewRGBA 0 0 0 0, edgeGrid, (newC64bmp 5 9).palettes, 0⟩

/-- The palette of the first four master colours. -/
def tilePal : Palette :=
  [rgba 0x00 0x00 0x00 0xFF, rgba 0xFF 0xFF 0xFF 0xFF, rgba 0x8A 0x41 0x33 0xFF,
   rgba 0x2B 0xBC 0xD8 0xFF]

/-- A `c64bmp` of 160 by 200 pixels in which every tile has the palette
`tilePal`. -/
def plannedBmp : c64bmp :=
  ⟨NewRGBA 0 0 160 200, zeroGrid, List.replicate 40 (List.replicate 25 tilePal), 0⟩
/-! ## Properties of `closest` -/

theorem toInt32_of_range (n : Int) (h1 : -2147483648 ≤ n) (h2 : n < 2147483648) :
    toInt32 n = n := by
  unfold toInt32; omega

theorem toUint32_of_range (n : Int) (h1 : 0 ≤ n) (h2 : n < 4294967296) :
    (toUint32 n : Int) = n := by
  unfold toUint32; omega

theorem ssdOf_lt (r g b : Int) (v : Color) : ssdOf r g b v < 4294967296 :=
  Nat.mod_lt _ (by norm_num)

/-- One channel without wrap-around: for a query in `[-10139, 75674]` and a
16-bit entry the computed square is the exact square of the halved
difference, and it is at most `37837^2`. -/
theorem sqComponent_exact (q : Int) (v : Nat) (h1 : -10139 ≤ q) (h2 : q ≤ 75674)
    (hv : v < 65536) :
    (sqComponent q v : Int) = ((q - v) / 2) ^ 2 ∧ sqComponent q v ≤ 1431638569 := by
  have hc1 : -37837 ≤ (q - v) / 2 := by omega
  have hc2 : (q - v) / 2 ≤ 37837 := by omega
  have hsq1 : 0 ≤ ((q - v) / 2) * ((q - v) / 2) := mul_self_nonneg _
  have hsq2 : ((q - v) / 2) * ((q - v) / 2) ≤ 1431638569 := by nlinarith
  have e1 : toInt32 (v : Int) = v := toInt32_of_range _ (by omega) (by omega)
  have e2 : toInt32 (q - v) = q - v := toInt32_of_range _ (by omega) (by omega)
  have e3 : toInt32 (((q - v) / 2) * ((q - v) / 2)) = ((q - v) / 2) * ((q - v) / 2) :=
    toInt32_of_range _ (by omega) (by omega)
  have e4 := toUint32_of_range (((q - v) / 2) * ((q - v) / 2)) hsq1 (by omega)
  have key : (sqComponent q v : Int) = ((q - v) / 2) * ((q - v) / 2) := by
    simp only [sqComponent, e1, e2, e3, e4]
  refine ⟨by rw [key]; ring, ?_⟩
  have : (sqComponent q v : Int) ≤ 1431638569 := by rw [key]; exact hsq2
  exact_mod_cast this

/-- Without wrap-around `ssd` is the sum of the squared halved differences. -/
theorem ssdOf_exact (r g b : Int) (v : Color) (hv : v.valid)
    (hr : -10139 ≤ r ∧ r ≤ 75674) (hg : -10139 ≤ g ∧ g ≤ 75674)
    (hb : -10139 ≤ b ∧ b ≤ 75674) :
    (ssdOf r g b v : Int) = halvedDist r g b v := by
  obtain ⟨vr, vg, vb, _⟩ := hv
  obtain ⟨er, br⟩ := sqComponent_exact r v.r hr.1 hr.2 vr
  obtain ⟨eg, bg⟩ := sqComponent_exact g v.g hg.1 hg.2 vg
  obtain ⟨eb, bb⟩ := sqComponent_exact b v.b hb.1 hb.2 vb
  unfold halvedDist
  rw [← er, ← eg, ← eb]
  unfold ssdOf
  simp only []
  omega

/-- The loop of `closest` keeps the running state, when no entry beats it, or
ends on the first entry of least `ssd`, when that one beats it. -/
theorem closestLoop_spec (r g b : Int) (l : List Color) :
    ∀ (i : Nat) (st : Nat × Nat),
      (closestLoop r g b l i st = st ∧ ∀ w ∈ l, st.2 ≤ ssdOf r g b w) ∨
      (∃ (k : Nat) (v : Color), l[k]? = some v ∧ closestLoop r g b l i st = (i + k, ssdOf r g b v) ∧
        ssdOf r g b v < st.2 ∧ (∀ w ∈ l, ssdOf r g b v ≤ ssdOf r g b w) ∧
        ∀ j w, j < k → l[j]? = some w → ssdOf r g b v < ssdOf r g b w) := by
  induction l with
  | nil => intro i st; left; simp [closestLoop]
  | cons v rest ih =>
    intro i st
    by_cases hlt : ssdOf r g b v < st.2
    · rcases ih (i + 1) (i, ssdOf r g b v) with ⟨heq, hall⟩ | ⟨k, u, hk, heq, hbeat, hall, hfirst⟩
      · right
        refine ⟨0, v, by simp, by simp [closestLoop, hlt, heq], hlt, ?_, by simp⟩
        intro w hw
        rcases List.mem_cons.1 hw with rfl | hw
        · exact le_rfl
        · exact hall w hw
      · right
        refine ⟨k + 1, u, by simpa using hk, ?_, ?_, ?_, ?_⟩
        · simp only [closestLoop, hlt, if_true, heq]
          congr 1; omega
        · exact lt_trans hbeat hlt
        · intro w hw
          rcases List.mem_cons.1 hw with rfl | hw
          · exact le_of_lt hbeat
          · exact hall w hw
        · intro j w hj hjw
          cases j with
          | zero => simp at hjw; subst hjw; exact hbeat
          | succ j => exact hfirst j w (by omega) (by simpa using hjw)
    · rcases ih (i + 1) st with ⟨heq, hall⟩ | ⟨k, u, hk, heq, hbeat, hall, hfirst⟩
      · left
        refine ⟨by simp [closestLoop, hlt, heq], ?_⟩
        intro w hw
        rcases List.mem_cons.1 hw with rfl | hw
        · exact not_lt.1 hlt
        · exact hall w hw
      · right
        refine ⟨k + 1, u, by simpa using hk, ?_, hbeat, ?_, ?_⟩
        · simp only [closestLoop, hlt, if_false, heq]
          congr 1; omega
        · intro w hw
          rcases List.mem_cons.1 hw with rfl | hw
          · exact le_of_lt (lt_of_lt_of_le hbeat (not_lt.1 hlt))
          · exact hall w hw
        · intro j w hj hjw
          cases j with
          | zero => simp at hjw; subst hjw; exact lt_of_lt_of_le hbeat (not_lt.1 hlt)
          | succ j => exact hfirst j w (by omega) (by simpa using hjw)

/-- On a non-empty palette `closest` returns the first entry of least `ssd`. -/
theorem closest_first_min (r g b : Int) (p : Palette) (hp : p ≠ []) :
    ∃ (i : Nat) (v : Color), p[i]? = some v ∧ closest r g b p = some v ∧
      (∀ w ∈ p, ssdOf r g b v ≤ ssdOf r g b w) ∧
      ∀ j w, j < i → p[j]? = some w → ssdOf r g b v < ssdOf r g b w := by
  rcases closestLoop_spec r g b p 0 (0, 4294967295) with ⟨heq, hall⟩ | ⟨k, u, hk, heq, _, hall, hfirst⟩
  · obtain ⟨v, rest, rfl⟩ := List.exists_cons_of_ne_nil hp
    refine ⟨0, v, by simp, by simp [closest, heq], ?_, by simp⟩
    intro w hw
    have h1 := hall w hw
    have h2 := ssdOf_lt r g b v
    simp only at h1
    omega
  · exact ⟨k, u, hk, by simp [closest, heq, hk], hall, hfirst⟩

/-- Querying the RGB values of a palette entry: the returned entry has `ssd`
zero, so each of its channels is the query's or one below it. -/
theorem closest_self (p : Palette) (hvalid : ∀ w ∈ p, w.valid) (v : Color) (hv : v ∈ p) :
    ∃ c, closest v.r v.g v.b p = some c ∧ c ∈ p ∧ ssdOf v.r v.g v.b c = 0 ∧
      (v.r = c.r ∨ v.r = c.r + 1) ∧ (v.g = c.g ∨ v.g = c.g + 1) ∧
      (v.b = c.b ∨ v.b = c.b + 1) := by
  have hp : p ≠ [] := List.ne_nil_of_mem hv
  obtain ⟨i, c, hi, hc, hmin, _⟩ := closest_first_min v.r v.g v.b p hp
  have hcp : c ∈ p := List.getElem?_mem hi
  have hvv := hvalid v hv
  have hcv := hvalid c hcp
  have rr : -10139 ≤ (v.r : Int) ∧ (v.r : Int) ≤ 75674 := by
    have := hvv.1; omega
  have rg : -10139 ≤ (v.g : Int) ∧ (v.g : Int) ≤ 75674 := by
    have := hvv.2.1; omega
  have rb : -10139 ≤ (v.b : Int) ∧ (v.b : Int) ≤ 75674 := by
    have := hvv.2.2.1; omega
  have hself : (ssdOf v.r v.g v.b v : Int) = 0 := by
    rw [ssdOf_exact _ _ _ v hvv rr rg rb]; simp [halvedDist]
  have hzero : ssdOf v.r v.g v.b c = 0 := by
    have h1 := hmin v hv
    have h2 : ssdOf v.r v.g v.b v = 0 := by exact_mod_cast hself
    omega
  have hc0 : halvedDist v.r v.g v.b c = 0 := by
    rw [← ssdOf_exact _ _ _ c hcv rr rg rb, hzero]; rfl
  unfold halvedDist at hc0
  have s1 := sq_nonneg (((v.r : Int) - c.r) / 2)
  have s2 := sq_nonneg (((v.g : Int) - c.g) / 2)
  have s3 := sq_nonneg (((v.b : Int) - c.b) / 2)
  have z1 : (((v.r : Int) - c.r) / 2) = 0 := by
    have : (((v.r : Int) - c.r) / 2) ^ 2 = 0 := by omega
    exact pow_eq_zero_iff (by norm_num) |>.1 this
  have z2 : (((v.g : Int) - c.g) / 2) = 0 := by
    have : (((v.g : Int) - c.g) / 2) ^ 2 = 0 := by omega
    exact pow_eq_zero_iff (by norm_num) |>.1 this
  have z3 : (((v.b : Int) - c.b) / 2) = 0 := by
    have : (((v.b : Int) - c.b) / 2) ^ 2 = 0 := by omega
    exact pow_eq_zero_iff (by norm_num) |>.1 this
  exact ⟨c, hc, hcp, hzero, by omega, by omega, by omega⟩

/-! ## The claims about `closest` -/

theorem toUint32_toInt32 (x : Int) (h0 : 0 ≤ x) (h1 : x < 4294967296) :
    (toUint32 (toInt32 x) : Int) = x := by
  unfold toInt32 toUint32; omega

/-- One channel for every query `Convert` can form: for a query in
`[-65535, 131070]` and a 16-bit entry the computed square is the exact square
of the halved difference, the product wrapping in `int32` at most to come back
in `uint32`. -/
theorem sqComponent_wide (q : Int) (v : Nat) (h1 : -65535 ≤ q) (h2 : q ≤ 131070)
    (hv : v < 65536) :
    (sqComponent q v : Int) = ((q - v) / 2) ^ 2 ∧ (sqComponent q v : Int) ≤ 4294836225 := by
  have hc1 : -65535 ≤ (q - v) / 2 := by omega
  have hc2 : (q - v) / 2 ≤ 65535 := by omega
  have hsq1 : 0 ≤ ((q - v) / 2) * ((q - v) / 2) := mul_self_nonneg _
  have hsq2 : ((q - v) / 2) * ((q - v) / 2) ≤ 4294836225 := by nlinarith
  have e1 : toInt32 (v : Int) = v := toInt32_of_range _ (by omega) (by omega)
  have e2 : toInt32 (q - v) = q - v := toInt32_of_range _ (by omega) (by omega)
  have e4 := toUint32_toInt32 (((q - v) / 2) * ((q - v) / 2)) hsq1 (by omega)
  have key : (sqComponent q v : Int) = ((q - v) / 2) * ((q - v) / 2) := by
    simp only [sqComponent, e1, e2, e4]
  refine ⟨by rw [key]; ring, ?_⟩
  rw [key]; exact hsq2

/-- For every query `Convert` can form, `ssd` is the sum of the squared halved
differences reduced modulo `2^32`; it is that sum when the sum is below
`2^32`. -/
theorem ssdOf_wide (r g b : Int) (v : Color) (hv : v.valid)
    (hr : -65535 ≤ r ∧ r ≤ 131070) (hg : -65535 ≤ g ∧ g ≤ 131070)
    (hb : -65535 ≤ b ∧ b ≤ 131070) :
    (ssdOf r g b v : Int) = halvedDist r g b v % 4294967296 ∧
      (halvedDist r g b v < 4294967296 → (ssdOf r g b v : Int) = halvedDist r g b v) := by
  obtain ⟨vr, vg, vb, _⟩ := hv
  obtain ⟨er, br⟩ := sqComponent_wide r v.r hr.1 hr.2 vr
  obtain ⟨eg, bg⟩ := sqComponent_wide g v.g hg.1 hg.2 vg
  obtain ⟨eb, bb⟩ := sqComponent_wide b v.b hb.1 hb.2 vb
  unfold halvedDist
  rw [← er, ← eg, ← eb]
  unfold ssdOf
  simp only []
  constructor
  · omega
  · intro h
    omega

/-- For a query with channels in `[-10139, 75674]` the sum of the squared halved
differences to a 16-bit entry is below `2^32`. -/
theorem halvedDist_lt (r g b : Int) (v : Color) (hv : v.valid)
    (hr : -10139 ≤ r ∧ r ≤ 75674) (hg : -10139 ≤ g ∧ g ≤ 75674)
    (hb : -10139 ≤ b ∧ b ≤ 75674) : halvedDist r g b v < 4294967296 := by
  have h := ssdOf_exact r g b v hv hr hg hb
  have h2 := ssdOf_lt r g b v
  omega

/-- C1, amended: for every query colour with channels in `[-65535, 131070]`,
which holds every query `Convert` forms, and every non-empty palette of 16-bit
colours, if no entry's sum of squared halved differences reaches `2^32`, as is
the case for query channels in `[-10139, 75674]`, then `closest` returns the
entry that minimises the sum
`((r-vr) div 2)^2 + ((g-vg) div 2)^2 + ((b-vb) div 2)^2` of the squares of the
halved per-channel differences, and among several minimisers the one with the
lowest palette position. -/
theorem C1_closest_first_least_halved (r g b : Int) (p : Palette) (hp : p ≠ [])
    (hv : ∀ w ∈ p, w.valid) (hr : -65535 ≤ r ∧ r ≤ 131070) (hg : -65535 ≤ g ∧ g ≤ 131070)
    (hb : -65535 ≤ b ∧ b ≤ 131070)
    (hsum : ((-10139 ≤ r ∧ r ≤ 75674) ∧ (-10139 ≤ g ∧ g ≤ 75674) ∧ (-10139 ≤ b ∧ b ≤ 75674)) ∨
      ∀ w ∈ p, halvedDist r g b w < 4294967296) :
    ∃ (i : Nat) (v : Color), p[i]? = some v ∧ closest r g b p = some v ∧
      (∀ w ∈ p, halvedDist r g b v ≤ halvedDist r g b w) ∧
      ∀ j w, j < i → p[j]? = some w → halvedDist r g b v < halvedDist r g b w := by
  have hs : ∀ w ∈ p, halvedDist r g b w < 4294967296 := by
    rcases hsum with ⟨h1, h2, h3⟩ | h
    · exact fun w hw => halvedDist_lt r g b w (hv w hw) h1 h2 h3
    · exact h
  have he : ∀ w ∈ p, (ssdOf r g b w : Int) = halvedDist r g b w :=
    fun w hw => (ssdOf_wide r g b w (hv w hw) hr hg hb).2 (hs w hw)
  obtain ⟨i, v, h1, h2, h3, h4⟩ := closest_first_min r g b p hp
  have hvp : v ∈ p := List.getElem?_mem h1
  refine ⟨i, v, h1, h2, ?_, ?_⟩
  · intro w hw
    rw [← he v hvp, ← he w hw]
    exact_mod_cast h3 w hw
  · intro j w hj hjw
    rw [← he v hvp, ← he w (List.getElem?_mem hjw)]
    exact_mod_cast h4 j w hj hjw

/-- C1 at a concrete input: a query with a negative channel and one above 65535
against a two-colour palette. -/
theorem C1_closest_first_least_halved_witness :
    ([⟨0, 0, 0, 65535⟩, ⟨65535, 65535, 65535, 65535⟩] : Palette) ≠ [] ∧
    (∀ w ∈ ([⟨0, 0, 0, 65535⟩, ⟨65535, 65535, 65535, 65535⟩] : Palette), w.valid) ∧
    ∃ (i : Nat) (v : Color),
      ([⟨0, 0, 0, 65535⟩, ⟨65535, 65535, 65535, 65535⟩] : Palette)[i]? = some v ∧
      closest (-7) 70000 3 [⟨0, 0, 0, 65535⟩, ⟨65535, 65535, 65535, 65535⟩] = some v ∧
      (∀ w ∈ ([⟨0, 0, 0, 65535⟩, ⟨65535, 65535, 65535, 65535⟩] : Palette),
        halvedDist (-7) 70000 3 v ≤ halvedDist (-7) 70000 3 w) ∧
      ∀ j w, j < i →
        ([⟨0, 0, 0, 65535⟩, ⟨65535, 65535, 65535, 65535⟩] : Palette)[j]? = some w →
        halvedDist (-7) 70000 3 v < halvedDist (-7) 70000 3 w :=
  ⟨by simp, by decide,
    C1_closest_first_least_halved (-7) 70000 3 _ (by simp) (by decide) (by decide) (by decide)
      (by decide) (Or.inl (by decide))⟩

/-- C1 as stated fails: for the query `(1,0,0)` and the palette
`[(0,0,0), (1,0,0)]`, `closest` returns the first entry, whose sum of squared
differences is 1, although the second entry has sum 0. -/
theorem C1_counterexample :
    closest 1 0 0 [⟨0, 0, 0, 65535⟩, ⟨1, 0, 0, 65535⟩] = some ⟨0, 0, 0, 65535⟩ ∧
    sqDist 1 0 0 ⟨1, 0, 0, 65535⟩ < sqDist 1 0 0 ⟨0, 0, 0, 65535⟩ := by
  decide

/-- Where the sum does reach `2^32` the `uint32` additions of `closest` wrap
around: for the query `(76706, 76706, 76706)` and the palette of the grey 40000
and black, `closest` returns black, although the grey is the nearer entry both
by the squared differences and by the squared halved differences. -/
theorem closest_sum_wraps :
    closest 76706 76706 76706 [⟨40000, 40000, 40000, 65535⟩, ⟨0, 0, 0, 65535⟩] =
      some ⟨0, 0, 0, 65535⟩ ∧
    halvedDist 76706 76706 76706 ⟨40000, 40000, 40000, 65535⟩ <
      halvedDist 76706 76706 76706 ⟨0, 0, 0, 65535⟩ ∧
    sqDist 76706 76706 76706 ⟨40000, 40000, 40000, 65535⟩ <
      sqDist 76706 76706 76706 ⟨0, 0, 0, 65535⟩ ∧
    ¬ halvedDist 76706 76706 76706 ⟨0, 0, 0, 65535⟩ < 4294967296 := by
  decide

/-- The query of `closest_sum_wraps` is one that `Convert` forms: on a 2x1 white
image with the palette of the grey 40000 and black, pixel `(0, 0)` is given the
grey, its residual 25535 hands 11171 to pixel `(1, 0)`, and that pixel, whose
query is 76706 in each channel, is given black. -/
theorem Convert_reaches_wrapped_sum :
    (ToPaletteState ⟨0, 0, 2, 1, fun _ _ => ⟨65535, 65535, 65535, 65535⟩⟩
        [⟨40000, 40000, 40000, 65535⟩, ⟨0, 0, 0, 65535⟩]).map (fun s => s.calls) =
      some [(0, 0, ⟨40000, 40000, 40000, 65535⟩), (1, 0, ⟨0, 0, 0, 65535⟩)] ∧
    ((convertSteps imageCtxOps
        ⟨⟨0, 0, 2, 1, fun _ _ => ⟨65535, 65535, 65535, 65535⟩⟩, NewRGBA 0 0 2 1,
          [⟨40000, 40000, 40000, 65535⟩, ⟨0, 0, 0, 65535⟩]⟩ 1).map
      (fun s => (65535 + (s.gerror 0 1).R, 65535 + (s.gerror 0 1).G, 65535 + (s.gerror 0 1).B))) =
      some (76706, 76706, 76706) := by
  decide

/-- C2, as the code has it: for every palette of 16-bit colours and every entry
`v` of it, `closest` called with `v`'s own red, green and blue returns a palette
entry whose `ssd` is zero, that is, each channel of the returned entry equals the
query's or is one below it; when the palette holds only 8-bit colours (channels
that are multiples of 257, as `color.RGBA` gives) the returned entry has exactly
the query's red, green and blue. -/
theorem C2_closest_of_entry (p : Palette) (hvalid : ∀ w ∈ p, w.valid) (v : Color)
    (hv : v ∈ p) :
    ∃ c, closest v.r v.g v.b p = some c ∧ c ∈ p ∧ ssdOf v.r v.g v.b c = 0 ∧
      (v.r = c.r ∨ v.r = c.r + 1) ∧ (v.g = c.g ∨ v.g = c.g + 1) ∧
      (v.b = c.b ∨ v.b = c.b + 1) ∧
      ((∀ w ∈ p, w.is8bit) → c.r = v.r ∧ c.g = v.g ∧ c.b = v.b) := by
  obtain ⟨c, h1, h2, h3, h4, h5, h6⟩ := closest_self p hvalid v hv
  refine ⟨c, h1, h2, h3, h4, h5, h6, fun h8 => ?_⟩
  obtain ⟨_, cr, cg, cb, _⟩ := h8 c h2
  obtain ⟨_, vr, vg, vb, _⟩ := h8 v hv
  omega

/-- C2 at a concrete input: the second entry of a two-colour palette. -/
theorem C2_closest_of_entry_witness :
    (∀ w ∈ ([⟨0, 0, 0, 65535⟩, ⟨65535, 65535, 65535, 65535⟩] : Palette), w.valid) ∧
    (⟨65535, 65535, 65535, 65535⟩ : Color) ∈
      ([⟨0, 0, 0, 65535⟩, ⟨65535, 65535, 65535, 65535⟩] : Palette) ∧
    ∃ c, closest 65535 65535 65535 [⟨0, 0, 0, 65535⟩, ⟨65535, 65535, 65535, 65535⟩] = some c ∧
      c ∈ ([⟨0, 0, 0, 65535⟩, ⟨65535, 65535, 65535, 65535⟩] : Palette) ∧
      ssdOf 65535 65535 65535 c = 0 ∧
      (65535 = c.r ∨ 65535 = c.r + 1) ∧ (65535 = c.g ∨ 65535 = c.g + 1) ∧
      (65535 = c.b ∨ 65535 = c.b + 1) ∧
      ((∀ w ∈ ([⟨0, 0, 0, 65535⟩, ⟨65535, 65535, 65535, 65535⟩] : Palette), w.is8bit) →
        c.r = 65535 ∧ c.g = 65535 ∧ c.b = 65535) :=
  ⟨by decide, by decide,
    C2_closest_of_entry [⟨0, 0, 0, 65535⟩, ⟨65535, 65535, 65535, 65535⟩]
      (by decide) ⟨65535, 65535, 65535, 65535⟩ (by decide)⟩

/-- C2 as stated fails: the palette `[(256,0,0), (257,0,0)]` contains the query
`(257,0,0)`, yet `closest` returns the first entry, whose red is 256. -/
theorem C2_counterexample :
    (⟨257, 0, 0, 65535⟩ : Color) ∈ ([⟨256, 0, 0, 65535⟩, ⟨257, 0, 0, 65535⟩] : Palette) ∧
    closest 257 0 0 [⟨256, 0, 0, 65535⟩, ⟨257, 0, 0, 65535⟩] = some ⟨256, 0, 0, 65535⟩ := by
  decide

/-! ## The loops of `Convert` -/

/-- Two loop bodies that agree on the elements of the list give the same
fold. -/
theorem foldlM_option_congr {α β : Type} (l : List α) (f g : β → α → Option β)
    (hfg : ∀ a ∈ l, ∀ b, f b a = g b a) (b : β) : l.foldlM f b = l.foldlM g b := by
  induction l generalizing b with
  | nil => rfl
  | cons a t ih =>
    simp only [List.foldlM_cons]
    rw [hfg a (List.mem_cons_self _ _) b]
    cases g b a with
    | none => rfl
    | some b' =>
      exact ih (fun a' ha' b'' => hfg a' (List.mem_cons_of_mem _ ha') b'') b'

/-- The first `n` rows of the nested loops are the first `n * w` iterations. -/
theorem rows_eq_steps {σ : Type} (C : Context σ) (w h : Nat) (s0 : ConvertState σ) (n : Nat) :
    (List.range n).foldlM (fun s y => rowLoop C w h s y) s0 =
      (List.range (n * w)).foldlM (fun s k => pixelStep C w h s (k % w) (k / w)) s0 := by
  induction n with
  | zero => simp
  | succ n ih =>
    have hmul : (n + 1) * w = n * w + w := by ring
    rw [List.range_succ, List.foldlM_append, ih, hmul, List.range_add, List.foldlM_append]
    cases hs : (List.range (n * w)).foldlM
        (fun s k => pixelStep C w h s (k % w) (k / w)) s0 with
    | none => rfl
    | some s =>
      simp only [Option.some_bind, Option.bind_eq_bind, List.foldlM_cons, List.foldlM_nil,
        List.foldlM_map]
      unfold rowLoop
      have : ∀ x ∈ List.range w, ∀ b : ConvertState σ,
          pixelStep C w h b x n = pixelStep C w h b ((n * w + x) % w) ((n * w + x) / w) := by
        intro x hx b
        have hxw : x < w := List.mem_range.1 hx
        have h1 : (n * w + x) % w = x := by
          rw [Nat.add_comm, Nat.add_mul_mod_self_right]; exact Nat.mod_eq_of_lt hxw
        have h2 : (n * w + x) / w = n := by
          rw [Nat.add_comm, Nat.add_mul_div_right _ _ (by omega : 0 < w)]
          rw [Nat.div_eq_of_lt hxw]; simp
        rw [h1, h2]
      rw [foldlM_option_congr _ _ _ this]
      cases (List.range w).foldlM
        (fun b x => pixelStep C w h b ((n * w + x) % w) ((n * w + x) / w)) s <;> rfl

/-- `Convert` is its `Height * Width` loop iterations. -/
theorem Convert_eq_steps {σ : Type} (C : Context σ) (ctx : σ) :
    Convert C ctx = convertSteps C ctx (C.Height ctx * C.Width ctx) := by
  unfold Convert convertSteps
  exact rows_eq_steps C _ _ _ _

/-- Induction over the iterations of `Convert`: a property that holds at the
start and is carried by every iteration, which then returns, holds after any
number of iterations, which all return. -/
theorem convertSteps_induct {σ : Type} (C : Context σ) (ctx : σ) (N : Nat)
    (Inv : Nat → ConvertState σ → Prop) (h0 : Inv 0 (convertInit ctx))
    (hstep : ∀ k s, k < N → Inv k s →
      ∃ s', pixelStep C (C.Width ctx) (C.Height ctx) s (k % C.Width ctx) (k / C.Width ctx)
        = some s' ∧ Inv (k + 1) s') :
    ∀ n, n ≤ N → ∃ s, convertSteps C ctx n = some s ∧ Inv n s := by
  intro n
  induction n with
  | zero => intro _; exact ⟨convertInit ctx, by simp [convertSteps], h0⟩
  | succ n ih =>
    intro hn
    obtain ⟨s, hs, hinv⟩ := ih (by omega)
    obtain ⟨s', hs', hinv'⟩ := hstep n s (by omega) hinv
    refine ⟨s', ?_, hinv'⟩
    unfold convertSteps at hs ⊢
    simp only [List.range_succ, List.foldlM_append, hs, Option.some_bind, Option.bind_eq_bind,
      List.foldlM_cons, List.foldlM_nil]
    rw [hs']; rfl

/-- One iteration on a non-empty palette: `closest` returns an entry of the
palette and the iteration returns the updated state. -/
theorem pixelStep_some {σ : Type} (C : Context σ) (w h : Nat) (s : ConvertState σ)
    (x y : Nat) (hne : C.PaletteAt s.ctx x y ≠ []) :
    ∃ target s', target ∈ C.PaletteAt s.ctx x y ∧
      closest (toInt32 (toInt32 (C.At s.ctx x y).r + (s.gerror y x).R))
        (toInt32 (toInt32 (C.At s.ctx x y).g + (s.gerror y x).G))
        (toInt32 (toInt32 (C.At s.ctx x y).b + (s.gerror y x).B))
        (C.PaletteAt s.ctx x y) = some target ∧
      pixelStep C w h s x y = some s' ∧
      s'.ctx = C.Set s.ctx x y target ∧ s'.calls = s.calls ++ [(x, y, target)] ∧
      s'.gerror = diffuse s.gerror w h x y
        (toInt32 (toInt32 (C.At s.ctx x y).r - toInt32 target.r))
        (toInt32 (toInt32 (C.At s.ctx x y).g - toInt32 target.g))
        (toInt32 (toInt32 (C.At s.ctx x y).b - toInt32 target.b)) := by
  obtain ⟨i, v, hi, hv, _⟩ := closest_first_min
    (toInt32 (toInt32 (C.At s.ctx x y).r + (s.gerror y x).R))
    (toInt32 (toInt32 (C.At s.ctx x y).g + (s.gerror y x).G))
    (toInt32 (toInt32 (C.At s.ctx x y).b + (s.gerror y x).B))
    (C.PaletteAt s.ctx x y) hne
  cases hps : pixelStep C w h s x y with
  | none => simp [pixelStep, hv] at hps
  | some s' =>
    simp only [pixelStep, hv, Option.some.injEq] at hps
    subst hps
    exact ⟨v, _, List.getElem?_mem hi, hv, rfl, rfl, rfl, rfl⟩

/-- The flat numbering of the pixels lists them in row-major order. -/
theorem range_map_eq_rowMajor (w h : Nat) :
    (List.range (h * w)).map (fun k => (k % w, k / w)) = rowMajor w h := by
  unfold rowMajor
  induction h with
  | zero => simp
  | succ n ih =>
    have hmul : (n + 1) * w = n * w + w := by ring
    rw [hmul, List.range_add, List.map_append, ih, List.range_succ, List.flatMap_append]
    congr 1
    simp only [List.map_map, List.flatMap_cons, List.flatMap_nil, List.append_nil]
    apply List.map_congr_left
    intro x hx
    have hxw : x < w := List.mem_range.1 hx
    have h1 : (n * w + x) % w = x := by
      rw [Nat.add_comm, Nat.add_mul_mod_self_right]; exact Nat.mod_eq_of_lt hxw
    have h2 : (n * w + x) / w = n := by
      rw [Nat.add_comm, Nat.add_mul_div_right _ _ (by omega : 0 < w)]
      rw [Nat.div_eq_of_lt hxw]; simp
    simp [h1, h2]

/-- The pixel `(k % w, k / w)` of iteration `k < h * w` lies in the grid. -/
theorem step_coords_lt (w h k : Nat) (hk : k < h * w) : k % w < w ∧ k / w < h := by
  have hw : 0 < w := by
    rcases Nat.eq_zero_or_pos w with h0 | h0
    · subst h0; simp at hk
    · exact h0
  exact ⟨Nat.mod_lt _ hw, (Nat.div_lt_iff_lt_mul hw).2 hk⟩

/-- The list `rowMajor w h` holds exactly the coordinate pairs of the grid. -/
theorem mem_rowMajor (w h x y : Nat) : (x, y) ∈ rowMajor w h ↔ x < w ∧ y < h := by
  unfold rowMajor
  simp only [List.mem_flatMap, List.mem_range, List.mem_map, Prod.mk.injEq]
  constructor
  · rintro ⟨a, ha, b, hb, rfl, rfl⟩; exact ⟨hb, ha⟩
  · rintro ⟨hx, hy⟩; exact ⟨y, hy, x, hx, rfl, rfl⟩

/-- No coordinate pair occurs twice in `rowMajor w h`. -/
theorem nodup_rowMajor (w h : Nat) : (rowMajor w h).Nodup := by
  rw [← range_map_eq_rowMajor]
  apply List.Nodup.map_on _ (List.nodup_range _)
  intro a ha b hb hab
  simp only [Prod.mk.injEq] at hab
  have h1 := Nat.div_add_mod a w
  have h2 := Nat.div_add_mod b w
  rw [hab.1, hab.2] at h1
  omega

/-- When every palette the context can answer with is non-empty, `Convert`
returns, and its `Set` calls are the pixels in row-major order. -/
theorem Convert_calls {σ : Type} (C : Context σ) (ctx : σ) (P : σ → Prop) (hP0 : P ctx)
    (hPset : ∀ s x y c, P s → P (C.Set s x y c))
    (hPal : ∀ s x y, P s → x < C.Width ctx → y < C.Height ctx → C.PaletteAt s x y ≠ []) :
    ∃ s, Convert C ctx = some s ∧ P s.ctx ∧
      s.calls.map (fun c => (c.1, c.2.1)) = rowMajor (C.Width ctx) (C.Height ctx) := by
  obtain ⟨s, hs, hP, hcalls⟩ := convertSteps_induct C ctx (C.Height ctx * C.Width ctx)
    (fun k s => P s.ctx ∧ s.calls.map (fun c => (c.1, c.2.1)) =
      (List.range k).map (fun k => (k % C.Width ctx, k / C.Width ctx)))
    ⟨hP0, by simp [convertInit]⟩
    (by
      intro k s hk ⟨hP, hcalls⟩
      obtain ⟨hx, hy⟩ := step_coords_lt _ _ k hk
      obtain ⟨target, s', _, _, hs', hctx, hc, _⟩ :=
        pixelStep_some C (C.Width ctx) (C.Height ctx) s _ _ (hPal s.ctx _ _ hP hx hy)
      refine ⟨s', hs', ?_, ?_⟩
      · rw [hctx]; exact hPset _ _ _ _ hP
      · rw [hc, List.map_append, hcalls, List.range_succ, List.map_append]; rfl)
    _ le_rfl
  exact ⟨s, by rw [Convert_eq_steps]; exact hs, hP, by rw [hcalls, range_map_eq_rowMajor]⟩

/-! ## The claim about the order of the `Set` calls -/

/-- C3: for every context whose palettes are non-empty (on the contexts that
`Set` can produce from the given one, described by a property `P` that `Set`
preserves), `Convert` returns and has called `Set` exactly `w * h` times, exactly
once (no coordinate pair twice) for each pixel `(x, y)` with `x < w` and `y < h`
and for no other coordinates, in row-major order `(0,0), (1,0), ..., (w-1,0), (0,1), ...,
(w-1,h-1)`. -/
theorem C3_Convert_calls_row_major {σ : Type} (C : Context σ) (ctx : σ) (P : σ → Prop)
    (hP0 : P ctx) (hPset : ∀ s x y c, P s → P (C.Set s x y c))
    (hPal : ∀ s x y, P s → x < C.Width ctx → y < C.Height ctx → C.PaletteAt s x y ≠ []) :
    ∃ s, Convert C ctx = some s ∧
      s.calls.map (fun c => (c.1, c.2.1)) = rowMajor (C.Width ctx) (C.Height ctx) ∧
      s.calls.length = C.Width ctx * C.Height ctx ∧
      (s.calls.map (fun c => (c.1, c.2.1))).Nodup ∧
      ∀ x y, (x, y) ∈ s.calls.map (fun c => (c.1, c.2.1)) ↔
        x < C.Width ctx ∧ y < C.Height ctx := by
  obtain ⟨s, hs, _, hcalls⟩ := Convert_calls C ctx P hP0 hPset hPal
  refine ⟨s, hs, hcalls, ?_, ?_, ?_⟩
  · have := congrArg List.length hcalls
    rw [List.length_map, ← range_map_eq_rowMajor, List.length_map, List.length_range] at this
    rw [this, Nat.mul_comm]
  · rw [hcalls]; exact nodup_rowMajor _ _
  · intro x y
    rw [hcalls]; exact mem_rowMajor _ _ x y

/-- C3 at a concrete input: the context of `ToPalette` for a 2x2 image and a
two-colour palette. -/
theorem C3_Convert_calls_row_major_witness :
    sampleCtx.palette ≠ [] ∧
    (∀ (s : imageCtx) (x y : Nat) (c : Color),
      s.palette ≠ [] → (imageCtxOps.Set s x y c).palette ≠ []) ∧
    (∀ (s : imageCtx) (x y : Nat), s.palette ≠ [] → x < imageCtxOps.Width sampleCtx →
      y < imageCtxOps.Height sampleCtx → imageCtxOps.PaletteAt s x y ≠ []) ∧
    ∃ s, Convert imageCtxOps sampleCtx = some s ∧
      s.calls.map (fun c => (c.1, c.2.1)) =
        rowMajor (imageCtxOps.Width sampleCtx) (imageCtxOps.Height sampleCtx) ∧
      s.calls.length = imageCtxOps.Width sampleCtx * imageCtxOps.Height sampleCtx ∧
      (s.calls.map (fun c => (c.1, c.2.1))).Nodup ∧
      ∀ x y, (x, y) ∈ s.calls.map (fun c => (c.1, c.2.1)) ↔
        x < imageCtxOps.Width sampleCtx ∧ y < imageCtxOps.Height sampleCtx :=
  ⟨by decide, fun _ _ _ _ h => h, fun _ _ _ h _ _ => h,
    C3_Convert_calls_row_major imageCtxOps sampleCtx (fun s => s.palette ≠ [])
      (by decide) (fun _ _ _ _ h => h) (fun _ _ _ h _ _ => h)⟩

/-! ## `ToPalette` -/

/-- An 8-bit channel value, cut to its top eight bits and repeated in both
bytes, is unchanged. -/
theorem channel_roundtrip (v : Nat) (h : v < 65536) (hm : v % 257 = 0) :
    v / 256 % 256 * 257 = v := by
  have hq : v = 257 * (v / 257) := by omega
  have hlt : v / 257 < 256 := by omega
  generalize v / 257 = q at hq hlt
  subst hq
  have h1 : 257 * q / 256 = q := by omega
  rw [h1, Nat.mod_eq_of_lt hlt]; ring

/-- The pixel that `(*image.RGBA).Set` stores reads back, per channel, as the
top eight bits of the colour repeated in both bytes; an 8-bit colour reads back
unchanged. -/
theorem rgbaModel_RGBA (c : Color) :
    (rgbaModel c).RGBA =
      ⟨c.r / 256 % 256 * 257, c.g / 256 % 256 * 257, c.b / 256 % 256 * 257,
        c.a / 256 % 256 * 257⟩ ∧
    (c.is8bit → (rgbaModel c).RGBA = c) := by
  refine ⟨rfl, ?_⟩
  rintro ⟨⟨h1, h2, h3, h4⟩, m1, m2, m3, m4⟩
  obtain ⟨r, g, b, a⟩ := c
  simp only [rgbaModel, RGBA8.RGBA, Color.mk.injEq]
  exact ⟨channel_roundtrip r h1 m1, channel_roundtrip g h2 m2, channel_roundtrip b h3 m3,
    channel_roundtrip a h4 m4⟩

/-- The method `Set` of an `image.RGBA` leaves the rectangle as it is. -/
theorem RGBAImage_Set_rect (img : RGBAImage) (x y : Int) (c : Color) :
    (img.Set x y c).minX = img.minX ∧ (img.Set x y c).minY = img.minY ∧
      (img.Set x y c).w = img.w ∧ (img.Set x y c).h = img.h := by
  unfold RGBAImage.Set
  split <;> exact ⟨rfl, rfl, rfl, rfl⟩

/-- Inside the rectangle `Set` stores the converted colour at the point. -/
theorem RGBAImage_Set_pix_self (img : RGBAImage) (x y : Int) (c : Color)
    (hin : img.inRect x y = true) : (img.Set x y c).pix x y = rgbaModel c := by
  unfold RGBAImage.Set
  rw [if_pos hin]
  simp

/-- The method `Set` changes no other point. -/
theorem RGBAImage_Set_pix_other (img : RGBAImage) (x y : Int) (c : Color) (x' y' : Int)
    (hne : ¬ (x' = x ∧ y' = y)) : (img.Set x y c).pix x' y' = img.pix x' y' := by
  unfold RGBAImage.Set
  split
  · simp only; rw [if_neg hne]
  · rfl

/-- What `ToPalette` has done after `Convert` returned: each `Set` call, in
row-major order, passed an entry of the palette, and the destination holds the
conversion of that entry to `color.RGBA` at the pixel. -/
theorem ToPaletteState_spec (img : Image) (p : Palette) (hp : p ≠ []) :
    ∃ s, ToPaletteState img p = some s ∧
      s.ctx.dest.minX = img.minX ∧ s.ctx.dest.minY = img.minY ∧
      s.ctx.dest.w = img.w ∧ s.ctx.dest.h = img.h ∧
      ∀ j, j < img.h * img.w → ∃ c, c ∈ p ∧
        s.calls[j]? = some (j % img.w, j / img.w, c) ∧
        s.ctx.dest.pix ((j % img.w : Nat) + img.minX) ((j / img.w : Nat) + img.minY)
          = rgbaModel c := by
  unfold ToPaletteState
  rw [Convert_eq_steps]
  obtain ⟨s, hs, -, -, h1, h2, h3, h4, hlen, hall⟩ := convertSteps_induct imageCtxOps
    ⟨img, NewRGBA img.minX img.minY img.w img.h, p⟩ (img.h * img.w)
    (fun k s => s.ctx.src = img ∧ s.ctx.palette = p ∧
      s.ctx.dest.minX = img.minX ∧ s.ctx.dest.minY = img.minY ∧
      s.ctx.dest.w = img.w ∧ s.ctx.dest.h = img.h ∧ s.calls.length = k ∧
      ∀ j, j < k → ∃ c, c ∈ p ∧
        s.calls[j]? = some (j % img.w, j / img.w, c) ∧
        s.ctx.dest.pix ((j % img.w : Nat) + img.minX) ((j / img.w : Nat) + img.minY)
          = rgbaModel c)
    ⟨rfl, rfl, rfl, rfl, rfl, rfl, rfl, by intro j hj; omega⟩
    (by
      intro k s hk ⟨e1, e2, e3, e4, e5, e6, hlen, hall⟩
      show ∃ s', pixelStep imageCtxOps img.w img.h s (k % img.w) (k / img.w) = some s' ∧ _
      obtain ⟨hx, hy⟩ := step_coords_lt _ _ k hk
      have hdm := Nat.div_add_mod k img.w
      have hne : imageCtxOps.PaletteAt s.ctx (k % img.w) (k / img.w) ≠ [] := by
        show s.ctx.palette ≠ []
        rw [e2]; exact hp
      obtain ⟨target, s', hmem, _, hs', hctx, hc, _⟩ :=
        pixelStep_some imageCtxOps img.w img.h s _ _ hne
      have hmem' : target ∈ p := by
        have : imageCtxOps.PaletteAt s.ctx (k % img.w) (k / img.w) = p := e2
        rw [this] at hmem; exact hmem
      have hdest : s'.ctx.dest = s.ctx.dest.Set ((k % img.w : Nat) + img.minX)
          ((k / img.w : Nat) + img.minY) target := by
        rw [hctx, ← e3, ← e4]; rfl
      have hin : s.ctx.dest.inRect ((k % img.w : Nat) + img.minX)
          ((k / img.w : Nat) + img.minY) = true := by
        have hx' : ((k % img.w : Nat) : Int) < img.w := by exact_mod_cast hx
        have hy' : ((k / img.w : Nat) : Int) < img.h := by exact_mod_cast hy
        have hx0 : (0 : Int) ≤ ((k % img.w : Nat) : Int) := Int.natCast_nonneg _
        have hy0 : (0 : Int) ≤ ((k / img.w : Nat) : Int) := Int.natCast_nonneg _
        simp only [RGBAImage.inRect, decide_eq_true_eq, e3, e4, e5, e6]
        generalize ((k % img.w : Nat) : Int) = a at hx' hx0
        generalize ((k / img.w : Nat) : Int) = b at hy' hy0
        omega
      obtain ⟨r1, r2, r3, r4⟩ := RGBAImage_Set_rect s.ctx.dest ((k % img.w : Nat) + img.minX)
          ((k / img.w : Nat) + img.minY) target
      refine ⟨s', hs', ?_, ?_, ?_, ?_, ?_, ?_, ?_, ?_⟩
      · rw [hctx]; exact e1
      · rw [hctx]; exact e2
      · rw [hdest, r1]; exact e3
      · rw [hdest, r2]; exact e4
      · rw [hdest, r3]; exact e5
      · rw [hdest, r4]; exact e6
      · rw [hc, List.length_append, hlen]; rfl
      · intro j hj
        rcases Nat.lt_succ_iff_lt_or_eq.1 hj with hlt | heq
        · obtain ⟨c, hcp, hcall, hpix⟩ := hall j hlt
          refine ⟨c, hcp, ?_, ?_⟩
          · rw [hc, List.getElem?_append_left (by omega)]; exact hcall
          · rw [hdest, RGBAImage_Set_pix_other, hpix]
            rintro ⟨hx', hy'⟩
            have h1 := Nat.div_add_mod j img.w
            have hx'' : j % img.w = k % img.w := by omega
            have hy'' : j / img.w = k / img.w := by omega
            rw [hx'', hy''] at h1
            omega
        · subst heq
          refine ⟨target, hmem', ?_, ?_⟩
          · rw [hc, List.getElem?_append_right (by omega)]
            simp [hlen]
          · rw [hdest]; exact RGBAImage_Set_pix_self _ _ _ _ hin)
    _ le_rfl
  exact ⟨s, hs, h1, h2, h3, h4, hall⟩

/-! ## The claim about the colours of `ToPalette` -/

/-- What `ToPalette` does for every image and every non-empty palette: it
returns; the colour `Convert` passes to `Set` at `(x, y)` is an element of the
palette; reading the destination image back at `(x, y)` yields, per channel, the
top eight bits of that element's 16-bit value repeated in both bytes
(`257 * (v / 256 mod 256)`), which are the RGBA values of the element itself
whenever the element is an 8-bit colour (channels that are multiples of 257, as
every `color.RGBA` has). -/
theorem ToPalette_top_bits (img : Image) (p : Palette) (hp : p ≠ []) :
    ∃ s dest, ToPaletteState img p = some s ∧ ToPalette img p = some dest ∧
      ∀ x y : Nat, x < img.w → y < img.h → ∃ c, c ∈ p ∧
        s.calls[y * img.w + x]? = some (x, y, c) ∧
        dest.At (x + img.minX) (y + img.minY) =
          ⟨c.r / 256 % 256 * 257, c.g / 256 % 256 * 257, c.b / 256 % 256 * 257,
            c.a / 256 % 256 * 257⟩ ∧
        (c.is8bit → dest.At (x + img.minX) (y + img.minY) = c) := by
  obtain ⟨s, hs, e3, e4, e5, e6, hall⟩ := ToPaletteState_spec img p hp
  refine ⟨s, s.ctx.dest, hs, by simp [ToPalette, hs], ?_⟩
  intro x y hx hy
  have hj : y * img.w + x < img.h * img.w := by
    have : (y + 1) * img.w ≤ img.h * img.w := Nat.mul_le_mul_right _ hy
    have : (y + 1) * img.w = y * img.w + img.w := by ring
    omega
  have h1 : (y * img.w + x) % img.w = x := by
    rw [Nat.add_comm, Nat.add_mul_mod_self_right]; exact Nat.mod_eq_of_lt hx
  have h2 : (y * img.w + x) / img.w = y := by
    rw [Nat.add_comm, Nat.add_mul_div_right _ _ (by omega : 0 < img.w)]
    rw [Nat.div_eq_of_lt hx]; simp
  obtain ⟨c, hc, hcall, hpix⟩ := hall _ hj
  rw [h1, h2] at hcall hpix
  have hin : s.ctx.dest.inRect (x + img.minX) (y + img.minY) = true := by
    simp only [RGBAImage.inRect, decide_eq_true_eq, e3, e4, e5, e6]
    omega
  have hat : s.ctx.dest.At (x + img.minX) (y + img.minY) = (rgbaModel c).RGBA := by
    unfold RGBAImage.At
    rw [if_pos hin, hpix]
  refine ⟨c, hc, hcall, ?_, ?_⟩
  · rw [hat]; exact (rgbaModel_RGBA c).1
  · intro h8; rw [hat]; exact (rgbaModel_RGBA c).2 h8

/-- The same at a concrete input: a 2x2 image and the palette black, white. -/
theorem ToPalette_top_bits_example :
    samplePalette ≠ [] ∧
    ∃ s dest, ToPaletteState sampleImage samplePalette = some s ∧
      ToPalette sampleImage samplePalette = some dest ∧
      ∀ x y : Nat, x < sampleImage.w → y < sampleImage.h → ∃ c, c ∈ samplePalette ∧
        s.calls[y * sampleImage.w + x]? = some (x, y, c) ∧
        dest.At (x + sampleImage.minX) (y + sampleImage.minY) =
          ⟨c.r / 256 % 256 * 257, c.g / 256 % 256 * 257, c.b / 256 % 256 * 257,
            c.a / 256 % 256 * 257⟩ ∧
        (c.is8bit → dest.At (x + sampleImage.minX) (y + sampleImage.minY) = c) :=
  ⟨by decide, ToPalette_top_bits sampleImage samplePalette (by decide)⟩

/-- C4, the code at the failing input: with the one-colour palette
`[(0x1234, 0, 0, 0xffff)]` the pixel of the image that `ToPalette` returns
reads back as `(0x1212, 0, 0, 0xffff)`, which is not a colour of the palette,
because the destination is an `image.RGBA` and keeps eight bits of each
channel; the claim and the comment of `ToPalette` say that the image uses only
colours of the palette. -/
theorem C4_ToPalette_leaves_palette :
    (ToPalette deepImage deepPalette).map (fun d => d.At 0 0) = some ⟨4626, 0, 0, 65535⟩ ∧
    (⟨4626, 0, 0, 65535⟩ : Color) ∉ deepPalette := by
  decide

/-! ## One iteration of `Convert` and the error it spreads -/

/-- Division by 16 truncating toward zero, through the rounding-down division. -/
theorem tdiv16_eq (a : Int) :
    Int.tdiv a 16 = if 0 ≤ a then a / 16 else -((-a) / 16) := by
  split
  · next h => exact Int.tdiv_eq_ediv h (by norm_num)
  · next h =>
    have h1 : Int.tdiv a 16 = -(Int.tdiv (-a) 16) := by
      rw [Int.neg_tdiv, neg_neg]
    rw [h1, Int.tdiv_eq_ediv (by omega) (by norm_num)]

/-- For a residual of two 16-bit values the product by 3, 5 or 7 does not wrap,
and the share is at most `7 * 65535 / 16` in absolute value. -/
theorem share_exact (c k : Int) (hc : -65535 ≤ c ∧ c ≤ 65535) (hk : k = 3 ∨ k = 5 ∨ k = 7) :
    share c k = Int.tdiv (k * c) 16 ∧ -28671 ≤ share c k ∧ share c k ≤ 28671 := by
  unfold share
  rcases hk with rfl | rfl | rfl
  all_goals
    rw [toInt32_of_range _ (by omega) (by omega), Int.mul_comm, tdiv16_eq]
    split <;> omega

/-- The sixteenth of a residual of two 16-bit values. -/
theorem tdiv16_bound (c : Int) (hc : -65535 ≤ c ∧ c ≤ 65535) :
    -28671 ≤ Int.tdiv c 16 ∧ Int.tdiv c 16 ≤ 28671 := by
  rw [tdiv16_eq]
  split <;> omega

/-- An `int32` addition of a share to an error term that is at least 65535 away
from the limits of `int32` does not wrap. -/
theorem add_share_exact (e d : Int) (he : -2147418112 ≤ e ∧ e ≤ 2147418112)
    (hd : -28671 ≤ d ∧ d ≤ 28671) : toInt32 (e + d) = e + d :=
  toInt32_of_range _ (by omega) (by omega)

/-- The grid after `addErr`, cell by cell. -/
theorem addErr_apply (g : ErrGrid) (y x : Nat) (dr dg db : Int) (cy cx : Nat) :
    addErr g y x dr dg db cy cx =
      if cy = y ∧ cx = x then (g y x).add32 dr dg db else g cy cx := by
  unfold addErr; rfl

/-- The cell that `addErr` updates. -/
theorem addErr_self (g : ErrGrid) (y x : Nat) (dr dg db : Int) :
    addErr g y x dr dg db y x = (g y x).add32 dr dg db := by
  rw [addErr_apply, if_pos ⟨rfl, rfl⟩]

/-- The cells that `addErr` leaves alone. -/
theorem addErr_other (g : ErrGrid) (y x : Nat) (dr dg db : Int) (y' x' : Nat)
    (hne : ¬ (y' = y ∧ x' = x)) : addErr g y x dr dg db y' x' = g y' x' := by
  rw [addErr_apply, if_neg hne]

/-- Three additions that do not wrap. -/
theorem add32_exact (e : colError) (dr dg db : Int)
    (hr : -2147483648 ≤ e.R + dr ∧ e.R + dr < 2147483648)
    (hg : -2147483648 ≤ e.G + dg ∧ e.G + dg < 2147483648)
    (hb : -2147483648 ≤ e.B + db ∧ e.B + db < 2147483648) :
    e.add32 dr dg db = ⟨e.R + dr, e.G + dg, e.B + db⟩ := by
  unfold colError.add32
  simp only [toInt32_of_range _ hr.1 hr.2, toInt32_of_range _ hg.1 hg.2,
    toInt32_of_range _ hb.1 hb.2]

/-- At a pixel with `2 <= x`, `x + 2 < w` and `y + 1 < h` all four branches of
lines 78-97 are taken. -/
theorem diffuse_interior (g : ErrGrid) (w h x y : Nat) (cr cg cb : Int)
    (hx : 2 ≤ x) (hx2 : x + 2 < w) (hy : y + 1 < h) :
    diffuse g w h x y cr cg cb =
      addErr (addErr (addErr (addErr g y (x + 1) (share cr 7) (share cg 7) (share cb 7))
        (y + 1) (x - 1) (share cr 3) (share cg 3) (share cb 3))
        (y + 1) (x + 1) (Int.tdiv cr 16) (Int.tdiv cg 16) (Int.tdiv cb 16))
        (y + 1) x (share cr 5) (share cg 5) (share cb 5) := by
  have h1 : x + 1 < w := by omega
  have h2 : (x : Int) - 1 > 0 := by omega
  simp only [diffuse, diffuseRight, diffuseBelowLeft, diffuseBelowRight, diffuseBelow,
    if_pos h1, if_pos hy, if_pos h2, if_pos hx2]

/-- The query `int32(r) + gerror[y][x].R` of a 16-bit sample and an error term
that is at least 65535 away from the limits of `int32` does not wrap. -/
theorem sample_plus_error (v : Nat) (e : Int) (hv : v < 65536)
    (he : -2147418112 ≤ e ∧ e ≤ 2147418112) : toInt32 (toInt32 v + e) = v + e := by
  unfold toInt32; omega

/-- The residual `int32(r) - int32(tr)` of two 16-bit values does not wrap. -/
theorem sample_minus_target (v t : Nat) (hv : v < 65536) (ht : t < 65536) :
    toInt32 (toInt32 v - toInt32 t) = v - t := by
  unfold toInt32; omega

/-- One iteration of `Convert` at pixel `(x, y)`, when the sample and the
palette are 16-bit and no error term is within 65535 of the limits of `int32`:
the colour matched is the sample plus the accumulated error, and at an interior
pixel the four neighbours receive their shares of the residual. -/
theorem pixelStep_diffusion {σ : Type} (C : Context σ) (w h : Nat) (s : ConvertState σ)
    (x y : Nat) (hne : C.PaletteAt s.ctx x y ≠ []) (hsrc : (C.At s.ctx x y).valid)
    (hpal : ∀ v ∈ C.PaletteAt s.ctx x y, v.valid)
    (hgrid : ∀ cy cx, (s.gerror cy cx).within 2147418112) :
    ∃ target s', target ∈ C.PaletteAt s.ctx x y ∧
      closest ((C.At s.ctx x y).r + (s.gerror y x).R) ((C.At s.ctx x y).g + (s.gerror y x).G)
        ((C.At s.ctx x y).b + (s.gerror y x).B) (C.PaletteAt s.ctx x y) = some target ∧
      pixelStep C w h s x y = some s' ∧
      s'.ctx = C.Set s.ctx x y target ∧ s'.calls = s.calls ++ [(x, y, target)] ∧
      (2 ≤ x → x + 2 < w → y + 1 < h →
        s'.gerror y (x + 1) =
          (s.gerror y (x + 1)).plusShare 7 (residual (C.At s.ctx x y) target) ∧
        s'.gerror (y + 1) (x - 1) =
          (s.gerror (y + 1) (x - 1)).plusShare 3 (residual (C.At s.ctx x y) target) ∧
        s'.gerror (y + 1) (x + 1) =
          (s.gerror (y + 1) (x + 1)).plusShare 1 (residual (C.At s.ctx x y) target) ∧
        s'.gerror (y + 1) x =
          (s.gerror (y + 1) x).plusShare 5 (residual (C.At s.ctx x y) target) ∧
        ∀ cy cx, ¬ (cy = y ∧ cx = x + 1) → ¬ (cy = y + 1 ∧ cx = x - 1) →
          ¬ (cy = y + 1 ∧ cx = x + 1) → ¬ (cy = y + 1 ∧ cx = x) →
          s'.gerror cy cx = s.gerror cy cx) := by
  obtain ⟨target, s', hmem, hcl, hs', hctx, hcalls, hg⟩ := pixelStep_some C w h s x y hne
  obtain ⟨sr, sg, sb, _⟩ := hsrc
  obtain ⟨tr, tg, tb, _⟩ := hpal target hmem
  obtain ⟨er, eg, eb⟩ := hgrid y x
  have q1 := sample_plus_error (C.At s.ctx x y).r (s.gerror y x).R sr er
  have q2 := sample_plus_error (C.At s.ctx x y).g (s.gerror y x).G sg eg
  have q3 := sample_plus_error (C.At s.ctx x y).b (s.gerror y x).B sb eb
  simp only [q1, q2, q3] at hcl
  clear q1 q2 q3
  have r1 := sample_minus_target (C.At s.ctx x y).r target.r sr tr
  have r2 := sample_minus_target (C.At s.ctx x y).g target.g sg tg
  have r3 := sample_minus_target (C.At s.ctx x y).b target.b sb tb
  simp only [r1, r2, r3] at hg
  clear r1 r2 r3
  refine ⟨target, s', hmem, hcl, hs', hctx, hcalls, ?_⟩
  intro hx hx2 hy
  have br : -65535 ≤ ((C.At s.ctx x y).r : Int) - target.r ∧
      ((C.At s.ctx x y).r : Int) - target.r ≤ 65535 := by omega
  have bg : -65535 ≤ ((C.At s.ctx x y).g : Int) - target.g ∧
      ((C.At s.ctx x y).g : Int) - target.g ≤ 65535 := by omega
  have bb : -65535 ≤ ((C.At s.ctx x y).b : Int) - target.b ∧
      ((C.At s.ctx x y).b : Int) - target.b ≤ 65535 := by omega
  have key : ∀ (g : ErrGrid) (cy cx : Nat) (k : Int) (dr dg db : Int),
      g cy cx = s.gerror cy cx →
      (dr = Int.tdiv (k * (((C.At s.ctx x y).r : Int) - target.r)) 16 ∧
        -28671 ≤ dr ∧ dr ≤ 28671) →
      (dg = Int.tdiv (k * (((C.At s.ctx x y).g : Int) - target.g)) 16 ∧
        -28671 ≤ dg ∧ dg ≤ 28671) →
      (db = Int.tdiv (k * (((C.At s.ctx x y).b : Int) - target.b)) 16 ∧
        -28671 ≤ db ∧ db ≤ 28671) →
      addErr g cy cx dr dg db cy cx =
        (s.gerror cy cx).plusShare k (residual (C.At s.ctx x y) target) := by
    intro g cy cx k dr dg db hgc ⟨e1, b1⟩ ⟨e2, b2⟩ ⟨e3, b3⟩
    obtain ⟨c1, c2, c3⟩ := hgrid cy cx
    rw [addErr_self, hgc, add32_exact _ _ _ _ (by omega) (by omega) (by omega)]
    subst e1 e2 e3
    rfl
  have one : ∀ c : Int, (-65535 ≤ c ∧ c ≤ 65535) →
      (Int.tdiv c 16 = Int.tdiv (1 * c) 16 ∧ -28671 ≤ Int.tdiv c 16 ∧ Int.tdiv c 16 ≤ 28671) :=
    fun c hc => ⟨by rw [one_mul], tdiv16_bound c hc⟩
  rw [hg, diffuse_interior _ _ _ _ _ _ _ _ hx hx2 hy]
  refine ⟨?_, ?_, ?_, ?_, ?_⟩
  · rw [addErr_other _ _ _ _ _ _ _ _ (by omega), addErr_other _ _ _ _ _ _ _ _ (by omega),
      addErr_other _ _ _ _ _ _ _ _ (by omega)]
    exact key _ _ _ 7 _ _ _ rfl (share_exact _ 7 br (by simp)) (share_exact _ 7 bg (by simp))
      (share_exact _ 7 bb (by simp))
  · rw [addErr_other _ _ _ _ _ _ _ _ (by omega), addErr_other _ _ _ _ _ _ _ _ (by omega)]
    exact key _ _ _ 3 _ _ _ (addErr_other _ _ _ _ _ _ _ _ (by omega))
      (share_exact _ 3 br (by simp)) (share_exact _ 3 bg (by simp))
      (share_exact _ 3 bb (by simp))
  · rw [addErr_other _ _ _ _ _ _ _ _ (by omega)]
    refine key _ _ _ 1 _ _ _ ?_ (one _ br) (one _ bg) (one _ bb)
    rw [addErr_other _ _ _ _ _ _ _ _ (by omega), addErr_other _ _ _ _ _ _ _ _ (by omega)]
  · refine key _ _ _ 5 _ _ _ ?_ (share_exact _ 5 br (by simp)) (share_exact _ 5 bg (by simp))
      (share_exact _ 5 bb (by simp))
    rw [addErr_other _ _ _ _ _ _ _ _ (by omega), addErr_other _ _ _ _ _ _ _ _ (by omega),
      addErr_other _ _ _ _ _ _ _ _ (by omega)]
  · intro cy cx n1 n2 n3 n4
    rw [addErr_other _ _ _ _ _ _ _ _ n4, addErr_other _ _ _ _ _ _ _ _ n3,
      addErr_other _ _ _ _ _ _ _ _ n2, addErr_other _ _ _ _ _ _ _ _ n1]

/-! ## The claim about the error one iteration spreads -/

/-- C5: in the body of the loops of `Convert` at pixel `(x, y)`, with 16-bit
source sample and palette colours and error terms at least 65535 away from the
limits of `int32` (so that no addition wraps), the colour matched against the
pixel's palette is the source sample plus the accumulated error at `(x, y)`, and
the residual is, per channel, the source sample minus the chosen colour; for a
pixel with `2 <= x`, `x + 2 < w` and `y + 1 < h` the error cells are increased by
exactly `trunc(7*res/16)` at `(x+1, y)`, `trunc(3*res/16)` at `(x-1, y+1)`,
`trunc(res/16)` at `(x+1, y+1)` and `trunc(5*res/16)` at `(x, y+1)`, with
division truncating toward zero, and no other cell changes. -/
theorem C5_pixel_residual_shares {σ : Type} (C : Context σ) (w h : Nat) (s : ConvertState σ)
    (x y : Nat) (hne : C.PaletteAt s.ctx x y ≠ []) (hsrc : (C.At s.ctx x y).valid)
    (hpal : ∀ v ∈ C.PaletteAt s.ctx x y, v.valid)
    (hgrid : ∀ cy cx, (s.gerror cy cx).within 2147418112) :
    ∃ target s', target ∈ C.PaletteAt s.ctx x y ∧
      closest ((C.At s.ctx x y).r + (s.gerror y x).R) ((C.At s.ctx x y).g + (s.gerror y x).G)
        ((C.At s.ctx x y).b + (s.gerror y x).B) (C.PaletteAt s.ctx x y) = some target ∧
      pixelStep C w h s x y = some s' ∧
      s'.ctx = C.Set s.ctx x y target ∧ s'.calls = s.calls ++ [(x, y, target)] ∧
      (2 ≤ x → x + 2 < w → y + 1 < h →
        s'.gerror y (x + 1) =
          (s.gerror y (x + 1)).plusShare 7 (residual (C.At s.ctx x y) target) ∧
        s'.gerror (y + 1) (x - 1) =
          (s.gerror (y + 1) (x - 1)).plusShare 3 (residual (C.At s.ctx x y) target) ∧
        s'.gerror (y + 1) (x + 1) =
          (s.gerror (y + 1) (x + 1)).plusShare 1 (residual (C.At s.ctx x y) target) ∧
        s'.gerror (y + 1) x =
          (s.gerror (y + 1) x).plusShare 5 (residual (C.At s.ctx x y) target) ∧
        ∀ cy cx, ¬ (cy = y ∧ cx = x + 1) → ¬ (cy = y + 1 ∧ cx = x - 1) →
          ¬ (cy = y + 1 ∧ cx = x + 1) → ¬ (cy = y + 1 ∧ cx = x) →
          s'.gerror cy cx = s.gerror cy cx) :=
  pixelStep_diffusion C w h s x y hne hsrc hpal hgrid

/-- C5 at a concrete input: the first iteration on pixel `(2, 0)` of a 5x2 image
with the palette black, white. -/
theorem C5_pixel_residual_shares_witness :
    imageCtxOps.PaletteAt stripState.ctx 2 0 ≠ [] ∧
    (imageCtxOps.At stripState.ctx 2 0).valid ∧
    (∀ v ∈ imageCtxOps.PaletteAt stripState.ctx 2 0, v.valid) ∧
    (∀ cy cx, (stripState.gerror cy cx).within 2147418112) ∧
    ∃ target s', target ∈ imageCtxOps.PaletteAt stripState.ctx 2 0 ∧
      closest ((imageCtxOps.At stripState.ctx 2 0).r + (stripState.gerror 0 2).R) ((imageCtxOps.At stripState.ctx 2 0).g + (stripState.gerror 0 2).G)
        ((imageCtxOps.At stripState.ctx 2 0).b + (stripState.gerror 0 2).B) (imageCtxOps.PaletteAt stripState.ctx 2 0) = some target ∧
      pixelStep imageCtxOps 5 2 stripState 2 0 = some s' ∧
      s'.ctx = imageCtxOps.Set stripState.ctx 2 0 target ∧ s'.calls = stripState.calls ++ [(2, 0, target)] ∧
      (2 ≤ 2 → 2 + 2 < 5 → 0 + 1 < 2 →
        s'.gerror 0 (2 + 1) =
          (stripState.gerror 0 (2 + 1)).plusShare 7 (residual (imageCtxOps.At stripState.ctx 2 0) target) ∧
        s'.gerror (0 + 1) (2 - 1) =
          (stripState.gerror (0 + 1) (2 - 1)).plusShare 3 (residual (imageCtxOps.At stripState.ctx 2 0) target) ∧
        s'.gerror (0 + 1) (2 + 1) =
          (stripState.gerror (0 + 1) (2 + 1)).plusShare 1 (residual (imageCtxOps.At stripState.ctx 2 0) target) ∧
        s'.gerror (0 + 1) 2 =
          (stripState.gerror (0 + 1) 2).plusShare 5 (residual (imageCtxOps.At stripState.ctx 2 0) target) ∧
        ∀ cy cx, ¬ (cy = 0 ∧ cx = 2 + 1) → ¬ (cy = 0 + 1 ∧ cx = 2 - 1) →
          ¬ (cy = 0 + 1 ∧ cx = 2 + 1) → ¬ (cy = 0 + 1 ∧ cx = 2) →
          s'.gerror cy cx = stripState.gerror cy cx) :=
  ⟨by decide, by decide, by decide,
    fun _ _ => (show (colError.mk 0 0 0).within 2147418112 from by decide),
    C5_pixel_residual_shares imageCtxOps 5 2 stripState 2 0 (by decide) (by decide)
      (by decide) (fun _ _ => (show (colError.mk 0 0 0).within 2147418112 from by decide))⟩

/-! ## `convertMC`: the size test and the half-width image -/

/-- The size test passes exactly when the width is 320 or 321 and the height is
200. -/
theorem convertMCGuard_ok_iff (src : Image) :
    convertMCGuard src = Except.ok (160, 200) ↔ (src.w = 320 ∨ src.w = 321) ∧ src.h = 200 := by
  unfold convertMCGuard
  simp only []
  split
  · next h => simp only [reduceCtorEq, false_iff]; omega
  · next h =>
    simp only [Except.ok.injEq, Prod.mk.injEq]
    omega

/-- The rows of the half-width image: row `y` of the destination receives the
averaged pairs, everything else stays. -/
theorem downsampleRow_spec (src : Image) (dest : RGBAImage) (y : Nat) (n : Nat) :
    ((downsampleRow src n dest y).minX = dest.minX ∧
      (downsampleRow src n dest y).minY = dest.minY ∧
      (downsampleRow src n dest y).w = dest.w ∧ (downsampleRow src n dest y).h = dest.h) ∧
    ∀ (x' y' : Int), (downsampleRow src n dest y).pix x' y' =
      if y' = y ∧ 0 ≤ x' ∧ x' < n ∧ dest.inRect x' y' = true then
        rgbaModel (averagePair src x'.toNat y)
      else dest.pix x' y' := by
  induction n with
  | zero =>
    refine ⟨⟨rfl, rfl, rfl, rfl⟩, fun x' y' => ?_⟩
    rw [if_neg (by omega)]; rfl
  | succ n ih =>
    obtain ⟨⟨i1, i2, i3, i4⟩, ih⟩ := ih
    have hrow : downsampleRow src (n + 1) dest y =
        (downsampleRow src n dest y).Set n y (averagePair src n y) := by
      simp [downsampleRow, List.range_succ, List.foldl_append]
    obtain ⟨r1, r2, r3, r4⟩ := RGBAImage_Set_rect (downsampleRow src n dest y) n y
      (averagePair src n y)
    rw [hrow]
    refine ⟨⟨by rw [r1, i1], by rw [r2, i2], by rw [r3, i3], by rw [r4, i4]⟩, fun x' y' => ?_⟩
    have hrect : ∀ a b, (downsampleRow src n dest y).inRect a b = dest.inRect a b := by
      intro a b; simp only [RGBAImage.inRect, i1, i2, i3, i4]
    by_cases hp : x' = (n : Int) ∧ y' = (y : Int)
    · obtain ⟨rfl, rfl⟩ := hp
      by_cases hin : dest.inRect (n : Int) (y : Int) = true
      · rw [RGBAImage_Set_pix_self _ _ _ _ (by rw [hrect]; exact hin)]
        rw [if_pos ⟨rfl, by omega, by omega, hin⟩]
        simp
      · have : (downsampleRow src n dest y).Set n y (averagePair src n y) =
            downsampleRow src n dest y := by
          unfold RGBAImage.Set
          rw [if_neg (by rw [hrect]; exact hin)]
        rw [this, ih, if_neg (by omega), if_neg (fun h => hin h.2.2.2)]
    · rw [RGBAImage_Set_pix_other _ _ _ _ _ _ hp, ih]
      by_cases hc : y' = (y : Int) ∧ 0 ≤ x' ∧ x' < (n : Int) ∧ dest.inRect x' y' = true
      · rw [if_pos hc, if_pos ⟨hc.1, hc.2.1, by omega, hc.2.2.2⟩]
      · rw [if_neg hc, if_neg]
        rintro ⟨h1, h2, h3, h4⟩
        apply hc
        refine ⟨h1, h2, ?_, h4⟩
        rcases lt_or_ge x' (n : Int) with h | h
        · exact h
        · exact absurd ⟨by push_cast at h3; omega, h1⟩ hp

/-- The half-width image holds, at every pixel, the conversion to `color.RGBA`
of the averaged pair. -/
theorem downsample_spec (src : Image) (w : Nat) (n : Nat) (h : Nat) (hn : n ≤ h) :
    (((List.range n).foldl (fun dest y => downsampleRow src w dest y)
        (NewRGBA 0 0 w h)).minX = 0 ∧
      ((List.range n).foldl (fun dest y => downsampleRow src w dest y)
        (NewRGBA 0 0 w h)).minY = 0 ∧
      ((List.range n).foldl (fun dest y => downsampleRow src w dest y)
        (NewRGBA 0 0 w h)).w = w ∧
      ((List.range n).foldl (fun dest y => downsampleRow src w dest y)
        (NewRGBA 0 0 w h)).h = h) ∧
    ∀ (x y : Nat), x < w → y < n →
      ((List.range n).foldl (fun dest y => downsampleRow src w dest y)
        (NewRGBA 0 0 w h)).pix x y = rgbaModel (averagePair src x y) := by
  induction n with
  | zero => exact ⟨⟨rfl, rfl, rfl, rfl⟩, fun x y _ hy => absurd hy (by omega)⟩
  | succ n ih =>
    obtain ⟨⟨i1, i2, i3, i4⟩, ih⟩ := ih (by omega)
    rw [List.range_succ, List.foldl_append]
    simp only [List.foldl_cons, List.foldl_nil]
    obtain ⟨⟨r1, r2, r3, r4⟩, hpix⟩ := downsampleRow_spec src
      ((List.range n).foldl (fun dest y => downsampleRow src w dest y) (NewRGBA 0 0 w h)) n w
    refine ⟨⟨by rw [r1, i1], by rw [r2, i2], by rw [r3, i3], by rw [r4, i4]⟩, ?_⟩
    intro x y hx hy
    rw [hpix]
    by_cases hyn : y = n
    · subst hyn
      rw [if_pos]
      · simp
      · refine ⟨rfl, by omega, by omega, ?_⟩
        simp only [RGBAImage.inRect, i1, i2, i3, i4, decide_eq_true_eq]
        omega
    · rw [if_neg (by omega)]
      exact ih x y hx (by omega)

/-- Reading the half-width image back at a pixel. -/
theorem downsample_At (src : Image) (w h x y : Nat) (hx : x < w) (hy : y < h) :
    (downsample src w h).At x y = (rgbaModel (averagePair src x y)).RGBA := by
  obtain ⟨⟨i1, i2, i3, i4⟩, hpix⟩ := downsample_spec src w h h le_rfl
  unfold RGBAImage.At
  have hin : (downsample src w h).inRect x y = true := by
    unfold downsample
    simp only [RGBAImage.inRect, i1, i2, i3, i4, decide_eq_true_eq]
    omega
  rw [if_pos hin]
  unfold downsample
  rw [hpix x y hx hy]

/-- The average of two 16-bit channel values, as the code computes it. -/
theorem average_exact (c1 c2 : Nat) (h1 : c1 < 65536) (h2 : c2 < 65536) :
    average c1 c2 = (c1 + c2) / 2 ∧ average c1 c2 < 65536 := by
  unfold average; omega

/-! ## The claims about the size test and the half-width image -/

/-- C6, the code at the failing input: a source image 321 wide and 200 high
passes the size test of `convertMC`, which computes the half width 160 by a
truncating division, so no error is returned for it. -/
theorem C6_guard_accepts_width_321 :
    wideImage.w = 321 ∧ wideImage.h = 200 ∧
      convertMCGuard wideImage = Except.ok (160, 200) :=
  ⟨rfl, rfl, (convertMCGuard_ok_iff wideImage).2 ⟨Or.inr rfl, rfl⟩⟩

/-- C7, as the code has it: for every 320x200 source image of 16-bit samples and
every output pixel `(x, y)`, each of the four channels of the half-width image at
`(x, y)` is the truncated average `(c1 + c2) / 2` of the channel values of the
source pixels `(2x, y)` and `(2x+1, y)` cut to its top eight bits and repeated
in both bytes, `257 * ((c1 + c2) / 2 / 256)`; when the two source pixels are
identical and are an 8-bit colour, the output pixel's channel values equal
theirs. -/
theorem C7_downsample_average_top_bits (src : Image) (hw : src.w = 320) (hh : src.h = 200)
    (hvalid : ∀ x y, (src.At x y).valid) (x y : Nat) (hx : x < 160) (hy : y < 200) :
    convertMCGuard src = Except.ok (160, 200) ∧
    (downsample src 160 200).At x y =
      ⟨((src.At ((x : Int) * 2 + src.minX) ((y : Int) + src.minY)).r +
          (src.At ((x : Int) * 2 + src.minX + 1) ((y : Int) + src.minY)).r) / 2 / 256 * 257,
       ((src.At ((x : Int) * 2 + src.minX) ((y : Int) + src.minY)).g +
          (src.At ((x : Int) * 2 + src.minX + 1) ((y : Int) + src.minY)).g) / 2 / 256 * 257,
       ((src.At ((x : Int) * 2 + src.minX) ((y : Int) + src.minY)).b +
          (src.At ((x : Int) * 2 + src.minX + 1) ((y : Int) + src.minY)).b) / 2 / 256 * 257,
       ((src.At ((x : Int) * 2 + src.minX) ((y : Int) + src.minY)).a +
          (src.At ((x : Int) * 2 + src.minX + 1) ((y : Int) + src.minY)).a) / 2 / 256 * 257⟩ ∧
    (src.At ((x : Int) * 2 + src.minX) ((y : Int) + src.minY) =
        src.At ((x : Int) * 2 + src.minX + 1) ((y : Int) + src.minY) →
      (src.At ((x : Int) * 2 + src.minX) ((y : Int) + src.minY)).is8bit →
      (downsample src 160 200).At x y =
        src.At ((x : Int) * 2 + src.minX) ((y : Int) + src.minY)) := by
  have hguard := (convertMCGuard_ok_iff src).2 ⟨Or.inl hw, hh⟩
  have hat := downsample_At src 160 200 x y hx hy
  obtain ⟨a1, a2, a3, a4⟩ := hvalid ((x : Int) * 2 + src.minX) ((y : Int) + src.minY)
  obtain ⟨b1, b2, b3, b4⟩ := hvalid ((x : Int) * 2 + src.minX + 1) ((y : Int) + src.minY)
  have key : ∀ c1 c2 : Nat, c1 < 65536 → c2 < 65536 →
      average c1 c2 / 256 % 256 * 257 = (c1 + c2) / 2 / 256 * 257 := by
    intro c1 c2 h1 h2
    obtain ⟨e, b⟩ := average_exact c1 c2 h1 h2
    rw [e] at b ⊢
    rw [Nat.mod_eq_of_lt (by omega)]
  have hval : (downsample src 160 200).At x y = _ := hat.trans (rgbaModel_RGBA _).1
  simp only [averagePair] at hval
  rw [key _ _ a1 b1, key _ _ a2 b2, key _ _ a3 b3, key _ _ a4 b4] at hval
  refine ⟨hguard, hval, ?_⟩
  intro hsame h8
  rw [hval, ← hsame]
  obtain ⟨_, m1, m2, m3, m4⟩ := h8
  have rt : ∀ v : Nat, v < 65536 → v % 257 = 0 → (v + v) / 2 / 256 * 257 = v := by
    intro v hv hm
    have h2 : (v + v) / 2 = v := by omega
    rw [h2]
    have := channel_roundtrip v hv hm
    rwa [Nat.mod_eq_of_lt (by omega)] at this
  rw [rt _ a1 m1, rt _ a2 m2, rt _ a3 m3, rt _ a4 m4]

/-- C7 at a concrete input: the 320x200 image `stepImage`, output pixel
`(5, 7)`. -/
theorem C7_downsample_average_top_bits_witness :
    stepImage.w = 320 ∧ stepImage.h = 200 ∧ (∀ x y, (stepImage.At x y).valid) ∧
    (5 : Nat) < 160 ∧ (7 : Nat) < 200 ∧
    convertMCGuard stepImage = Except.ok (160, 200) ∧
    (downsample stepImage 160 200).At (5 : Nat) (7 : Nat) =
      ⟨((stepImage.At (((5 : Nat) : Int) * 2 + stepImage.minX)
            (((7 : Nat) : Int) + stepImage.minY)).r +
          (stepImage.At (((5 : Nat) : Int) * 2 + stepImage.minX + 1)
            (((7 : Nat) : Int) + stepImage.minY)).r) / 2 / 256 * 257,
       ((stepImage.At (((5 : Nat) : Int) * 2 + stepImage.minX)
            (((7 : Nat) : Int) + stepImage.minY)).g +
          (stepImage.At (((5 : Nat) : Int) * 2 + stepImage.minX + 1)
            (((7 : Nat) : Int) + stepImage.minY)).g) / 2 / 256 * 257,
       ((stepImage.At (((5 : Nat) : Int) * 2 + stepImage.minX)
            (((7 : Nat) : Int) + stepImage.minY)).b +
          (stepImage.At (((5 : Nat) : Int) * 2 + stepImage.minX + 1)
            (((7 : Nat) : Int) + stepImage.minY)).b) / 2 / 256 * 257,
       ((stepImage.At (((5 : Nat) : Int) * 2 + stepImage.minX)
            (((7 : Nat) : Int) + stepImage.minY)).a +
          (stepImage.At (((5 : Nat) : Int) * 2 + stepImage.minX + 1)
            (((7 : Nat) : Int) + stepImage.minY)).a) / 2 / 256 * 257⟩ ∧
    (stepImage.At (((5 : Nat) : Int) * 2 + stepImage.minX) (((7 : Nat) : Int) + stepImage.minY) =
        stepImage.At (((5 : Nat) : Int) * 2 + stepImage.minX + 1)
          (((7 : Nat) : Int) + stepImage.minY) →
      (stepImage.At (((5 : Nat) : Int) * 2 + stepImage.minX)
        (((7 : Nat) : Int) + stepImage.minY)).is8bit →
      (downsample stepImage 160 200).At (5 : Nat) (7 : Nat) =
        stepImage.At (((5 : Nat) : Int) * 2 + stepImage.minX)
          (((7 : Nat) : Int) + stepImage.minY)) :=
  have hv : ∀ x y, (stepImage.At x y).valid := by
    intro x y
    simp only [stepImage]
    split <;> decide
  ⟨rfl, rfl, hv, by decide, by decide,
    C7_downsample_average_top_bits stepImage rfl rfl hv 5 7 (by decide) (by decide)⟩

/-- C7 as stated fails: in `stepImage` the source pixels `(0,0)` and `(1,0)` have
red values 0 and 257, whose truncated average is 128, yet the red channel of the
half-width image at `(0,0)` is 0. -/
theorem C7_counterexample :
    ((stepImage.At 0 0).r + (stepImage.At 1 0).r) / 2 = 128 ∧
    ((downsample stepImage 160 200).At (0 : Nat) (0 : Nat)).r = 0 := by
  refine ⟨by decide, ?_⟩
  rw [downsample_At stepImage 160 200 0 0 (by decide) (by decide)]
  decide


/-! ## The total one pixel hands on -/

/-- The four shares of a residual of two 16-bit values, through the
rounding-down division. -/
theorem shares_eq (c : Int) (hc : -65535 ≤ c ∧ c ≤ 65535) :
    share c 7 = (if 0 ≤ c then 7 * c / 16 else -((-(7 * c)) / 16)) ∧
    share c 3 = (if 0 ≤ c then 3 * c / 16 else -((-(3 * c)) / 16)) ∧
    share c 5 = (if 0 ≤ c then 5 * c / 16 else -((-(5 * c)) / 16)) ∧
    Int.tdiv c 16 = (if 0 ≤ c then c / 16 else -((-c) / 16)) := by
  have h7 := (share_exact c 7 hc (by simp)).1
  have h3 := (share_exact c 3 hc (by simp)).1
  have h5 := (share_exact c 5 hc (by simp)).1
  rw [h7, h3, h5, tdiv16_eq, tdiv16_eq, tdiv16_eq, tdiv16_eq]
  refine ⟨?_, ?_, ?_, ?_⟩ <;> split_ifs <;> omega

/-- The shares of a residual are the products by 7, 3, 1 and 5 divided by 16
with truncation toward zero. -/
theorem shares_trunc (c : Int) (hc : -65535 ≤ c ∧ c ≤ 65535) :
    share c 7 = Int.tdiv (7 * c) 16 ∧ share c 3 = Int.tdiv (3 * c) 16 ∧
      share c 5 = Int.tdiv (5 * c) 16 :=
  ⟨(share_exact c 7 hc (by simp)).1, (share_exact c 3 hc (by simp)).1,
    (share_exact c 5 hc (by simp)).1⟩

/-- Each share has the sign of the residual and is at most its fraction of
it. -/
theorem shares_sign (c : Int) (hc : -65535 ≤ c ∧ c ≤ 65535) :
    (0 ≤ c → (0 ≤ share c 7 ∧ 16 * share c 7 ≤ 7 * c) ∧ (0 ≤ share c 3 ∧ 16 * share c 3 ≤ 3 * c) ∧
      (0 ≤ share c 5 ∧ 16 * share c 5 ≤ 5 * c) ∧ (0 ≤ Int.tdiv c 16 ∧ 16 * Int.tdiv c 16 ≤ c)) ∧
    (c ≤ 0 → (share c 7 ≤ 0 ∧ 7 * c ≤ 16 * share c 7) ∧ (share c 3 ≤ 0 ∧ 3 * c ≤ 16 * share c 3) ∧
      (share c 5 ≤ 0 ∧ 5 * c ≤ 16 * share c 5) ∧ (Int.tdiv c 16 ≤ 0 ∧ c ≤ 16 * Int.tdiv c 16)) := by
  obtain ⟨h7, h3, h5, h1⟩ := shares_eq c hc
  rw [h7, h3, h5, h1]
  constructor
  · intro h; rw [if_pos h, if_pos h, if_pos h, if_pos h]
    refine ⟨⟨?_, ?_⟩, ⟨?_, ?_⟩, ⟨?_, ?_⟩, ⟨?_, ?_⟩⟩ <;> omega
  · intro h
    rcases eq_or_lt_of_le h with h0 | hneg
    · subst h0; simp
    · have hn : ¬ 0 ≤ c := by omega
      rw [if_neg hn, if_neg hn, if_neg hn, if_neg hn]
      refine ⟨⟨?_, ?_⟩, ⟨?_, ?_⟩, ⟨?_, ?_⟩, ⟨?_, ?_⟩⟩ <;> omega

/-- The total of the four shares is at most 3 away from the residual. -/
theorem shares_total_near (c : Int) (hc : -65535 ≤ c ∧ c ≤ 65535) :
    (0 ≤ c → c - 3 ≤ share c 7 + share c 3 + Int.tdiv c 16 + share c 5 ∧
      share c 7 + share c 3 + Int.tdiv c 16 + share c 5 ≤ c) ∧
    (c ≤ 0 → c ≤ share c 7 + share c 3 + Int.tdiv c 16 + share c 5 ∧
      share c 7 + share c 3 + Int.tdiv c 16 + share c 5 ≤ c + 3) := by
  obtain ⟨h7, h3, h5, h1⟩ := shares_eq c hc
  rw [h7, h3, h5, h1]
  constructor
  · intro h; rw [if_pos h, if_pos h, if_pos h, if_pos h]; omega
  · intro h
    rcases eq_or_lt_of_le h with h0 | hneg
    · subst h0; simp
    · have hn : ¬ 0 ≤ c := by omega
      rw [if_neg hn, if_neg hn, if_neg hn, if_neg hn]; omega

/-- The total of the four shares lies between zero and the residual, at most 3
away from the residual. -/
theorem shares_total (c : Int) (hc : -65535 ≤ c ∧ c ≤ 65535) :
    (0 ≤ c → 0 ≤ share c 7 + share c 3 + Int.tdiv c 16 + share c 5 ∧
      c - 3 ≤ share c 7 + share c 3 + Int.tdiv c 16 + share c 5 ∧
      share c 7 + share c 3 + Int.tdiv c 16 + share c 5 ≤ c) ∧
    (c ≤ 0 → share c 7 + share c 3 + Int.tdiv c 16 + share c 5 ≤ 0 ∧
      c ≤ share c 7 + share c 3 + Int.tdiv c 16 + share c 5 ∧
      share c 7 + share c 3 + Int.tdiv c 16 + share c 5 ≤ c + 3) := by
  obtain ⟨npos, nneg⟩ := shares_total_near c hc
  obtain ⟨spos, sneg⟩ := shares_sign c hc
  constructor
  · intro h
    obtain ⟨⟨a1, _⟩, ⟨b1, _⟩, ⟨c1, _⟩, ⟨d1, _⟩⟩ := spos h
    have := npos h
    omega
  · intro h
    obtain ⟨⟨a1, _⟩, ⟨b1, _⟩, ⟨c1, _⟩, ⟨d1, _⟩⟩ := sneg h
    have := nneg h
    omega

/-- Whatever shares the borders leave out, the total handed on lies between
zero and the residual. -/
theorem distributed_between (w h x y : Nat) (c : Int) (hc : -65535 ≤ c ∧ c ≤ 65535) :
    (0 ≤ c → 0 ≤ distributed w h x y c ∧ distributed w h x y c ≤ c) ∧
    (c ≤ 0 → c ≤ distributed w h x y c ∧ distributed w h x y c ≤ 0) := by
  obtain ⟨hpos, hneg⟩ := shares_sign c hc
  unfold distributed
  constructor
  · intro h
    obtain ⟨⟨a1, a2⟩, ⟨b1, b2⟩, ⟨c1, c2⟩, ⟨d1, d2⟩⟩ := hpos h
    split_ifs <;> omega
  · intro h
    obtain ⟨⟨a1, a2⟩, ⟨b1, b2⟩, ⟨c1, c2⟩, ⟨d1, d2⟩⟩ := hneg h
    split_ifs <;> omega

/-- At an interior pixel all four shares are handed on. -/
theorem distributed_interior (w h x y : Nat) (c : Int) (hx : 2 ≤ x) (hx2 : x + 2 < w)
    (hy : y + 1 < h) :
    distributed w h x y c = share c 7 + share c 3 + Int.tdiv c 16 + share c 5 := by
  unfold distributed
  rw [if_pos (by omega), if_pos hy, if_pos (by omega), if_pos hx2]
  ring

/-! ## The claim about the total one pixel hands on -/

/-- C19: for every residual `res` with `-65535 <= res <= 65535`, the shares
`Convert` computes are `trunc(7*res/16)`, `trunc(3*res/16)`, `trunc(res/16)` and
`trunc(5*res/16)`; their total `T`, which is what an interior pixel hands on, is
zero or has the sign of `res` and satisfies `|res| - 3 <= |T| <= |res|`; at
any pixel, whichever shares the border conditions leave out, the total handed
on is zero or has the sign of `res` and has absolute value at most `|res|`. -/
theorem C19_distributed_total (res : Int) (hres : -65535 ≤ res ∧ res ≤ 65535) :
    (share res 7 = Int.tdiv (7 * res) 16 ∧ share res 3 = Int.tdiv (3 * res) 16 ∧
      share res 5 = Int.tdiv (5 * res) 16) ∧
    ((share res 7 + share res 3 + Int.tdiv res 16 + share res 5 = 0) ∨
      (0 < share res 7 + share res 3 + Int.tdiv res 16 + share res 5 ∧ 0 < res) ∨
      (share res 7 + share res 3 + Int.tdiv res 16 + share res 5 < 0 ∧ res < 0)) ∧
    res.natAbs ≤ (share res 7 + share res 3 + Int.tdiv res 16 + share res 5).natAbs + 3 ∧
    (share res 7 + share res 3 + Int.tdiv res 16 + share res 5).natAbs ≤ res.natAbs ∧
    (∀ w h x y : Nat, 2 ≤ x → x + 2 < w → y + 1 < h →
      distributed w h x y res = share res 7 + share res 3 + Int.tdiv res 16 + share res 5) ∧
    (∀ w h x y : Nat, (distributed w h x y res).natAbs ≤ res.natAbs ∧
      (distributed w h x y res = 0 ∨ (0 < distributed w h x y res ∧ 0 < res) ∨
        (distributed w h x y res < 0 ∧ res < 0))) := by
  obtain ⟨hpos, hneg⟩ := shares_total res hres
  refine ⟨shares_trunc res hres, ?_, ?_, ?_,
    fun w h x y hx hx2 hy => distributed_interior w h x y res hx hx2 hy, ?_⟩
  · rcases le_total 0 res with h | h
    · have := hpos h; omega
    · have := hneg h; omega
  · rcases le_total 0 res with h | h
    · have := hpos h; omega
    · have := hneg h; omega
  · rcases le_total 0 res with h | h
    · have := hpos h; omega
    · have := hneg h; omega
  · intro w h x y
    obtain ⟨dpos, dneg⟩ := distributed_between w h x y res hres
    rcases le_total 0 res with h0 | h0
    · have := dpos h0; omega
    · have := dneg h0; omega

/-- C19 at a concrete input: the residual -1000. -/
theorem C19_distributed_total_witness :
    (-65535 ≤ (-1000 : Int) ∧ (-1000 : Int) ≤ 65535) ∧
    ((share (-1000) 7 = Int.tdiv (7 * (-1000)) 16 ∧ share (-1000) 3 = Int.tdiv (3 * (-1000)) 16 ∧
      share (-1000) 5 = Int.tdiv (5 * (-1000)) 16) ∧
    ((share (-1000) 7 + share (-1000) 3 + Int.tdiv (-1000) 16 + share (-1000) 5 = 0) ∨
      (0 < share (-1000) 7 + share (-1000) 3 + Int.tdiv (-1000) 16 + share (-1000) 5 ∧
        0 < (-1000 : Int)) ∨
      (share (-1000) 7 + share (-1000) 3 + Int.tdiv (-1000) 16 + share (-1000) 5 < 0 ∧
        (-1000 : Int) < 0)) ∧
    (-1000 : Int).natAbs ≤
      (share (-1000) 7 + share (-1000) 3 + Int.tdiv (-1000) 16 + share (-1000) 5).natAbs + 3 ∧
    (share (-1000) 7 + share (-1000) 3 + Int.tdiv (-1000) 16 + share (-1000) 5).natAbs ≤
      (-1000 : Int).natAbs ∧
    (∀ w h x y : Nat, 2 ≤ x → x + 2 < w → y + 1 < h →
      distributed w h x y (-1000) =
        share (-1000) 7 + share (-1000) 3 + Int.tdiv (-1000) 16 + share (-1000) 5) ∧
    (∀ w h x y : Nat, (distributed w h x y (-1000)).natAbs ≤ (-1000 : Int).natAbs ∧
      (distributed w h x y (-1000) = 0 ∨
        (0 < distributed w h x y (-1000) ∧ 0 < (-1000 : Int)) ∨
        (distributed w h x y (-1000) < 0 ∧ (-1000 : Int) < 0)))) :=
  ⟨by decide, C19_distributed_total (-1000) (by decide)⟩


/-! ## The error grid during `Convert` -/

/-- What lines 78-97 do to each cell of `gerror`. -/
theorem diffuse_apply (g : ErrGrid) (w h x y : Nat) (cr cg cb : Int) (cy cx : Nat) :
    diffuse g w h x y cr cg cb cy cx =
      if cy = y ∧ cx = x + 1 ∧ x + 1 < w then
        (g cy cx).add32 (share cr 7) (share cg 7) (share cb 7)
      else if cy = y + 1 ∧ y + 1 < h ∧ cx + 1 = x ∧ 2 ≤ x then
        (g cy cx).add32 (share cr 3) (share cg 3) (share cb 3)
      else if cy = y + 1 ∧ y + 1 < h ∧ cx = x + 1 ∧ x + 2 < w then
        (g cy cx).add32 (Int.tdiv cr 16) (Int.tdiv cg 16) (Int.tdiv cb 16)
      else if cy = y + 1 ∧ y + 1 < h ∧ cx = x then
        (g cy cx).add32 (share cr 5) (share cg 5) (share cb 5)
      else g cy cx := by
  -- the four stages, cell by cell
  have sR : ∀ (g : ErrGrid) (a b : Nat), diffuseRight g w x y cr cg cb a b =
      if a = y ∧ b = x + 1 ∧ x + 1 < w then (g a b).add32 (share cr 7) (share cg 7) (share cb 7)
      else g a b := by
    intro g a b
    unfold diffuseRight
    by_cases hc : x + 1 < w
    · rw [if_pos hc, addErr_apply]
      by_cases hab : a = y ∧ b = x + 1
      · obtain ⟨rfl, rfl⟩ := hab
        rw [if_pos ⟨rfl, rfl⟩, if_pos ⟨rfl, rfl, hc⟩]
      · rw [if_neg hab, if_neg (fun h => hab ⟨h.1, h.2.1⟩)]
    · rw [if_neg hc, if_neg (fun h => hc h.2.2)]
  have sL : ∀ (g : ErrGrid) (a b : Nat), diffuseBelowLeft g x y cr cg cb a b =
      if a = y + 1 ∧ b + 1 = x ∧ 2 ≤ x then
        (g a b).add32 (share cr 3) (share cg 3) (share cb 3)
      else g a b := by
    intro g a b
    unfold diffuseBelowLeft
    by_cases hc : (x : Int) - 1 > 0
    · rw [if_pos hc, addErr_apply]
      by_cases hab : a = y + 1 ∧ b = x - 1
      · obtain ⟨rfl, rfl⟩ := hab
        rw [if_pos ⟨rfl, rfl⟩, if_pos ⟨rfl, by omega, by omega⟩]
      · rw [if_neg hab, if_neg (fun h => hab ⟨h.1, by omega⟩)]
    · rw [if_neg hc, if_neg (fun h => hc (by omega))]
  have sRt : ∀ (g : ErrGrid) (a b : Nat), diffuseBelowRight g w x y cr cg cb a b =
      if a = y + 1 ∧ b = x + 1 ∧ x + 2 < w then
        (g a b).add32 (Int.tdiv cr 16) (Int.tdiv cg 16) (Int.tdiv cb 16)
      else g a b := by
    intro g a b
    unfold diffuseBelowRight
    by_cases hc : x + 2 < w
    · rw [if_pos hc, addErr_apply]
      by_cases hab : a = y + 1 ∧ b = x + 1
      · obtain ⟨rfl, rfl⟩ := hab
        rw [if_pos ⟨rfl, rfl⟩, if_pos ⟨rfl, rfl, hc⟩]
      · rw [if_neg hab, if_neg (fun h => hab ⟨h.1, h.2.1⟩)]
    · rw [if_neg hc, if_neg (fun h => hc h.2.2)]
  have sB : ∀ (g : ErrGrid) (a b : Nat), diffuseBelow g x y cr cg cb a b =
      if a = y + 1 ∧ b = x then (g a b).add32 (share cr 5) (share cg 5) (share cb 5)
      else g a b := by
    intro g a b
    unfold diffuseBelow
    rw [addErr_apply]
    by_cases hab : a = y + 1 ∧ b = x
    · obtain ⟨rfl, rfl⟩ := hab
      rw [if_pos ⟨rfl, rfl⟩]
    · rw [if_neg hab, if_neg hab]
  simp only [diffuse]
  by_cases h2 : y + 1 < h
  · rw [if_pos h2, sB, sRt, sL, sR]
    simp only [h2, true_and]
    by_cases hR : cy = y ∧ cx = x + 1 ∧ x + 1 < w <;>
    by_cases hL : cy = y + 1 ∧ cx + 1 = x ∧ 2 ≤ x <;>
    by_cases hRt : cy = y + 1 ∧ cx = x + 1 ∧ x + 2 < w <;>
    by_cases hB : cy = y + 1 ∧ cx = x <;>
    first
    | (exfalso; omega)
    | ((try first | simp only [if_pos hR] | simp only [if_neg hR]);
        (try first | simp only [if_pos hL] | simp only [if_neg hL]);
        (try first | simp only [if_pos hRt] | simp only [if_neg hRt]);
        (try first | simp only [if_pos hB] | simp only [if_neg hB]))
  · rw [if_neg h2, sR]
    simp only [h2, false_and, and_false, if_false]

/-- The weight is one of 0, 7, 3, 1, 5, according to which condition of lines
78-97 holds for the cell. -/
theorem gain_cases (w h x y cy cx : Nat) :
    (gain w h x y cy cx = 7 ∧ (cy = y ∧ cx = x + 1 ∧ x + 1 < w)) ∨
    (gain w h x y cy cx = 3 ∧ ¬ (cy = y ∧ cx = x + 1 ∧ x + 1 < w) ∧
      (cy = y + 1 ∧ y + 1 < h ∧ cx + 1 = x ∧ 2 ≤ x)) ∨
    (gain w h x y cy cx = 1 ∧ ¬ (cy = y ∧ cx = x + 1 ∧ x + 1 < w) ∧
      ¬ (cy = y + 1 ∧ y + 1 < h ∧ cx + 1 = x ∧ 2 ≤ x) ∧
      (cy = y + 1 ∧ y + 1 < h ∧ cx = x + 1 ∧ x + 2 < w)) ∨
    (gain w h x y cy cx = 5 ∧ ¬ (cy = y ∧ cx = x + 1 ∧ x + 1 < w) ∧
      ¬ (cy = y + 1 ∧ y + 1 < h ∧ cx + 1 = x ∧ 2 ≤ x) ∧
      ¬ (cy = y + 1 ∧ y + 1 < h ∧ cx = x + 1 ∧ x + 2 < w) ∧
      (cy = y + 1 ∧ y + 1 < h ∧ cx = x)) ∨
    (gain w h x y cy cx = 0 ∧ ¬ (cy = y ∧ cx = x + 1 ∧ x + 1 < w) ∧
      ¬ (cy = y + 1 ∧ y + 1 < h ∧ cx + 1 = x ∧ 2 ≤ x) ∧
      ¬ (cy = y + 1 ∧ y + 1 < h ∧ cx = x + 1 ∧ x + 2 < w) ∧
      ¬ (cy = y + 1 ∧ y + 1 < h ∧ cx = x)) := by
  unfold gain
  by_cases h1 : cy = y ∧ cx = x + 1 ∧ x + 1 < w <;>
  by_cases h2 : cy = y + 1 ∧ y + 1 < h ∧ cx + 1 = x ∧ 2 ≤ x <;>
  by_cases h3 : cy = y + 1 ∧ y + 1 < h ∧ cx = x + 1 ∧ x + 2 < w <;>
  by_cases h4 : cy = y + 1 ∧ y + 1 < h ∧ cx = x <;>
  first
  | (exfalso; omega)
  | (rw [if_pos h1, if_neg h2, if_neg h3, if_neg h4]; exact Or.inl ⟨by norm_num, h1⟩)
  | (rw [if_neg h1, if_pos h2, if_neg h3, if_neg h4]
     exact Or.inr (Or.inl ⟨by norm_num, h1, h2⟩))
  | (rw [if_neg h1, if_neg h2, if_pos h3, if_neg h4]
     exact Or.inr (Or.inr (Or.inl ⟨by norm_num, h1, h2, h3⟩)))
  | (rw [if_neg h1, if_neg h2, if_neg h3, if_pos h4]
     exact Or.inr (Or.inr (Or.inr (Or.inl ⟨by norm_num, h1, h2, h3, h4⟩))))
  | (rw [if_neg h1, if_neg h2, if_neg h3, if_neg h4]
     exact Or.inr (Or.inr (Or.inr (Or.inr ⟨by norm_num, h1, h2, h3, h4⟩))))

/-- What lines 78-97 do to a cell, by the weight of its share. -/
theorem diffuse_gain (g : ErrGrid) (w h x y : Nat) (cr cg cb : Int) (cy cx : Nat) :
    diffuse g w h x y cr cg cb cy cx =
      if gain w h x y cy cx = 0 then g cy cx
      else (g cy cx).add32 (shareOf (gain w h x y cy cx) cr) (shareOf (gain w h x y cy cx) cg)
        (shareOf (gain w h x y cy cx) cb) := by
  rw [diffuse_apply]
  rcases gain_cases w h x y cy cx with ⟨e, c1⟩ | ⟨e, c1, c2⟩ | ⟨e, c1, c2, c3⟩ |
    ⟨e, c1, c2, c3, c4⟩ | ⟨e, c1, c2, c3, c4⟩
  · rw [e, if_pos c1, if_neg (by norm_num)]; rfl
  · rw [e, if_neg c1, if_pos c2, if_neg (by norm_num)]; rfl
  · rw [e, if_neg c1, if_neg c2, if_pos c3, if_neg (by norm_num)]; rfl
  · rw [e, if_neg c1, if_neg c2, if_neg c3, if_pos c4, if_neg (by norm_num)]; rfl
  · rw [e, if_neg c1, if_neg c2, if_neg c3, if_neg c4, if_pos rfl]


/-- Two pixels of the grid with the same flat number are the same pixel. -/
theorem flat_eq_iff (w k x y px py : Nat) (hx : x < w) (hk : y * w + x = k) (hpx : px < w) :
    py * w + px = k ↔ py = y ∧ px = x := by
  constructor
  · intro h
    have h1 : py = y := by
      rcases Nat.lt_trichotomy py y with hlt | heq | hgt
      · have := Nat.mul_le_mul_right w (Nat.succ_le_of_lt hlt)
        rw [Nat.succ_mul] at this
        omega
      · exact heq
      · have := Nat.mul_le_mul_right w (Nat.succ_le_of_lt hgt)
        rw [Nat.succ_mul] at this
        omega
    subst h1
    exact ⟨rfl, by omega⟩
  · rintro ⟨rfl, rfl⟩
    exact hk

/-- One more iteration: the pixels numbered below `k + 1` are those numbered
below `k` and pixel number `k` itself. -/
theorem flat_lt_succ_iff (w k x y px py : Nat) (hx : x < w) (hk : y * w + x = k)
    (hpx : px < w) :
    py * w + px < k + 1 ↔ py * w + px < k ∨ (py = y ∧ px = x) := by
  rw [← flat_eq_iff w k x y px py hx hk hpx]
  omega

/-- The pixel of iteration `k` has the flat number `k`. -/
theorem flat_of_step (w k : Nat) : (k / w) * w + k % w = k := by
  rw [Nat.mul_comm]; exact Nat.div_add_mod k w

/-- One indicator of `received` after one more iteration; `src` is the flat
number of the pixel the share comes from. -/
theorem indicator_succ (c d : Prop) [Decidable c] [Decidable d] (src k : Nat) (wt : Int)
    (hd : c → (src < k + 1 ↔ src < k ∨ d)) (hdc : d → c ∧ ¬ src < k) :
    (if c ∧ src < k + 1 then wt else 0) = (if c ∧ src < k then wt else 0) + (if d then wt else 0) := by
  by_cases hc : c
  · have := hd hc
    by_cases h1 : src < k
    · have nd : ¬ d := fun h => (hdc h).2 h1
      rw [if_pos ⟨hc, by omega⟩, if_pos ⟨hc, h1⟩, if_neg nd]; ring
    · by_cases h2 : d
      · rw [if_pos ⟨hc, this.2 (Or.inr h2)⟩, if_neg (fun h => h1 h.2), if_pos h2]; ring
      · have n3 : ¬ src < k + 1 := fun h => (this.1 h).elim h1 h2
        rw [if_neg (fun h => n3 h.2), if_neg (fun h => h1 h.2), if_neg h2]; ring
  · have nd : ¬ d := fun h => hc (hdc h).1
    rw [if_neg (fun h => hc h.1), if_neg (fun h => hc h.1), if_neg nd]; ring

/-- The share of weight 7, from the pixel to the left, after one more iteration. -/
theorem received_term7 (w h k x y cy cx : Nat) (hx : x < w) (hy : y < h) (hk : y * w + x = k) :
    (if (1 ≤ cx ∧ cx < w ∧ cy < h) ∧ cy * w + (cx - 1) < k + 1 then (7 : Int) else 0) =
      (if (1 ≤ cx ∧ cx < w ∧ cy < h) ∧ cy * w + (cx - 1) < k then 7 else 0) + (if cy = y ∧ cx = x + 1 ∧ x + 1 < w then 7 else 0) := by
  apply indicator_succ
  · intro hc
    rw [flat_lt_succ_iff w k x y (cx - 1) (cy) hx hk (by omega)]
    constructor
    · rintro (hlt | ⟨e1, e2⟩)
      · exact Or.inl hlt
      · exact Or.inr (by omega)
    · rintro (hlt | hd)
      · exact Or.inl hlt
      · exact Or.inr (by omega)
  · intro hd
    refine ⟨by omega, ?_⟩
    have := (flat_eq_iff w k x y (cx - 1) (cy) hx hk (by omega)).2 (by omega)
    omega

/-- The share of weight 3, from the pixel above right, after one more iteration. -/
theorem received_term3 (w h k x y cy cx : Nat) (hx : x < w) (hy : y < h) (hk : y * w + x = k) :
    (if (1 ≤ cy ∧ cy < h ∧ 1 ≤ cx ∧ cx + 1 < w) ∧ (cy - 1) * w + (cx + 1) < k + 1 then (3 : Int) else 0) =
      (if (1 ≤ cy ∧ cy < h ∧ 1 ≤ cx ∧ cx + 1 < w) ∧ (cy - 1) * w + (cx + 1) < k then 3 else 0) + (if cy = y + 1 ∧ y + 1 < h ∧ cx + 1 = x ∧ 2 ≤ x then 3 else 0) := by
  apply indicator_succ
  · intro hc
    rw [flat_lt_succ_iff w k x y (cx + 1) (cy - 1) hx hk (by omega)]
    constructor
    · rintro (hlt | ⟨e1, e2⟩)
      · exact Or.inl hlt
      · exact Or.inr (by omega)
    · rintro (hlt | hd)
      · exact Or.inl hlt
      · exact Or.inr (by omega)
  · intro hd
    refine ⟨by omega, ?_⟩
    have := (flat_eq_iff w k x y (cx + 1) (cy - 1) hx hk (by omega)).2 (by omega)
    omega

/-- The share of weight 1, from the pixel above left, after one more iteration. -/
theorem received_term1 (w h k x y cy cx : Nat) (hx : x < w) (hy : y < h) (hk : y * w + x = k) :
    (if (1 ≤ cy ∧ cy < h ∧ 1 ≤ cx ∧ cx + 1 < w) ∧ (cy - 1) * w + (cx - 1) < k + 1 then (1 : Int) else 0) =
      (if (1 ≤ cy ∧ cy < h ∧ 1 ≤ cx ∧ cx + 1 < w) ∧ (cy - 1) * w + (cx - 1) < k then 1 else 0) + (if cy = y + 1 ∧ y + 1 < h ∧ cx = x + 1 ∧ x + 2 < w then 1 else 0) := by
  apply indicator_succ
  · intro hc
    rw [flat_lt_succ_iff w k x y (cx - 1) (cy - 1) hx hk (by omega)]
    constructor
    · rintro (hlt | ⟨e1, e2⟩)
      · exact Or.inl hlt
      · exact Or.inr (by omega)
    · rintro (hlt | hd)
      · exact Or.inl hlt
      · exact Or.inr (by omega)
  · intro hd
    refine ⟨by omega, ?_⟩
    have := (flat_eq_iff w k x y (cx - 1) (cy - 1) hx hk (by omega)).2 (by omega)
    omega

/-- The share of weight 5, from the pixel above, after one more iteration. -/
theorem received_term5 (w h k x y cy cx : Nat) (hx : x < w) (hy : y < h) (hk : y * w + x = k) :
    (if (1 ≤ cy ∧ cy < h ∧ cx < w) ∧ (cy - 1) * w + cx < k + 1 then (5 : Int) else 0) =
      (if (1 ≤ cy ∧ cy < h ∧ cx < w) ∧ (cy - 1) * w + cx < k then 5 else 0) + (if cy = y + 1 ∧ y + 1 < h ∧ cx = x then 5 else 0) := by
  apply indicator_succ
  · intro hc
    rw [flat_lt_succ_iff w k x y (cx) (cy - 1) hx hk (by omega)]
    constructor
    · rintro (hlt | ⟨e1, e2⟩)
      · exact Or.inl hlt
      · exact Or.inr (by omega)
    · rintro (hlt | hd)
      · exact Or.inl hlt
      · exact Or.inr (by omega)
  · intro hd
    refine ⟨by omega, ?_⟩
    have := (flat_eq_iff w k x y (cx) (cy - 1) hx hk (by omega)).2 (by omega)
    omega

/-- The weight a cell has received after one more iteration. -/
theorem received_succ (w h k cy cx : Nat) (hk : k < h * w) :
    received w h (k + 1) cy cx = received w h k cy cx + gain w h (k % w) (k / w) cy cx := by
  obtain ⟨hx, hy⟩ := step_coords_lt w h k hk
  have hf := flat_of_step w k
  have t7 := received_term7 w h k _ _ cy cx hx hy hf
  have t3 := received_term3 w h k _ _ cy cx hx hy hf
  have t1 := received_term1 w h k _ _ cy cx hx hy hf
  have t5 := received_term5 w h k _ _ cy cx hx hy hf
  simp only [and_assoc] at t7 t3 t1 t5
  unfold received gain
  rw [t7, t3, t1, t5]
  ring

/-- No cell ever receives more than sixteen sixteenths. -/
theorem received_bounds (w h k cy cx : Nat) :
    0 ≤ received w h k cy cx ∧ received w h k cy cx ≤ 16 := by
  unfold received
  split_ifs <;> omega


/-- A share of weight 7, 3, 1 or 5 of a residual of two 16-bit values is at
most that many sixteenths of 65535. -/
theorem shareOf_scaled (k c : Int) (hk : k = 7 ∨ k = 3 ∨ k = 1 ∨ k = 5)
    (hc : -65535 ≤ c ∧ c ≤ 65535) :
    -(65535 * k) ≤ 16 * shareOf k c ∧ 16 * shareOf k c ≤ 65535 * k := by
  obtain ⟨hpos, hneg⟩ := shares_sign c hc
  unfold shareOf
  rcases le_total 0 c with h0 | h0
  · obtain ⟨⟨a1, a2⟩, ⟨b1, b2⟩, ⟨c1, c2⟩, ⟨d1, d2⟩⟩ := hpos h0
    rcases hk with rfl | rfl | rfl | rfl
    · rw [if_neg (by norm_num)]; omega
    · rw [if_neg (by norm_num)]; omega
    · rw [if_pos rfl]; omega
    · rw [if_neg (by norm_num)]; omega
  · obtain ⟨⟨a1, a2⟩, ⟨b1, b2⟩, ⟨c1, c2⟩, ⟨d1, d2⟩⟩ := hneg h0
    rcases hk with rfl | rfl | rfl | rfl
    · rw [if_neg (by norm_num)]; omega
    · rw [if_neg (by norm_num)]; omega
    · rw [if_pos rfl]; omega
    · rw [if_neg (by norm_num)]; omega

/-- Adding shares of weight `k` to an error term of weight `wt`: nothing wraps
and the weight is `wt + k`. -/
theorem add32_scaled (e : colError) (wt k dr dg db : Int) (he : e.scaledWithin wt)
    (hsum : wt + k ≤ 16)
    (hr : -(65535 * k) ≤ 16 * dr ∧ 16 * dr ≤ 65535 * k)
    (hg : -(65535 * k) ≤ 16 * dg ∧ 16 * dg ≤ 65535 * k)
    (hb : -(65535 * k) ≤ 16 * db ∧ 16 * db ≤ 65535 * k) :
    e.add32 dr dg db = ⟨e.R + dr, e.G + dg, e.B + db⟩ ∧
      (e.add32 dr dg db).scaledWithin (wt + k) := by
  obtain ⟨⟨r1, r2⟩, ⟨g1, g2⟩, ⟨b1, b2⟩⟩ := he
  have hex := add32_exact e dr dg db (by omega) (by omega) (by omega)
  refine ⟨hex, ?_⟩
  rw [hex]
  unfold colError.scaledWithin
  simp only
  omega

/-- An error term of some weight lies in `[-65535, 65535]`. -/
theorem scaledWithin_within (e : colError) (wt : Int) (he : e.scaledWithin wt)
    (hw : wt ≤ 16) : e.within 65535 := by
  obtain ⟨⟨r1, r2⟩, ⟨g1, g2⟩, ⟨b1, b2⟩⟩ := he
  unfold colError.within
  omega


/-- One more iteration of `Convert`. -/
theorem convertSteps_succ {σ : Type} (C : Context σ) (ctx : σ) (k : Nat) :
    convertSteps C ctx (k + 1) =
      (convertSteps C ctx k).bind
        (fun s => pixelStep C (C.Width ctx) (C.Height ctx) s (k % C.Width ctx) (k / C.Width ctx)) := by
  unfold convertSteps
  simp only [List.range_succ, List.foldlM_append, List.foldlM_cons, List.foldlM_nil]
  cases (List.range k).foldlM (fun s k => pixelStep C (C.Width ctx) (C.Height ctx) s
      (k % C.Width ctx) (k / C.Width ctx)) (convertInit ctx) with
  | none => rfl
  | some s =>
    simp only [Option.some_bind, Option.bind_eq_bind]
    cases pixelStep C (C.Width ctx) (C.Height ctx) s (k % C.Width ctx) (k / C.Width ctx) <;> rfl

/-- The weight a cell has received after the iteration at pixel `(x, y)`. -/
theorem received_succ_at (w h k x y cy cx : Nat) (hx : x < w) (hy : y < h)
    (hk : y * w + x = k) :
    received w h (k + 1) cy cx = received w h k cy cx + gain w h x y cy cx := by
  have t7 := received_term7 w h k x y cy cx hx hy hk
  have t3 := received_term3 w h k x y cy cx hx hy hk
  have t1 := received_term1 w h k x y cy cx hx hy hk
  have t5 := received_term5 w h k x y cy cx hx hy hk
  simp only [and_assoc] at t7 t3 t1 t5
  unfold received gain
  rw [t7, t3, t1, t5]
  ring

/-- One iteration of `Convert` at pixel `(x, y)`, numbered `k`, when palettes
and samples are 16-bit and the error grid obeys the weights: the query and the
residual do not wrap, every cell that receives a share is increased by exactly
that share, and the grid obeys the weights of the next iteration. -/
theorem pixelStep_scaled {σ : Type} (C : Context σ) (w h k x y : Nat) (hx : x < w) (hy : y < h)
    (hk : y * w + x = k) (s : ConvertState σ)
    (hne : C.PaletteAt s.ctx x y ≠ []) (hpal : ∀ v ∈ C.PaletteAt s.ctx x y, v.valid)
    (hsrc : (C.At s.ctx x y).valid)
    (hgrid : ∀ cy cx, (s.gerror cy cx).scaledWithin (received w h k cy cx)) :
    ∃ target s', target ∈ C.PaletteAt s.ctx x y ∧
      closest ((C.At s.ctx x y).r + (s.gerror y x).R) ((C.At s.ctx x y).g + (s.gerror y x).G)
        ((C.At s.ctx x y).b + (s.gerror y x).B) (C.PaletteAt s.ctx x y) = some target ∧
      pixelStep C w h s x y = some s' ∧
      s'.ctx = C.Set s.ctx x y target ∧ s'.calls = s.calls ++ [(x, y, target)] ∧
      (∀ cy cx, s'.gerror cy cx =
        if gain w h x y cy cx = 0 then s.gerror cy cx
        else (s.gerror cy cx).plusShareOf (gain w h x y cy cx)
          (residual (C.At s.ctx x y) target)) ∧
      (∀ cy cx, (s'.gerror cy cx).scaledWithin (received w h (k + 1) cy cx)) := by
  obtain ⟨target, s', hmem, hcl, hs', hctx, hcalls, hg⟩ := pixelStep_some C w h s x y hne
  obtain ⟨sr, sg, sb, _⟩ := hsrc
  obtain ⟨tr, tg, tb, _⟩ := hpal target hmem
  obtain ⟨er, eg, eb⟩ := scaledWithin_within _ _ (hgrid y x) (received_bounds w h k y x).2
  have q1 := sample_plus_error (C.At s.ctx x y).r (s.gerror y x).R sr (by omega)
  have q2 := sample_plus_error (C.At s.ctx x y).g (s.gerror y x).G sg (by omega)
  have q3 := sample_plus_error (C.At s.ctx x y).b (s.gerror y x).B sb (by omega)
  simp only [q1, q2, q3] at hcl
  clear q1 q2 q3
  have r1 := sample_minus_target (C.At s.ctx x y).r target.r sr tr
  have r2 := sample_minus_target (C.At s.ctx x y).g target.g sg tg
  have r3 := sample_minus_target (C.At s.ctx x y).b target.b sb tb
  simp only [r1, r2, r3] at hg
  clear r1 r2 r3
  have br : -65535 ≤ ((C.At s.ctx x y).r : Int) - target.r ∧
      ((C.At s.ctx x y).r : Int) - target.r ≤ 65535 := by omega
  have bg : -65535 ≤ ((C.At s.ctx x y).g : Int) - target.g ∧
      ((C.At s.ctx x y).g : Int) - target.g ≤ 65535 := by omega
  have bb : -65535 ≤ ((C.At s.ctx x y).b : Int) - target.b ∧
      ((C.At s.ctx x y).b : Int) - target.b ≤ 65535 := by omega
  have cell : ∀ cy cx,
      s'.gerror cy cx =
        (if gain w h x y cy cx = 0 then s.gerror cy cx
        else (s.gerror cy cx).plusShareOf (gain w h x y cy cx)
          (residual (C.At s.ctx x y) target)) ∧
      (s'.gerror cy cx).scaledWithin (received w h (k + 1) cy cx) := by
    intro cy cx
    have hrec := received_succ_at w h k x y cy cx hx hy hk
    have hb1 := received_bounds w h (k + 1) cy cx
    rw [hg, diffuse_gain]
    by_cases h0 : gain w h x y cy cx = 0
    · rw [if_pos h0, if_pos h0, hrec, h0, add_zero]
      exact ⟨rfl, hgrid cy cx⟩
    · rw [if_neg h0, if_neg h0]
      have hkk : gain w h x y cy cx = 7 ∨ gain w h x y cy cx = 3 ∨ gain w h x y cy cx = 1 ∨
          gain w h x y cy cx = 5 := by
        rcases gain_cases w h x y cy cx with ⟨e, _⟩ | ⟨e, _⟩ | ⟨e, _⟩ | ⟨e, _⟩ | ⟨e, _⟩
        · exact Or.inl e
        · exact Or.inr (Or.inl e)
        · exact Or.inr (Or.inr (Or.inl e))
        · exact Or.inr (Or.inr (Or.inr e))
        · exact absurd e h0
      obtain ⟨hex, hsc⟩ := add32_scaled (s.gerror cy cx) (received w h k cy cx)
        (gain w h x y cy cx) _ _ _ (hgrid cy cx) (by rw [← hrec]; exact hb1.2)
        (shareOf_scaled _ _ hkk br) (shareOf_scaled _ _ hkk bg) (shareOf_scaled _ _ hkk bb)
      rw [hrec]
      exact ⟨hex, hsc⟩
  exact ⟨target, s', hmem, hcl, hs', hctx, hcalls, fun cy cx => (cell cy cx).1,
    fun cy cx => (cell cy cx).2⟩


/-- The pixel of iteration `k`. -/
theorem step_pixel (w h k : Nat) (hk : k < h * w) :
    k % w < w ∧ k / w < h ∧ (k / w) * w + k % w = k :=
  ⟨(step_coords_lt w h k hk).1, (step_coords_lt w h k hk).2, flat_of_step w k⟩

/-- Induction over the iterations of `Convert` on a well-formed context: every
iteration returns, the error grid obeys the weights throughout, and a property
that holds at the start and is carried by every such iteration holds after any
number of them. -/
theorem convertSteps_induct16 {σ : Type} (C : Context σ) (P : σ → Prop) (ctx : σ)
    (hwf : WellFormed16 C P ctx) (Inv : Nat → ConvertState σ → Prop)
    (h0 : Inv 0 (convertInit ctx))
    (hstep : ∀ k s target s', k < C.Height ctx * C.Width ctx →
      convertSteps C ctx k = some s → P s.ctx → Inv k s →
      (∀ cy cx, (s.gerror cy cx).scaledWithin
        (received (C.Width ctx) (C.Height ctx) k cy cx)) →
      target ∈ C.PaletteAt s.ctx (k % C.Width ctx) (k / C.Width ctx) →
      closest
        ((C.At s.ctx (k % C.Width ctx) (k / C.Width ctx)).r +
          (s.gerror (k / C.Width ctx) (k % C.Width ctx)).R)
        ((C.At s.ctx (k % C.Width ctx) (k / C.Width ctx)).g +
          (s.gerror (k / C.Width ctx) (k % C.Width ctx)).G)
        ((C.At s.ctx (k % C.Width ctx) (k / C.Width ctx)).b +
          (s.gerror (k / C.Width ctx) (k % C.Width ctx)).B)
        (C.PaletteAt s.ctx (k % C.Width ctx) (k / C.Width ctx)) = some target →
      convertSteps C ctx (k + 1) = some s' →
      s'.ctx = C.Set s.ctx (k % C.Width ctx) (k / C.Width ctx) target →
      s'.calls = s.calls ++ [(k % C.Width ctx, k / C.Width ctx, target)] →
      (∀ cy cx, s'.gerror cy cx =
        if gain (C.Width ctx) (C.Height ctx) (k % C.Width ctx) (k / C.Width ctx) cy cx = 0 then
          s.gerror cy cx
        else (s.gerror cy cx).plusShareOf
          (gain (C.Width ctx) (C.Height ctx) (k % C.Width ctx) (k / C.Width ctx) cy cx)
          (residual (C.At s.ctx (k % C.Width ctx) (k / C.Width ctx)) target)) →
      Inv (k + 1) s') :
    ∀ n, n ≤ C.Height ctx * C.Width ctx → ∃ s, convertSteps C ctx n = some s ∧ P s.ctx ∧
      (∀ cy cx, (s.gerror cy cx).scaledWithin
        (received (C.Width ctx) (C.Height ctx) n cy cx)) ∧ Inv n s := by
  obtain ⟨hP0, hPset, hok⟩ := hwf
  intro n
  induction n with
  | zero =>
    intro _
    refine ⟨convertInit ctx, by simp [convertSteps], hP0, ?_, h0⟩
    intro cy cx
    have hb := received_bounds (C.Width ctx) (C.Height ctx) 0 cy cx
    simp only [convertInit, colError.scaledWithin]
    omega
  | succ k ih =>
    intro hk
    obtain ⟨s, hs, hP, hsc, hinv⟩ := ih (by omega)
    obtain ⟨hx, hy, hflat⟩ := step_pixel (C.Width ctx) (C.Height ctx) k (by omega)
    obtain ⟨hne, hpal, hsrc⟩ := hok s.ctx _ _ hP hx hy
    obtain ⟨target, s', hmem, hcl, hs', hctx, hcalls, hcell, hsc'⟩ :=
      pixelStep_scaled C (C.Width ctx) (C.Height ctx) k _ _ hx hy hflat s hne hpal hsrc hsc
    have hnext : convertSteps C ctx (k + 1) = some s' := by
      rw [convertSteps_succ, hs]; exact hs'
    refine ⟨s', hnext, ?_, hsc', ?_⟩
    · rw [hctx]; exact hPset _ _ _ _ hP
    · exact hstep k s target s' (by omega) hs hP hinv hsc hmem hcl hnext hctx hcalls hcell


/-- The context `ToPalette` builds is well-formed when the palette is non-empty
and the palette and the image are 16-bit. -/
theorem imageCtx_wellFormed (img : Image) (dest : RGBAImage) (p : Palette) (hp : p ≠ [])
    (hv : ∀ v ∈ p, v.valid) (hs : ∀ x y, (img.At x y).valid) :
    WellFormed16 imageCtxOps (fun s => s.src = img ∧ s.palette = p) ⟨img, dest, p⟩ := by
  refine ⟨⟨rfl, rfl⟩, fun s x y c hP => hP, ?_⟩
  rintro s x y ⟨h1, h2⟩ _ _
  refine ⟨?_, ?_, ?_⟩
  · show s.palette ≠ []
    rw [h2]; exact hp
  · show ∀ v ∈ s.palette, v.valid
    rw [h2]; exact hv
  · show (s.src.At _ _).valid
    rw [h1]; exact hs _ _

/-- The error grid of `Convert` on a well-formed context: after any number of
iterations every error term lies in `[-65535, 65535]`. -/
theorem convertSteps_within {σ : Type} (C : Context σ) (P : σ → Prop) (ctx : σ)
    (hwf : WellFormed16 C P ctx) (n : Nat) (hn : n ≤ C.Height ctx * C.Width ctx) :
    ∃ s, convertSteps C ctx n = some s ∧ P s.ctx ∧
      (∀ cy cx, (s.gerror cy cx).scaledWithin
        (received (C.Width ctx) (C.Height ctx) n cy cx)) ∧
      ∀ cy cx, (s.gerror cy cx).within 65535 := by
  obtain ⟨s, hs, hP, hsc, _⟩ := convertSteps_induct16 C P ctx hwf (fun _ _ => True) trivial
    (fun _ _ _ _ _ _ _ _ _ _ _ _ _ _ _ => trivial) n hn
  exact ⟨s, hs, hP, hsc, fun cy cx =>
    scaledWithin_within _ _ (hsc cy cx) (received_bounds _ _ n cy cx).2⟩

/-! ## The claim about the range of the error terms -/

/-- C20: for every context whose palettes are non-empty and whose source samples
and palette colours have channels in `0..65535`, `Convert` is its `h * w`
iterations, all of which return; after any number of them every channel of every
cell of the error grid lies in `[-65535, 65535]`; and in every iteration the
value sample + error passed to `closest` lies in `[-65535, 131070]`, the
residual lies in `[-65535, 65535]`, its products by 7, 3 and 5 fit `int32`, and
every cell that receives a share becomes exactly the old value plus the share
(which lies in `[-65535, 65535]` again), so none of the `int32` additions,
subtractions and multiplications of `Convert` overflows. -/
theorem C20_error_terms_bounded {σ : Type} (C : Context σ) (P : σ → Prop) (ctx : σ)
    (hwf : WellFormed16 C P ctx) :
    Convert C ctx = convertSteps C ctx (C.Height ctx * C.Width ctx) ∧
    (∀ n, n ≤ C.Height ctx * C.Width ctx →
      ∃ s, convertSteps C ctx n = some s ∧ ∀ cy cx, (s.gerror cy cx).within 65535) ∧
    (∀ n, n < C.Height ctx * C.Width ctx →
      ∃ s target s', convertSteps C ctx n = some s ∧ convertSteps C ctx (n + 1) = some s' ∧
        ((-65535 ≤ ((C.At s.ctx (n % C.Width ctx) (n / C.Width ctx)).r : Int) +
              (s.gerror (n / C.Width ctx) (n % C.Width ctx)).R ∧
            ((C.At s.ctx (n % C.Width ctx) (n / C.Width ctx)).r : Int) +
              (s.gerror (n / C.Width ctx) (n % C.Width ctx)).R ≤ 131070) ∧
          (-65535 ≤ ((C.At s.ctx (n % C.Width ctx) (n / C.Width ctx)).g : Int) +
              (s.gerror (n / C.Width ctx) (n % C.Width ctx)).G ∧
            ((C.At s.ctx (n % C.Width ctx) (n / C.Width ctx)).g : Int) +
              (s.gerror (n / C.Width ctx) (n % C.Width ctx)).G ≤ 131070) ∧
          (-65535 ≤ ((C.At s.ctx (n % C.Width ctx) (n / C.Width ctx)).b : Int) +
              (s.gerror (n / C.Width ctx) (n % C.Width ctx)).B ∧
            ((C.At s.ctx (n % C.Width ctx) (n / C.Width ctx)).b : Int) +
              (s.gerror (n / C.Width ctx) (n % C.Width ctx)).B ≤ 131070)) ∧
        closest
          ((C.At s.ctx (n % C.Width ctx) (n / C.Width ctx)).r +
            (s.gerror (n / C.Width ctx) (n % C.Width ctx)).R)
          ((C.At s.ctx (n % C.Width ctx) (n / C.Width ctx)).g +
            (s.gerror (n / C.Width ctx) (n % C.Width ctx)).G)
          ((C.At s.ctx (n % C.Width ctx) (n / C.Width ctx)).b +
            (s.gerror (n / C.Width ctx) (n % C.Width ctx)).B)
          (C.PaletteAt s.ctx (n % C.Width ctx) (n / C.Width ctx)) = some target ∧
        (residual (C.At s.ctx (n % C.Width ctx) (n / C.Width ctx)) target).within 65535 ∧
        (∀ k : Int, k = 7 ∨ k = 3 ∨ k = 5 →
          fitsInt32 ((residual (C.At s.ctx (n % C.Width ctx) (n / C.Width ctx)) target).R * k) ∧
          fitsInt32 ((residual (C.At s.ctx (n % C.Width ctx) (n / C.Width ctx)) target).G * k) ∧
          fitsInt32 ((residual (C.At s.ctx (n % C.Width ctx) (n / C.Width ctx)) target).B * k)) ∧
        (∀ cy cx, s'.gerror cy cx =
          if gain (C.Width ctx) (C.Height ctx) (n % C.Width ctx) (n / C.Width ctx) cy cx = 0 then
            s.gerror cy cx
          else (s.gerror cy cx).plusShareOf
            (gain (C.Width ctx) (C.Height ctx) (n % C.Width ctx) (n / C.Width ctx) cy cx)
            (residual (C.At s.ctx (n % C.Width ctx) (n / C.Width ctx)) target)) ∧
        (∀ cy cx, (s'.gerror cy cx).within 65535)) := by
  refine ⟨Convert_eq_steps C ctx, ?_, ?_⟩
  · intro n hn
    obtain ⟨s, hs, _, _, hw⟩ := convertSteps_within C P ctx hwf n hn
    exact ⟨s, hs, hw⟩
  · intro n hn
    obtain ⟨s, hs, hP, hsc, hw⟩ := convertSteps_within C P ctx hwf n (by omega)
    obtain ⟨s1, hs1, _, _, hw1⟩ := convertSteps_within C P ctx hwf (n + 1) (by omega)
    obtain ⟨hx, hy, hflat⟩ := step_pixel (C.Width ctx) (C.Height ctx) n hn
    obtain ⟨hne, hpal, hsrc⟩ := hwf.2.2 s.ctx _ _ hP hx hy
    obtain ⟨target, s', hmem, hcl, hs', _, _, hcell, _⟩ :=
      pixelStep_scaled C (C.Width ctx) (C.Height ctx) n _ _ hx hy hflat s hne hpal hsrc hsc
    have hnext : convertSteps C ctx (n + 1) = some s' := by
      rw [convertSteps_succ, hs]; exact hs'
    have hsame : s1 = s' := by
      rw [hs1] at hnext; exact Option.some.inj hnext
    subst hsame
    obtain ⟨sr, sg, sb, _⟩ := hsrc
    obtain ⟨tr, tg, tb, _⟩ := hpal target hmem
    obtain ⟨⟨r1, r2⟩, ⟨g1, g2⟩, ⟨b1, b2⟩⟩ := hw (n / C.Width ctx) (n % C.Width ctx)
    refine ⟨s, target, s1, hs, hs1, ⟨⟨by omega, by omega⟩, ⟨by omega, by omega⟩,
      ⟨by omega, by omega⟩⟩, hcl, ?_, ?_, hcell, hw1⟩
    · simp only [residual, colError.within]
      omega
    · intro k hk
      simp only [residual, fitsInt32]
      rcases hk with rfl | rfl | rfl <;> omega

/-- C20 at a concrete input: the context of `ToPalette` for a 5x2 image and the
palette black, white. -/
theorem C20_error_terms_bounded_witness :
    WellFormed16 imageCtxOps stripInvariant stripState.ctx ∧
    Convert imageCtxOps stripState.ctx =
      convertSteps imageCtxOps stripState.ctx
        (imageCtxOps.Height stripState.ctx * imageCtxOps.Width stripState.ctx) ∧
    (∀ n, n ≤ imageCtxOps.Height stripState.ctx * imageCtxOps.Width stripState.ctx →
      ∃ s, convertSteps imageCtxOps stripState.ctx n = some s ∧
        ∀ cy cx, (s.gerror cy cx).within 65535) :=
  have hwf : WellFormed16 imageCtxOps stripInvariant stripState.ctx :=
    imageCtx_wellFormed stripImage (NewRGBA 0 0 5 2) samplePalette (by decide) (by decide)
      (fun _ _ => (show (Color.mk 30000 20000 10000 65535).valid from by decide))
  ⟨hwf, (C20_error_terms_bounded imageCtxOps stripInvariant stripState.ctx hwf).1,
    (C20_error_terms_bounded imageCtxOps stripInvariant stripState.ctx hwf).2.1⟩


/-! ## The borders of the error grid -/

/-- The share of weight 3 goes to `(x-1, y+1)` exactly when `y + 1 < h` and
`x - 1 > 0`. -/
theorem diffuse_below_left (g : ErrGrid) (w h x y : Nat) (cr cg cb : Int) (hx : 1 ≤ x) :
    diffuse g w h x y cr cg cb (y + 1) (x - 1) =
      if y + 1 < h ∧ (x : Int) - 1 > 0 then
        (g (y + 1) (x - 1)).add32 (share cr 3) (share cg 3) (share cb 3)
      else g (y + 1) (x - 1) := by
  rw [diffuse_apply, if_neg (by omega)]
  by_cases hc : y + 1 < h ∧ (x : Int) - 1 > 0
  · rw [if_pos hc, if_pos ⟨rfl, hc.1, by omega, by omega⟩]
  · rw [if_neg hc, if_neg (by omega), if_neg (by omega), if_neg (by omega)]

/-- The share of weight 1 goes to `(x+1, y+1)` exactly when `y + 1 < h` and
`x + 2 < w`. -/
theorem diffuse_below_right (g : ErrGrid) (w h x y : Nat) (cr cg cb : Int) :
    diffuse g w h x y cr cg cb (y + 1) (x + 1) =
      if y + 1 < h ∧ x + 2 < w then
        (g (y + 1) (x + 1)).add32 (Int.tdiv cr 16) (Int.tdiv cg 16) (Int.tdiv cb 16)
      else g (y + 1) (x + 1) := by
  rw [diffuse_apply, if_neg (by omega), if_neg (by omega)]
  by_cases hc : y + 1 < h ∧ x + 2 < w
  · rw [if_pos hc, if_pos ⟨rfl, hc.1, rfl, hc.2⟩]
  · rw [if_neg hc, if_neg (by omega), if_neg (by omega)]

/-- Column 0 receives only the share of weight 5, from the pixel above. -/
theorem gain_column_zero (w h x y cy : Nat) :
    gain w h x y cy 0 = if cy = y + 1 ∧ y + 1 < h ∧ x = 0 then 5 else 0 := by
  rcases gain_cases w h x y cy 0 with ⟨e, c⟩ | ⟨e, _, c⟩ | ⟨e, _, _, c⟩ | ⟨e, _, _, _, c⟩ |
    ⟨e, _, _, _, c⟩
  · exact absurd c.2.1 (by omega)
  · exact absurd c (by omega)
  · exact absurd c.2.2.1 (by omega)
  · rw [e, if_pos ⟨c.1, c.2.1, c.2.2.symm⟩]
  · rw [e, if_neg (fun hc => c ⟨hc.1, hc.2.1, hc.2.2.symm⟩)]

/-- The last column never receives the share of weight 1. -/
theorem gain_last_column (w h x y cy : Nat) : gain w h x y cy (w - 1) ≠ 1 := by
  rcases gain_cases w h x y cy (w - 1) with ⟨e, _⟩ | ⟨e, _⟩ | ⟨e, _, _, c⟩ | ⟨e, _⟩ | ⟨e, _⟩
  · rw [e]; norm_num
  · rw [e]; norm_num
  · exact absurd c (by omega)
  · rw [e]; norm_num
  · rw [e]; norm_num

/-- The row of a pixel from its flat number. -/
theorem flat_lt_row (w k a b y : Nat) (hb : b < w) (hf : a * w + b = k) :
    k < y * w ↔ a < y := by
  constructor
  · intro h
    by_contra hn
    have := Nat.mul_le_mul_right w (Nat.le_of_not_lt hn)
    omega
  · intro h
    have := Nat.mul_le_mul_right w (Nat.succ_le_of_lt h)
    rw [Nat.succ_mul] at this
    omega

/-- The error at cell `(0, y+1)` when that pixel is reached: nothing before row
`y`, and after pixel `(0, y)` the share of weight 5 of its residual. -/
theorem column_zero_error {σ : Type} (C : Context σ) (P : σ → Prop) (ctx : σ)
    (hwf : WellFormed16 C P ctx) (y : Nat) (hy : y + 1 < C.Height ctx)
    (hw : 0 < C.Width ctx) :
    ∃ s0 target s1, convertSteps C ctx (y * C.Width ctx) = some s0 ∧
      closest ((C.At s0.ctx 0 y).r + (s0.gerror y 0).R) ((C.At s0.ctx 0 y).g + (s0.gerror y 0).G)
        ((C.At s0.ctx 0 y).b + (s0.gerror y 0).B) (C.PaletteAt s0.ctx 0 y) = some target ∧
      convertSteps C ctx ((y + 1) * C.Width ctx) = some s1 ∧
      s1.gerror (y + 1) 0 =
        ⟨Int.tdiv (5 * (residual (C.At s0.ctx 0 y) target).R) 16,
          Int.tdiv (5 * (residual (C.At s0.ctx 0 y) target).G) 16,
          Int.tdiv (5 * (residual (C.At s0.ctx 0 y) target).B) 16⟩ := by
  have hle : (y + 1) * C.Width ctx ≤ C.Height ctx * C.Width ctx :=
    Nat.mul_le_mul_right _ (by omega)
  have hsucc : (y + 1) * C.Width ctx = y * C.Width ctx + C.Width ctx := Nat.succ_mul _ _
  obtain ⟨s1, hs1, _, _, hinv⟩ := convertSteps_induct16 C P ctx hwf
    (fun k s => (k ≤ y * C.Width ctx → s.gerror (y + 1) 0 = ⟨0, 0, 0⟩) ∧
      (y * C.Width ctx < k → k ≤ (y + 1) * C.Width ctx →
        ∃ s0 target, convertSteps C ctx (y * C.Width ctx) = some s0 ∧
          closest ((C.At s0.ctx 0 y).r + (s0.gerror y 0).R)
            ((C.At s0.ctx 0 y).g + (s0.gerror y 0).G)
            ((C.At s0.ctx 0 y).b + (s0.gerror y 0).B) (C.PaletteAt s0.ctx 0 y) = some target ∧
          s.gerror (y + 1) 0 =
            ⟨Int.tdiv (5 * (residual (C.At s0.ctx 0 y) target).R) 16,
              Int.tdiv (5 * (residual (C.At s0.ctx 0 y) target).G) 16,
              Int.tdiv (5 * (residual (C.At s0.ctx 0 y) target).B) 16⟩))
    ⟨fun _ => rfl, fun h => absurd h (by omega)⟩
    (by
      intro k s target s' hk hs hP ⟨hz, hv⟩ _ hmem hcl _ _ _ hcell
      obtain ⟨hx, hyk, hflat⟩ := step_pixel (C.Width ctx) (C.Height ctx) k hk
      have hrow := flat_lt_row (C.Width ctx) k _ _ y hx hflat
      have hrow1 := flat_lt_row (C.Width ctx) k _ _ (y + 1) hx hflat
      have hzero := flat_eq_iff (C.Width ctx) k _ _ 0 y hx hflat hw
      have hc := hcell (y + 1) 0
      rw [gain_column_zero] at hc
      generalize k / C.Width ctx = a at *
      generalize k % C.Width ctx = b at *
      constructor
      · intro hk1
        have ha : a < y := hrow.1 (by omega)
        have hg0 : (if y + 1 = a + 1 ∧ a + 1 < C.Height ctx ∧ b = 0 then (5 : Int) else 0) = 0 :=
          if_neg (by omega)
        rw [hg0, if_pos rfl] at hc
        rw [hc]
        exact hz (by omega)
      · intro hk1 hk2
        by_cases hk0 : k = y * C.Width ctx
        · obtain ⟨ha, hb⟩ := hzero.1 (by omega)
          subst ha hb
          have e5 : (if y + 1 = y + 1 ∧ y + 1 < C.Height ctx ∧ (0 : Nat) = 0 then (5 : Int) else 0)
              = 5 := if_pos ⟨rfl, hy, rfl⟩
          rw [e5, if_neg (by norm_num), hz (by omega)] at hc
          obtain ⟨_, hpal, hsrc⟩ := hwf.2.2 s.ctx 0 y hP hx hyk
          obtain ⟨sr, sg, sb, _⟩ := hsrc
          obtain ⟨tr, tg, tb, _⟩ := hpal target hmem
          refine ⟨s, target, by rw [← hk0]; exact hs, hcl, ?_⟩
          have h5 : ∀ c : Int, shareOf 5 c = share c 5 := fun c => by
            unfold shareOf; rw [if_neg (by norm_num)]
          rw [hc]
          simp only [colError.plusShareOf, residual, zero_add, h5]
          rw [(share_exact _ 5 (by omega) (by simp)).1, (share_exact _ 5 (by omega) (by simp)).1,
            (share_exact _ 5 (by omega) (by simp)).1]
        · have hlt : ¬ k < y * C.Width ctx := by omega
          have ha : a = y := by
            have h1 : ¬ a < y := fun h => hlt (hrow.2 h)
            have h2 : a < y + 1 := hrow1.1 (by omega)
            omega
          have hb : b ≠ 0 := by
            intro hb0
            apply hk0
            subst ha hb0
            omega
          have hg0 : (if y + 1 = a + 1 ∧ a + 1 < C.Height ctx ∧ b = 0 then (5 : Int) else 0)
              = 0 := if_neg (by omega)
          rw [hg0, if_pos rfl] at hc
          rw [hc]
          exact hv (by omega) (by omega))
    ((y + 1) * C.Width ctx) hle
  obtain ⟨s0, target, hs0, hcl, hcellv⟩ := hinv.2 (by omega) le_rfl
  exact ⟨s0, target, s1, hs0, hcl, hs1, hcellv⟩

/-- Column 0 of the error grid changes only by the share of weight 5 of the
pixel above. -/
theorem diffuse_column_zero (g : ErrGrid) (w h x y : Nat) (cr cg cb : Int) (cy : Nat) :
    diffuse g w h x y cr cg cb cy 0 =
      if cy = y + 1 ∧ y + 1 < h ∧ x = 0 then
        (g cy 0).add32 (share cr 5) (share cg 5) (share cb 5)
      else g cy 0 := by
  rw [diffuse_gain, gain_column_zero]
  by_cases hc : cy = y + 1 ∧ y + 1 < h ∧ x = 0
  · rw [if_pos hc, if_neg (by norm_num), if_pos hc]
    have h5 : ∀ c : Int, shareOf 5 c = share c 5 := fun c => by
      unfold shareOf; rw [if_neg (by norm_num)]
    rw [h5, h5, h5]
  · rw [if_neg hc, if_pos rfl, if_neg hc]

/-! ## The claim about the borders of the error grid -/

/-- C18: in `Convert` on a grid of width `w` and height `h`, the 3/16 share of
pixel `(x, y)` is added to cell `(x-1, y+1)` exactly when `y + 1 < h` and
`x - 1 > 0`, so column 0 only ever receives the 5/16 share of the pixel above;
the 1/16 share is added to cell `(x+1, y+1)` exactly when `y + 1 < h` and
`x + 2 < w`, so the last column never receives it; consequently, on a context
with non-empty palettes and 16-bit samples and colours, for every `y` with
`y + 1 < h` the error accumulated at cell `(0, y+1)` when that pixel is reached
(after `(y+1) * w` iterations) is exactly `trunc(5*res/16)` per channel, where
`res` is the residual of pixel `(0, y)`. -/
theorem C18_border_shares {σ : Type} (C : Context σ) (P : σ → Prop) (ctx : σ)
    (hwf : WellFormed16 C P ctx) (y : Nat) (hy : y + 1 < C.Height ctx)
    (hw : 0 < C.Width ctx) :
    (∀ (g : ErrGrid) (w h x y : Nat) (cr cg cb : Int), 1 ≤ x →
      diffuse g w h x y cr cg cb (y + 1) (x - 1) =
        if y + 1 < h ∧ (x : Int) - 1 > 0 then
          (g (y + 1) (x - 1)).add32 (share cr 3) (share cg 3) (share cb 3)
        else g (y + 1) (x - 1)) ∧
    (∀ (g : ErrGrid) (w h x y : Nat) (cr cg cb : Int) (cy : Nat),
      diffuse g w h x y cr cg cb cy 0 =
        if cy = y + 1 ∧ y + 1 < h ∧ x = 0 then
          (g cy 0).add32 (share cr 5) (share cg 5) (share cb 5)
        else g cy 0) ∧
    (∀ (g : ErrGrid) (w h x y : Nat) (cr cg cb : Int),
      diffuse g w h x y cr cg cb (y + 1) (x + 1) =
        if y + 1 < h ∧ x + 2 < w then
          (g (y + 1) (x + 1)).add32 (Int.tdiv cr 16) (Int.tdiv cg 16) (Int.tdiv cb 16)
        else g (y + 1) (x + 1)) ∧
    (∀ (g : ErrGrid) (w h x y : Nat) (cr cg cb : Int) (cy : Nat),
      gain w h x y cy (w - 1) ≠ 1 ∧
      diffuse g w h x y cr cg cb cy (w - 1) =
        if gain w h x y cy (w - 1) = 0 then g cy (w - 1)
        else (g cy (w - 1)).add32 (shareOf (gain w h x y cy (w - 1)) cr)
          (shareOf (gain w h x y cy (w - 1)) cg) (shareOf (gain w h x y cy (w - 1)) cb)) ∧
    ∃ s0 target s1, convertSteps C ctx (y * C.Width ctx) = some s0 ∧
      closest ((C.At s0.ctx 0 y).r + (s0.gerror y 0).R) ((C.At s0.ctx 0 y).g + (s0.gerror y 0).G)
        ((C.At s0.ctx 0 y).b + (s0.gerror y 0).B) (C.PaletteAt s0.ctx 0 y) = some target ∧
      convertSteps C ctx ((y + 1) * C.Width ctx) = some s1 ∧
      s1.gerror (y + 1) 0 =
        ⟨Int.tdiv (5 * (residual (C.At s0.ctx 0 y) target).R) 16,
          Int.tdiv (5 * (residual (C.At s0.ctx 0 y) target).G) 16,
          Int.tdiv (5 * (residual (C.At s0.ctx 0 y) target).B) 16⟩ :=
  ⟨fun g w h x y cr cg cb hx => diffuse_below_left g w h x y cr cg cb hx,
    fun g w h x y cr cg cb cy => diffuse_column_zero g w h x y cr cg cb cy,
    fun g w h x y cr cg cb => diffuse_below_right g w h x y cr cg cb,
    fun g w h x y cr cg cb cy => ⟨gain_last_column w h x y cy, diffuse_gain g w h x y cr cg cb cy _⟩,
    column_zero_error C P ctx hwf y hy hw⟩

/-- C18 at a concrete input: row 0 of a 5x2 image with the palette black,
white. -/
theorem C18_border_shares_witness :
    WellFormed16 imageCtxOps stripInvariant stripState.ctx ∧
    0 + 1 < imageCtxOps.Height stripState.ctx ∧ 0 < imageCtxOps.Width stripState.ctx ∧
    ∃ s0 target s1,
      convertSteps imageCtxOps stripState.ctx (0 * imageCtxOps.Width stripState.ctx) = some s0 ∧
      closest ((imageCtxOps.At s0.ctx 0 0).r + (s0.gerror 0 0).R)
        ((imageCtxOps.At s0.ctx 0 0).g + (s0.gerror 0 0).G)
        ((imageCtxOps.At s0.ctx 0 0).b + (s0.gerror 0 0).B)
        (imageCtxOps.PaletteAt s0.ctx 0 0) = some target ∧
      convertSteps imageCtxOps stripState.ctx ((0 + 1) * imageCtxOps.Width stripState.ctx)
        = some s1 ∧
      s1.gerror (0 + 1) 0 =
        ⟨Int.tdiv (5 * (residual (imageCtxOps.At s0.ctx 0 0) target).R) 16,
          Int.tdiv (5 * (residual (imageCtxOps.At s0.ctx 0 0) target).G) 16,
          Int.tdiv (5 * (residual (imageCtxOps.At s0.ctx 0 0) target).B) 16⟩ :=
  have hwf : WellFormed16 imageCtxOps stripInvariant stripState.ctx :=
    imageCtx_wellFormed stripImage (NewRGBA 0 0 5 2) samplePalette (by decide) (by decide)
      (fun _ _ => (show (Color.mk 30000 20000 10000 65535).valid from by decide))
  ⟨hwf, by decide, by decide,
    (C18_border_shares imageCtxOps stripInvariant stripState.ctx hwf 0 (by decide)
      (by decide)).2.2.2.2⟩


/-! ## The three most common colours of a tile -/

theorem countOf_nonneg (u : List Nat) (i : Nat) : 0 ≤ countOf u i := by
  unfold countOf; omega

/-- The invariant of lines 142-153 with the fields of the state spelled out. -/
theorem top3Inv_iff (u : List Nat) (n : Nat) (c1 c2 c3 : Int) (i1 i2 i3 : Nat) :
    Top3Inv u n ⟨c1, c2, c3, i1, i2, i3⟩ ↔
      (c1 ≤ c2 ∧ c2 ≤ c3) ∧
      ((c1 = -1 ∨ (i1 < n ∧ c1 = countOf u i1)) ∧ (c2 = -1 ∨ (i2 < n ∧ c2 = countOf u i2)) ∧
        (c3 = -1 ∨ (i3 < n ∧ c3 = countOf u i3))) ∧
      ((0 ≤ c1 → c1 = c2 → i2 < i1) ∧ (0 ≤ c2 → c2 = c3 → i3 < i2)) ∧
      ((0 ≤ c1 → i1 ≠ i2 ∧ i1 ≠ i3) ∧ (0 ≤ c2 → i2 ≠ i3)) ∧
      ((1 ≤ n → 0 ≤ c3) ∧ (2 ≤ n → 0 ≤ c2) ∧ (3 ≤ n → 0 ≤ c1)) ∧
      ∀ j, j < n → ¬ ((0 ≤ c1 ∧ j = i1) ∨ (0 ≤ c2 ∧ j = i2) ∨ (0 ≤ c3 ∧ j = i3)) →
        countOf u j ≤ c1 ∧ (countOf u j = c1 → i1 < j) ∧ (countOf u j = c2 → i2 < j) ∧
          (countOf u j = c3 → i3 < j) :=
  Iff.rfl


/-- Inserting the scanned index `n` with count `c` above the lowest slot
`(c1, i1)`, which is dropped: the invariant for `n + 1`, whatever position the
new entry takes among the three slots `(b1, k1)`, `(b2, k2)`, `(b3, k3)`. -/
theorem top3_insert (u : List Nat) (n : Nat) (c1 c2 c3 : Int) (i1 i2 i3 : Nat)
    (b1 b2 b3 : Int) (k1 k2 k3 : Nat) (c : Int) (hcv : c = countOf u n)
    (hinv : Top3Inv u n ⟨c1, c2, c3, i1, i2, i3⟩) (hgt : c > c1)
    (hslots :
      (b1 = c2 ∧ k1 = i2 ∧ b2 = c3 ∧ k2 = i3 ∧ b3 = c ∧ k3 = n ∧ c > c3) ∨
      (b1 = c2 ∧ k1 = i2 ∧ b2 = c ∧ k2 = n ∧ b3 = c3 ∧ k3 = i3 ∧ c > c2 ∧ c ≤ c3) ∨
      (b1 = c ∧ k1 = n ∧ b2 = c2 ∧ k2 = i2 ∧ b3 = c3 ∧ k3 = i3 ∧ c ≤ c2)) :
    Top3Inv u (n + 1) ⟨b1, b2, b3, k1, k2, k3⟩ := by
  rw [top3Inv_iff] at hinv ⊢
  obtain ⟨⟨o1, o2⟩, ⟨f1, f2, f3⟩, ⟨t1, t2⟩, ⟨d1, d2⟩, ⟨p1, p2, p3⟩, hleft⟩ := hinv
  have hc := countOf_nonneg u n
  rw [← hcv] at hc
  have w2 : c2 = -1 ∨ (i2 < n + 1 ∧ c2 = countOf u i2) := by
    rcases f2 with h | h
    · exact Or.inl h
    · exact Or.inr ⟨by omega, h.2⟩
  have w3 : c3 = -1 ∨ (i3 < n + 1 ∧ c3 = countOf u i3) := by
    rcases f3 with h | h
    · exact Or.inl h
    · exact Or.inr ⟨by omega, h.2⟩
  have wn : c = -1 ∨ (n < n + 1 ∧ c = countOf u n) := Or.inr ⟨by omega, hcv⟩
  have x2 : 0 ≤ c2 → i2 < n := fun h0 => by
    rcases f2 with h | h
    · omega
    · exact h.1
  have x3 : 0 ≤ c3 → i3 < n := fun h0 => by
    rcases f3 with h | h
    · omega
    · exact h.1
  have x1 : 0 ≤ c1 → c1 = countOf u i1 := fun h0 => by
    rcases f1 with h | h
    · omega
    · exact h.2
  clear f1 f2 f3
  have hlast : ∀ j, j < n + 1 →
      ¬ ((0 ≤ b1 ∧ j = k1) ∨ (0 ≤ b2 ∧ j = k2) ∨ (0 ≤ b3 ∧ j = k3)) →
      countOf u j ≤ b1 ∧ (countOf u j = b1 → k1 < j) ∧ (countOf u j = b2 → k2 < j) ∧
        (countOf u j = b3 → k3 < j) := by
    intro j hj hsel
    have hcj := countOf_nonneg u j
    rcases Nat.lt_succ_iff_lt_or_eq.1 hj with hlt | heq
    · by_cases hold : (0 ≤ c1 ∧ j = i1) ∨ (0 ≤ c2 ∧ j = i2) ∨ (0 ≤ c3 ∧ j = i3)
      · have hj1 : 0 ≤ c1 ∧ j = i1 := by
          clear hleft t1 t2 d1 d2 x1 x2 x3 w2 w3 wn p1 p2 p3
          rcases hold with h | h | h
          · exact h
          · exfalso; apply hsel
            rcases hslots with g | g | g <;> omega
          · exfalso; apply hsel
            rcases hslots with g | g | g <;> omega
        obtain ⟨h0, hji⟩ := hj1
        have e1 : countOf u j = c1 := by rw [hji]; exact (x1 h0).symm
        have a1 := t1 h0
        have a2 := t2 (by omega)
        have a3 := d1 h0
        clear hleft t1 t2 d1 d2 x1 x2 x3 w2 w3 wn p1 p2 p3 hold hsel
        rcases hslots with g | g | g <;>
          (refine ⟨by omega, ?_, ?_, ?_⟩ <;> intro he <;> omega)
      · obtain ⟨l1, l2, l3, l4⟩ := hleft j hlt hold
        have y2 := x2
        have y3 := x3
        clear hleft t1 t2 d1 d2 x1 x2 x3 w2 w3 wn p1 p2 p3 hold hsel
        rcases hslots with g | g | g <;>
          (refine ⟨by omega, ?_, ?_, ?_⟩ <;> intro he <;> omega)
    · exfalso; apply hsel
      clear hleft t1 t2 d1 d2 x1 x2 x3 w2 w3 wn p1 p2 p3
      rcases hslots with g | g | g <;> omega
  refine ⟨?_, ?_, ⟨?_, ?_⟩, ⟨?_, ?_⟩, ⟨?_, ?_, ?_⟩, hlast⟩
  · clear hleft hlast t1 t2 d1 d2 x1 x2 x3 w2 w3 wn p1 p2 p3
    rcases hslots with g | g | g <;> omega
  · clear hleft hlast t1 t2 d1 d2 x1 x2 x3 p1 p2 p3
    rcases hslots with ⟨rfl, rfl, rfl, rfl, rfl, rfl, _⟩ | ⟨rfl, rfl, rfl, rfl, rfl, rfl, _⟩ |
      ⟨rfl, rfl, rfl, rfl, rfl, rfl, _⟩
    · exact ⟨w2, w3, wn⟩
    · exact ⟨w2, wn, w3⟩
    · exact ⟨wn, w2, w3⟩
  · intro h0 he
    have a1 := t2
    clear hleft hlast t1 t2 d1 d2 x1 w2 w3 wn p1 p2 p3
    rcases hslots with g | g | g <;> omega
  · intro h0 he
    have a1 := t2
    clear hleft hlast t1 t2 d1 d2 x1 w2 w3 wn p1 p2 p3
    rcases hslots with g | g | g <;> omega
  · intro h0
    have a1 := d2
    clear hleft hlast t1 t2 d1 d2 x1 w2 w3 wn p1 p2 p3
    rcases hslots with g | g | g <;> (constructor <;> omega)
  · intro h0
    have a1 := d2
    clear hleft hlast t1 t2 d1 d2 x1 w2 w3 wn p1 p2 p3
    rcases hslots with g | g | g <;> omega
  · intro h0
    clear hleft hlast t1 t2 d1 d2 x1 x2 x3 w2 w3 wn
    rcases hslots with g | g | g <;> omega
  · intro h0
    clear hleft hlast t1 t2 d1 d2 x1 x2 x3 w2 w3 wn
    rcases hslots with g | g | g <;> omega
  · intro h0
    clear hleft hlast t1 t2 d1 d2 x1 x2 x3 w2 w3 wn
    rcases hslots with g | g | g <;> omega

theorem top3_keep (u : List Nat) (n : Nat) (c1 c2 c3 : Int) (i1 i2 i3 : Nat)
    (hinv : Top3Inv u n ⟨c1, c2, c3, i1, i2, i3⟩) (hle : countOf u n ≤ c1) :
    Top3Inv u (n + 1) ⟨c1, c2, c3, i1, i2, i3⟩ := by
  rw [top3Inv_iff] at hinv ⊢
  obtain ⟨⟨o1, o2⟩, ⟨f1, f2, f3⟩, ht, hd, ⟨p1, p2, p3⟩, hleft⟩ := hinv
  have hc := countOf_nonneg u n
  have x1 : i1 < n := by
    rcases f1 with h | h
    · omega
    · exact h.1
  have x2 : i2 < n := by
    rcases f2 with h | h
    · omega
    · exact h.1
  have x3 : i3 < n := by
    rcases f3 with h | h
    · omega
    · exact h.1
  refine ⟨⟨o1, o2⟩, ⟨?_, ?_, ?_⟩, ht, hd, ⟨?_, ?_, ?_⟩, ?_⟩
  · rcases f1 with h | h
    · exact Or.inl h
    · exact Or.inr ⟨by omega, h.2⟩
  · rcases f2 with h | h
    · exact Or.inl h
    · exact Or.inr ⟨by omega, h.2⟩
  · rcases f3 with h | h
    · exact Or.inl h
    · exact Or.inr ⟨by omega, h.2⟩
  · intro _; omega
  · intro _; omega
  · intro _; omega
  · intro j hj hsel
    rcases Nat.lt_succ_iff_lt_or_eq.1 hj with hlt | heq
    · exact hleft j hlt hsel
    · subst heq
      clear hleft ht hd f1 f2 f3 p1 p2 p3 hsel
      refine ⟨hle, ?_, ?_, ?_⟩ <;> intro he <;> omega

/-- One iteration of the loop of lines 142-153 on entry `n` of the histogram
keeps the invariant. -/
theorem top3Step_inv (u : List Nat) (n : Nat) (t : Top3) (hinv : Top3Inv u n t) :
    Top3Inv u (n + 1) (top3Step t n (countOf u n)) := by
  obtain ⟨c1, c2, c3, i1, i2, i3⟩ := t
  have ho : c1 ≤ c2 ∧ c2 ≤ c3 := ((top3Inv_iff u n c1 c2 c3 i1 i2 i3).1 hinv).1
  simp only [top3Step]
  by_cases h3 : countOf u n > c3
  · rw [if_pos h3]
    exact top3_insert u n c1 c2 c3 i1 i2 i3 _ _ _ _ _ _ _ rfl hinv (by omega)
      (Or.inl ⟨rfl, rfl, rfl, rfl, rfl, rfl, h3⟩)
  · rw [if_neg h3]
    by_cases h2 : countOf u n > c2
    · rw [if_pos h2]
      exact top3_insert u n c1 c2 c3 i1 i2 i3 _ _ _ _ _ _ _ rfl hinv (by omega)
        (Or.inr (Or.inl ⟨rfl, rfl, rfl, rfl, rfl, rfl, h2, by omega⟩))
    · rw [if_neg h2]
      by_cases h1 : countOf u n > c1
      · rw [if_pos h1]
        exact top3_insert u n c1 c2 c3 i1 i2 i3 _ _ _ _ _ _ _ rfl hinv h1
          (Or.inr (Or.inr ⟨rfl, rfl, rfl, rfl, rfl, rfl, by omega⟩))
      · rw [if_neg h1]
        exact top3_keep u n c1 c2 c3 i1 i2 i3 hinv (by omega)

theorem countOf_append (pre : List Nat) (c : Nat) (rest : List Nat) :
    countOf (pre ++ c :: rest) pre.length = (c : Int) := by
  unfold countOf
  rw [List.getD_eq_getElem?_getD, List.getElem?_append_right (le_refl _)]
  simp

theorem top3Loop_inv (l : List Nat) : ∀ (pre : List Nat) (t : Top3),
    Top3Inv (pre ++ l) pre.length t →
      Top3Inv (pre ++ l) (pre ++ l).length (top3Loop l pre.length t) := by
  induction l with
  | nil =>
    intro pre t h
    simpa [top3Loop] using h
  | cons c rest ih =>
    intro pre t h
    have hs := top3Step_inv (pre ++ c :: rest) pre.length t h
    rw [countOf_append] at hs
    have h2 := ih (pre ++ [c]) (top3Step t pre.length c)
      (by simpa [List.append_assoc] using hs)
    simpa [top3Loop, List.append_assoc] using h2

theorem top3_inv (u : List Nat) : Top3Inv u u.length (top3 u) := by
  have h := top3Loop_inv u [] ⟨-1, -1, -1, 0, 0, 0⟩ (by
    rw [top3Inv_iff]
    refine ⟨by omega, ⟨Or.inl rfl, Or.inl rfl, Or.inl rfl⟩, ⟨?_, ?_⟩, ⟨?_, ?_⟩, ⟨?_, ?_, ?_⟩, ?_⟩
    · intro h; omega
    · intro h; omega
    · intro h; omega
    · intro h; omega
    · intro h; simp at h
    · intro h; simp at h
    · intro h; simp at h
    · intro j hj; simp at hj)
  simpa [top3] using h

/-! ## Loops as folds -/

/-- A loop over `0 .. n - 1` whose body keeps an invariant runs to its end and
establishes the invariant for `n`. -/
theorem foldlM_range_inv {α : Type} (f : α → Nat → Option α) (Inv : Nat → α → Prop) (n : Nat)
    (a0 : α) (h0 : Inv 0 a0)
    (hstep : ∀ k a, k < n → Inv k a → ∃ a', f a k = some a' ∧ Inv (k + 1) a') :
    ∃ a, (List.range n).foldlM f a0 = some a ∧ Inv n a := by
  induction n with
  | zero => exact ⟨a0, rfl, h0⟩
  | succ m ih =>
    obtain ⟨a, ha, hinv⟩ := ih (fun k a hk => hstep k a (by omega))
    obtain ⟨a', ha', hinv'⟩ := hstep m a (by omega) hinv
    refine ⟨a', ?_, hinv'⟩
    rw [List.range_succ, List.foldlM_append, ha]
    simp only [Option.bind_eq_bind, Option.some_bind, List.foldlM_cons, List.foldlM_nil, ha']
    rfl

theorem foldlM_some {α β : Type} (g : β → α → β) (l : List α) (b : β) :
    l.foldlM (fun b a => some (g b a)) b = some (l.foldl g b) := by
  induction l generalizing b with
  | nil => rfl
  | cons a l ih =>
    rw [List.foldlM_cons, List.foldl_cons]
    exact ih (g b a)

theorem foldlM_flatMap {α β γ : Type} (l : List α) (f : α → List β) (g : γ → β → Option γ)
    (c : γ) :
    (l.flatMap f).foldlM g c = l.foldlM (fun c a => (f a).foldlM g c) c := by
  induction l generalizing c with
  | nil => rfl
  | cons a l ih =>
    rw [List.flatMap_cons, List.foldlM_append, List.foldlM_cons]
    cases h : (f a).foldlM g c with
    | none => rfl
    | some c' => exact ih c'

theorem foldlM_map_option {α β γ : Type} (l : List α) (f : α → β) (g : γ → β → Option γ)
    (c : γ) : (l.map f).foldlM g c = l.foldlM (fun c a => g c (f a)) c := by
  induction l generalizing c with
  | nil => rfl
  | cons a l ih =>
    rw [List.map_cons, List.foldlM_cons, List.foldlM_cons]
    cases h : g c (f a) with
    | none => rfl
    | some c' => exact ih c'

/-- A loop over `0 .. n - 1` that leaves at the first index `i` with
`y + i ≥ h` is the loop over the indices below `min n (h - y)`. -/
theorem loopBreak_range' {α : Type} (y h : Nat) (body : Nat → α → Option α) (n : Nat) :
    ∀ (s : Nat) (a : α),
      loopBreak (fun i => decide (y + i ≥ h)) body (List.range' s n) a =
        (List.range' s (min n (h - y - s))).foldlM (fun a i => body i a) a := by
  induction n with
  | zero => intro s a; simp [loopBreak]
  | succ m ih =>
    intro s a
    rw [List.range'_succ]
    simp only [loopBreak]
    by_cases hb : y + s ≥ h
    · have h0 : min (m + 1) (h - y - s) = 0 := by omega
      rw [h0]
      simp [hb]
    · have h1 : min (m + 1) (h - y - s) = min m (h - y - (s + 1)) + 1 := by omega
      rw [h1, List.range'_succ, List.foldlM_cons]
      simp only [hb, decide_False, Bool.false_eq_true, if_false]
      cases hbody : body s a with
      | none => rfl
      | some a' => exact ih (s + 1) a'

theorem loopBreak_range {α : Type} (y h : Nat) (body : Nat → α → Option α) (n : Nat) (a : α) :
    loopBreak (fun i => decide (y + i ≥ h)) body (List.range n) a =
      (List.range (min n (h - y))).foldlM (fun a i => body i a) a := by
  rw [List.range_eq_range', List.range_eq_range']
  exact loopBreak_range' y h body n 0 a

/-- A loop `for i := 0; i < bound; i += step` with enough fuel is the loop over
the `n` multiples of `step` below `bound`. -/
theorem loopStep_range' {α : Type} (step bound n : Nat) (body : Nat → α → Option α)
    (hceil : ∀ t, t * step < bound ↔ t < n) :
    ∀ (fuel t0 : Nat) (a : α), n - t0 < fuel →
      loopStep step bound body fuel (t0 * step) a =
        (List.range' t0 (n - t0)).foldlM (fun a t => body (t * step) a) a := by
  intro fuel
  induction fuel with
  | zero => intro t0 a h; omega
  | succ f ih =>
    intro t0 a h
    simp only [loopStep]
    by_cases hlt : t0 * step < bound
    · have ht : t0 < n := (hceil t0).1 hlt
      have h1 : n - t0 = (n - (t0 + 1)) + 1 := by omega
      rw [if_pos hlt, h1, List.range'_succ, List.foldlM_cons]
      cases hbody : body (t0 * step) a with
      | none => rfl
      | some a' =>
        have h2 : t0 * step + step = (t0 + 1) * step := by rw [Nat.add_mul, Nat.one_mul]
        simp only [Option.some_bind, Option.bind_eq_bind]
        rw [h2]
        exact ih (t0 + 1) a' (by omega)
    · have ht : ¬ t0 < n := fun h' => hlt ((hceil t0).2 h')
      have h0 : n - t0 = 0 := by omega
      rw [if_neg hlt, h0]
      rfl

theorem loopStep4 {α : Type} (w : Nat) (body : Nat → α → Option α) (a : α) :
    loopStep 4 w body (w + 1) 0 a =
      (List.range ((w + 3) / 4)).foldlM (fun a t => body (t * 4) a) a := by
  have h := loopStep_range' 4 w ((w + 3) / 4) body (fun t => by omega) (w + 1) 0 a (by omega)
  rw [List.range_eq_range']
  simpa using h

theorem loopStep8 {α : Type} (h : Nat) (body : Nat → α → Option α) (a : α) :
    loopStep 8 h body (h + 1) 0 a =
      (List.range ((h + 7) / 8)).foldlM (fun a t => body (t * 8) a) a := by
  have h' := loopStep_range' 8 h ((h + 7) / 8) body (fun t => by omega) (h + 1) 0 a (by omega)
  rw [List.range_eq_range']
  simpa using h'

/-! ## The histogram of a tile -/

/-- Two loop bodies that agree on the states of an invariant give the same
loop, and the loop keeps the invariant. -/
theorem foldlM_congr_inv {α β : Type} (l : List α) (f g : β → α → Option β) (I : β → Prop)
    (hfg : ∀ a ∈ l, ∀ b, I b → f b a = g b a)
    (hI : ∀ a ∈ l, ∀ b b', I b → g b a = some b' → I b') :
    ∀ b, I b → l.foldlM f b = l.foldlM g b ∧ ∀ r, l.foldlM g b = some r → I r := by
  induction l with
  | nil =>
    intro b hb
    refine ⟨rfl, ?_⟩
    intro r hr
    have e : b = r := by simpa using hr
    exact e ▸ hb
  | cons a l ih =>
    intro b hb
    have h1 := hfg a (List.mem_cons_self a l) b hb
    rw [List.foldlM_cons, List.foldlM_cons, h1]
    cases hg : g b a with
    | none => exact ⟨rfl, fun r hr => by simp at hr⟩
    | some b' =>
      exact ih (fun a' ha' => hfg a' (List.mem_cons_of_mem a ha'))
        (fun a' ha' => hI a' (List.mem_cons_of_mem a ha')) b'
        (hI a (List.mem_cons_self a l) b b' hb hg)

theorem cellAt_grid {α : Type} (g : List (List α)) (w h x y : Nat) (d : α)
    (hg : isGrid g w h) (hx : x < w) (hy : y < h) :
    cellAt g x y = some ((g.getD x []).getD y d) ∧ (g.getD x []).getD y d ∈ g.getD x [] ∧
      g.getD x [] ∈ g := by
  obtain ⟨hl, hcol⟩ := hg
  have hx' : x < g.length := by omega
  have e1 : g[x]? = some g[x] := List.getElem?_eq_getElem hx'
  have e2 : g.getD x [] = g[x] := by rw [List.getD_eq_getElem?_getD, e1]; rfl
  have hm : g[x] ∈ g := List.getElem_mem hx'
  have hy' : y < g[x].length := by rw [hcol _ hm]; exact hy
  have e3 : g[x][y]? = some (g[x][y]) := List.getElem?_eq_getElem hy'
  have e4 : (g[x]).getD y d = g[x][y] := by rw [List.getD_eq_getElem?_getD, e3]; rfl
  unfold cellAt
  rw [e2, e4, e1]
  exact ⟨e3, List.getElem_mem hy', hm⟩

/-- The body of the histogram loops on a cell of colour `c`. -/
theorem charUseCell_of_cell (p : Pixmap) (bg : Int) (xx yy c : Nat) (st : List Nat × Nat)
    (hc : cellAt p xx yy = some c) (hlt : c < st.1.length) :
    charUseCell p bg xx yy st = some (histStep bg st c) := by
  unfold charUseCell histStep
  unfold cellAt at hc
  rw [hc]
  by_cases hb : (c : Int) = bg
  · simp only [if_pos hb]
  · have hg : st.1[c]? = some (st.1.getD c 0) := by
      rw [List.getD_eq_getElem?_getD, List.getElem?_eq_getElem hlt]
      rfl
    simp only [if_neg hb, hg]

/-- One step of the histogram: the length stays, the entry of the colour goes up
by one unless it is the background, and the number of colours in use follows. -/
theorem histStep_facts (b c : Nat) (st : List Nat × Nat) (hc : c < st.1.length) :
    (histStep (b : Int) st c).1.length = st.1.length ∧
    (∀ j, (histStep (b : Int) st c).1.getD j 0 =
        st.1.getD j 0 + (if c ≠ b ∧ c = j then 1 else 0)) ∧
    (st.2 = st.1.countP (fun v => decide (v ≠ 0)) →
      (histStep (b : Int) st c).2 =
        (histStep (b : Int) st c).1.countP (fun v => decide (v ≠ 0))) := by
  unfold histStep
  by_cases hb : (c : Int) = (b : Int)
  · have hb' : c = b := by exact_mod_cast hb
    rw [if_pos hb]
    refine ⟨rfl, ?_, fun h => h⟩
    intro j
    rw [if_neg (fun h => h.1 hb')]
    rfl
  · have hb' : c ≠ b := fun h => hb (by exact_mod_cast congrArg Nat.cast h)
    rw [if_neg hb]
    have hget : st.1.getD c 0 = st.1[c] := by
      rw [List.getD_eq_getElem?_getD, List.getElem?_eq_getElem hc]; rfl
    refine ⟨List.length_set _ _ _, ?_, ?_⟩
    · intro j
      show (st.1.set c (st.1.getD c 0 + 1)).getD j 0 = _
      rw [List.getD_eq_getElem?_getD, List.getElem?_set]
      by_cases hj : c = j
      · subst hj
        rw [if_pos rfl, if_pos hc, if_pos ⟨hb', rfl⟩]
        rfl
      · rw [if_neg hj, if_neg (fun h => hj h.2), ← List.getD_eq_getElem?_getD]
        rfl
    · intro hcnt
      show (if st.1.getD c 0 = 0 then st.2 + 1 else st.2) =
        List.countP (fun v => decide (v ≠ 0)) (st.1.set c (st.1.getD c 0 + 1))
      rw [List.countP_set _ _ _ _ hc, hget]
      have hp : decide (st.1[c] + 1 ≠ 0) = true := by simp
      rw [if_pos hp]
      by_cases h0 : st.1[c] = 0
      · have hq : ¬ decide (st.1[c] ≠ 0) = true := by simp [h0]
        rw [if_pos h0, if_neg hq, hcnt]
        rfl
      · have hq : decide (st.1[c] ≠ 0) = true := by simp [h0]
        have hpos : 0 < List.countP (fun v => decide (v ≠ 0)) st.1 := by
          rw [List.countP_pos_iff]
          exact ⟨st.1[c], List.getElem_mem hc, hq⟩
        rw [if_neg h0, if_pos hq, hcnt]
        omega

/-- The histogram of a list of colours: entry `j` has gone up by the number of
occurrences of `j`, the background apart, and the count of colours in use is
the number of non-zero entries. -/
theorem hist_fold (b : Nat) (pixels : List Nat) :
    ∀ (st : List Nat × Nat), (∀ c ∈ pixels, c < st.1.length) →
      (pixels.foldl (histStep (b : Int)) st).1.length = st.1.length ∧
      (∀ j, (pixels.foldl (histStep (b : Int)) st).1.getD j 0 =
        st.1.getD j 0 + specCount pixels b j) ∧
      (st.2 = st.1.countP (fun v => decide (v ≠ 0)) →
        (pixels.foldl (histStep (b : Int)) st).2 =
          (pixels.foldl (histStep (b : Int)) st).1.countP (fun v => decide (v ≠ 0))) := by
  induction pixels with
  | nil =>
    intro st _
    refine ⟨rfl, ?_, fun h => h⟩
    intro j
    unfold specCount
    simp
  | cons c rest ih =>
    intro st hlt
    have hc : c < st.1.length := hlt c (List.mem_cons_self c rest)
    obtain ⟨f1, f2, f3⟩ := histStep_facts b c st hc
    obtain ⟨g1, g2, g3⟩ := ih (histStep (b : Int) st c)
      (fun c' hc' => by rw [f1]; exact hlt c' (List.mem_cons_of_mem c hc'))
    rw [List.foldl_cons]
    refine ⟨by rw [g1, f1], ?_, fun h => g3 (f3 h)⟩
    intro j
    rw [g2 j, f2 j]
    unfold specCount
    by_cases hjb : j = b
    · rw [if_pos hjb, if_pos hjb]
      have : ¬ (c ≠ b ∧ c = j) := fun h => h.1 (h.2.trans hjb)
      rw [if_neg this]
    · rw [if_neg hjb, if_neg hjb, List.count_cons]
      by_cases hcj : c = j
      · have h1 : c ≠ b ∧ c = j := ⟨fun h => hjb (hcj.symm.trans h), hcj⟩
        have h2 : (c == j) = true := by simpa using hcj
        rw [if_pos h1, if_pos h2]
        omega
      · have h1 : ¬ (c ≠ b ∧ c = j) := fun h => hcj h.2
        have h2 : ¬ (c == j) = true := by simpa using hcj
        rw [if_neg h1, if_neg h2]
        omega

theorem tilePixels_below (p : Pixmap) (w h x y n : Nat) (hg : isGrid p w h)
    (hb : cellsBelow p n) : ∀ c ∈ tilePixels p w h x y, c < n := by
  intro c hc
  unfold tilePixels at hc
  rw [List.mem_flatMap] at hc
  obtain ⟨cy, hcy, hc⟩ := hc
  rw [List.mem_map] at hc
  obtain ⟨cx, hcx, rfl⟩ := hc
  rw [List.mem_range] at hcy hcx
  obtain ⟨-, h2, h3⟩ := cellAt_grid p w h (x + cx) (y + cy) 0 hg (by omega) (by omega)
  exact hb _ h3 _ h2

/-- Lines 82-101: on a grid of colour indices below 16 the histogram loops of a
tile do not panic, and they compute the fold of `histStep` over the pixels of
the tile. -/
theorem charUseTile_eq (p : Pixmap) (w h x y : Nat) (bg : Int) (hg : isGrid p w h)
    (hb : cellsBelow p 16) :
    charUseTile p w h bg x y =
      some ((tilePixels p w h x y).foldl (histStep bg) (List.replicate 16 0, 0)) := by
  have hlen : ∀ (st : List Nat × Nat) (c : Nat), st.1.length = 16 → c < 16 →
      (histStep bg st c).1.length = 16 := by
    intro st c hst hc
    unfold histStep
    by_cases hbg : (c : Int) = bg
    · rw [if_pos hbg]; exact hst
    · rw [if_neg hbg]
      show (st.1.set c _).length = 16
      rw [List.length_set]; exact hst
  have hinner : ∀ cy, cy < min 8 (h - y) → ∀ st : List Nat × Nat, st.1.length = 16 →
      (List.range (min 4 (w - x))).foldlM (fun st cx => charUseCell p bg (x + cx) (y + cy) st) st =
        (List.range (min 4 (w - x))).foldlM
          (fun st cx => some (histStep bg st ((p.getD (x + cx) []).getD (y + cy) 0))) st ∧
      ∀ r, (List.range (min 4 (w - x))).foldlM
          (fun st cx => some (histStep bg st ((p.getD (x + cx) []).getD (y + cy) 0))) st = some r →
        r.1.length = 16 := by
    intro cy hcy st hst
    refine foldlM_congr_inv _ _ _ (fun st => st.1.length = 16) ?_ ?_ st hst
    · intro cx hcx st hst
      rw [List.mem_range] at hcx
      obtain ⟨h1, h2, h3⟩ := cellAt_grid p w h (x + cx) (y + cy) 0 hg (by omega) (by omega)
      exact charUseCell_of_cell p bg _ _ _ st h1 (by rw [hst]; exact hb _ h3 _ h2)
    · intro cx hcx st st' hst hst'
      rw [List.mem_range] at hcx
      obtain ⟨h1, h2, h3⟩ := cellAt_grid p w h (x + cx) (y + cy) 0 hg (by omega) (by omega)
      have e : histStep bg st ((p.getD (x + cx) []).getD (y + cy) 0) = st' := by
        simpa using hst'
      rw [← e]
      exact hlen st _ hst (hb _ h3 _ h2)
  have houter := foldlM_congr_inv (List.range (min 8 (h - y)))
    (fun st cy => (List.range (min 4 (w - x))).foldlM
      (fun st cx => charUseCell p bg (x + cx) (y + cy) st) st)
    (fun st cy => (List.range (min 4 (w - x))).foldlM
      (fun st cx => some (histStep bg st ((p.getD (x + cx) []).getD (y + cy) 0))) st)
    (fun st => st.1.length = 16)
    (fun cy hcy st hst => (hinner cy (List.mem_range.1 hcy) st hst).1)
    (fun cy hcy st st' hst hst' => (hinner cy (List.mem_range.1 hcy) st hst).2 st' hst')
    (List.replicate 16 0, 0) (List.length_replicate 16 0)
  unfold charUseTile
  rw [loopBreak_range]
  simp only [loopBreak_range]
  rw [houter.1]
  unfold tilePixels
  rw [← foldlM_some, foldlM_flatMap]
  simp only [foldlM_map_option]

/-! ## The cost of a tile -/

theorem foldr_max_perm (l1 l2 : List Nat) (h : l1.Perm l2) :
    l1.foldr max 0 = l2.foldr max 0 := by
  induction h with
  | nil => rfl
  | cons a _ ih => simp only [List.foldr_cons, ih]
  | swap a b l =>
    simp only [List.foldr_cons]
    omega
  | trans _ _ ih1 ih2 => exact ih1.trans ih2

theorem largest3_perm (l1 l2 : List Nat) (h : l1.Perm l2) : largest3 l1 = largest3 l2 := by
  unfold largest3
  have e1 := foldr_max_perm l1 l2 h
  have p1 : (l1.erase (l1.foldr max 0)).Perm (l2.erase (l2.foldr max 0)) := by
    rw [e1]; exact h.erase _
  have e2 := foldr_max_perm _ _ p1
  have p2 : ((l1.erase (l1.foldr max 0)).erase ((l1.erase (l1.foldr max 0)).foldr max 0)).Perm
      ((l2.erase (l2.foldr max 0)).erase ((l2.erase (l2.foldr max 0)).foldr max 0)) := by
    rw [e2]; exact p1.erase _
  have e3 := foldr_max_perm _ _ p2
  omega

theorem foldr_max_head (a : Nat) (l : List Nat) (h : ∀ v ∈ l, v ≤ a) :
    (a :: l).foldr max 0 = a := by
  have hl : l.foldr max 0 ≤ a := by
    induction l with
    | nil => exact Nat.zero_le a
    | cons v l ih =>
      have h1 := h v (List.mem_cons_self v l)
      have h2 := ih (fun v' hv' => h v' (List.mem_cons_of_mem v hv'))
      simp only [List.foldr_cons]
      omega
  simp only [List.foldr_cons]
  omega

/-- The three largest entries of a list in decreasing order are its first
three. -/
theorem largest3_sorted (a b c : Nat) (rest : List Nat)
    (hs : List.Pairwise (fun u v => v ≤ u) (a :: b :: c :: rest)) :
    largest3 (a :: b :: c :: rest) = a + b + c := by
  rw [List.pairwise_cons] at hs
  obtain ⟨ha, hs⟩ := hs
  rw [List.pairwise_cons] at hs
  obtain ⟨hb, hs⟩ := hs
  rw [List.pairwise_cons] at hs
  obtain ⟨hc, -⟩ := hs
  unfold largest3
  rw [foldr_max_head a _ ha, List.erase_cons_head, foldr_max_head b _ hb, List.erase_cons_head,
    foldr_max_head c _ hc]

theorem foldl_add_sum (l : List Nat) (a : Nat) :
    l.foldl (fun acc v => acc + v) a = a + l.sum := by
  induction l generalizing a with
  | nil => rfl
  | cons v l ih =>
    rw [List.foldl_cons, ih, List.sum_cons]
    omega

/-- Lines 103-106: after `sort.Ints`, the first 13 of 16 counts add up to the
total less the three largest counts. -/
theorem take13_sum (l : List Nat) (hl : l.length = 16) :
    ((sortInts l).take 13).sum + largest3 l = l.sum := by
  have hperm : (sortInts l).Perm l := List.perm_insertionSort _ l
  have hsorted : List.Pairwise (fun a b => a ≤ b) (sortInts l) :=
    List.sorted_insertionSort (fun a b => a ≤ b) l
  have hrev : List.Pairwise (fun u v => v ≤ u) (sortInts l).reverse :=
    List.pairwise_reverse.2 hsorted
  have hlen : (sortInts l).reverse.length = 16 := by
    rw [List.length_reverse, hperm.length_eq, hl]
  have hpr : (sortInts l).reverse.Perm l := (List.reverse_perm _).trans hperm
  have hs : sortInts l = ((sortInts l).reverse).reverse := (List.reverse_reverse _).symm
  generalize (sortInts l).reverse = d at hrev hlen hpr hs
  match d, hrev, hlen, hpr, hs with
  | a :: b :: c :: rest, hrev, hlen, hpr, hs =>
    have hr : rest.length = 13 := by simpa using hlen
    rw [largest3_perm l _ hpr.symm, largest3_sorted a b c rest hrev, ← hpr.sum_eq, hs]
    have e : (a :: b :: c :: rest).reverse = rest.reverse ++ [c, b, a] := by
      simp [List.reverse_cons]
    rw [e, List.take_left' (by rw [List.length_reverse, hr]), List.sum_reverse]
    simp only [List.sum_cons]
    omega

theorem sum_set_succ (l : List Nat) (i : Nat) (hi : i < l.length) :
    (l.set i (l.getD i 0 + 1)).sum = l.sum + 1 := by
  induction l generalizing i with
  | nil => simp at hi
  | cons v l ih =>
    cases i with
    | zero => simp; omega
    | succ i =>
      have hi' : i < l.length := by simpa using hi
      have := ih i hi'
      simp only [List.set_cons_succ, List.sum_cons, List.getD_cons_succ] at this ⊢
      omega

theorem hist_fold_sum (b : Nat) (pixels : List Nat) :
    ∀ (st : List Nat × Nat), (∀ c ∈ pixels, c < st.1.length) →
      (pixels.foldl (histStep (b : Int)) st).1.sum =
        st.1.sum + (pixels.filter (fun c => decide (c ≠ b))).length := by
  induction pixels with
  | nil => intro st _; rfl
  | cons c rest ih =>
    intro st hlt
    have hc : c < st.1.length := hlt c (List.mem_cons_self c rest)
    have f1 := (histStep_facts b c st hc).1
    rw [List.foldl_cons, ih (histStep (b : Int) st c)
      (fun c' hc' => by rw [f1]; exact hlt c' (List.mem_cons_of_mem c hc'))]
    unfold histStep
    by_cases hb : (c : Int) = (b : Int)
    · have hb' : c = b := by exact_mod_cast hb
      rw [if_pos hb, List.filter_cons_of_neg (by simp [hb'])]
    · have hb' : c ≠ b := fun h => hb (by exact_mod_cast congrArg Nat.cast h)
      rw [if_neg hb, List.filter_cons_of_pos (by simp [hb'])]
      show (st.1.set c (st.1.getD c 0 + 1)).sum + _ = _
      rw [sum_set_succ _ _ hc, List.length_cons]
      omega

/-- The histogram of a tile, starting from the zero histogram: the list of the
counts of the 16 colours, the number of distinct colours and the total. -/
theorem tile_hist (b : Nat) (pixels : List Nat) (hp : ∀ c ∈ pixels, c < 16) :
    (pixels.foldl (histStep (b : Int)) (List.replicate 16 0, 0)).1 =
      (List.range 16).map (specCount pixels b) ∧
    (pixels.foldl (histStep (b : Int)) (List.replicate 16 0, 0)).2 = specDistinct pixels b ∧
    (pixels.foldl (histStep (b : Int)) (List.replicate 16 0, 0)).1.sum =
      (pixels.filter (fun c => decide (c ≠ b))).length := by
  obtain ⟨f1, f2, f3⟩ := hist_fold b pixels (List.replicate 16 0, 0)
    (fun c hc => by rw [List.length_replicate]; exact hp c hc)
  have fs := hist_fold_sum b pixels (List.replicate 16 0, 0)
    (fun c hc => by rw [List.length_replicate]; exact hp c hc)
  have hl : (pixels.foldl (histStep (b : Int)) (List.replicate 16 0, 0)).1.length = 16 := by
    rw [f1, List.length_replicate]
  have e : (pixels.foldl (histStep (b : Int)) (List.replicate 16 0, 0)).1 =
      (List.range 16).map (specCount pixels b) := by
    apply List.ext_getElem
    · rw [hl, List.length_map, List.length_range]
    · intro j h1 h2
      have hj := f2 j
      rw [List.getD_eq_getElem?_getD, List.getElem?_eq_getElem h1] at hj
      rw [List.getElem_map, List.getElem_range]
      have hz : (List.replicate 16 0, 0).1.getD j 0 = 0 := by
        show (List.replicate 16 0).getD j 0 = 0
        rw [List.getD_eq_getElem?_getD, List.getElem?_replicate]
        by_cases h16 : j < 16
        · rw [if_pos h16]; rfl
        · rw [if_neg h16]; rfl
      rw [hz, Nat.zero_add] at hj
      exact hj
  refine ⟨e, ?_, ?_⟩
  · rw [f3 (by decide), e, List.countP_map, List.countP_eq_length_filter]
    unfold specDistinct
    congr 1
    apply List.filter_congr
    intro c _
    unfold specCount
    by_cases hcb : c = b
    · simp [hcb]
    · simp [hcb, List.count_eq_zero]
  · rw [fs]
    show (List.replicate 16 0).sum + _ = _
    simp

/-- Lines 82-107 on a grid of colour indices below 16: the tile adds its
contribution, as the specification words it, to `pixerr`. -/
theorem tileCost_eq (p : Pixmap) (w h b x y pixerr : Nat) (hg : isGrid p w h)
    (hb : cellsBelow p 16) :
    tileCost p w h b x y pixerr = some (pixerr + specTileCost (tilePixels p w h x y) b) := by
  unfold tileCost
  rw [charUseTile_eq p w h x y (b : Int) hg hb, Option.map_some']
  obtain ⟨e1, e2, e3⟩ := tile_hist b (tilePixels p w h x y) (tilePixels_below p w h x y 16 hg hb)
  have hl : ((tilePixels p w h x y).foldl (histStep (b : Int)) (List.replicate 16 0, 0)).1.length
      = 16 := by rw [e1, List.length_map, List.length_range]
  have ht := take13_sum _ hl
  unfold specTileCost
  rw [e2]
  by_cases hd : specDistinct (tilePixels p w h x y) b > 3
  · rw [if_pos hd, if_pos hd, foldl_add_sum, ← e1, ← e3]
    congr 1
    omega
  · rw [if_neg hd, if_neg hd]
    rfl

theorem foldl_add_map {α : Type} (g : α → Nat) (l : List α) (a : Nat) :
    l.foldl (fun acc i => acc + g i) a = a + (l.map g).sum := by
  induction l generalizing a with
  | nil => rfl
  | cons v l ih =>
    rw [List.foldl_cons, ih, List.map_cons, List.sum_cons]
    omega

/-- Lines 79-109: the cost of a candidate background is the sum of the
contributions of the tiles. -/
theorem bgCost_eq (p : Pixmap) (w h b : Nat) (hg : isGrid p w h) (hb : cellsBelow p 16) :
    bgCost p w h b = some (specCost p w h b) := by
  unfold bgCost
  rw [loopStep8]
  simp only [loopStep4, tileCost_eq p w h b _ _ _ hg hb]
  simp only [foldlM_some, foldl_add_map]
  unfold specCost
  simp only [Nat.mul_comm 4, Nat.mul_comm 8, Nat.zero_add]

/-- C8: on a pixel index grid of `w` by `h` cells with values in 0..15, the cost
that lines 79-109 compute for a candidate background `b` is the sum,
over the 4x8 tiles, of each tile's contribution `specTileCost`: nothing for a
tile with at most three distinct colours other than `b`, and otherwise the
number of its pixels whose colour is not `b` minus the sum of the three largest
counts of its histogram of those pixels. -/
theorem C8_background_cost (p : Pixmap) (w h b : Nat) (hg : isGrid p w h)
    (hv : cellsBelow p 16) :
    bgCost p w h b = some (specCost p w h b) ∧
    specCost p w h b =
      ((List.range ((h + 7) / 8)).map fun ty =>
        ((List.range ((w + 3) / 4)).map fun tx =>
          if specDistinct (tilePixels p w h (4 * tx) (8 * ty)) b > 3 then
            ((tilePixels p w h (4 * tx) (8 * ty)).filter (fun c => decide (c ≠ b))).length -
              largest3 ((List.range 16).map (specCount (tilePixels p w h (4 * tx) (8 * ty)) b))
          else 0).sum).sum :=
  ⟨bgCost_eq p w h b hg hv, rfl⟩

theorem C8_background_cost_witness :
    isGrid tileGrid 4 8 ∧ cellsBelow tileGrid 16 ∧
      bgCost tileGrid 4 8 0 = some (specCost tileGrid 4 8 0) ∧ specCost tileGrid 4 8 0 = 4 :=
  ⟨⟨rfl, by decide⟩, by unfold cellsBelow; decide,
    (C8_background_cost tileGrid 4 8 0 ⟨rfl, by decide⟩ (by unfold cellsBelow; decide)).1,
    by decide⟩

/-! ## The choice of the background -/

theorem tilePixels_length (p : Pixmap) (w h x y : Nat) : (tilePixels p w h x y).length ≤ 32 := by
  unfold tilePixels
  rw [List.length_flatMap]
  have h1 : ∀ v ∈ (List.range (min 8 (h - y))).map
      (List.length ∘ fun cy => (List.range (min 4 (w - x))).map
        fun cx => (p.getD (x + cx) []).getD (y + cy) 0), v ≤ 4 := by
    intro v hv
    rw [List.mem_map] at hv
    obtain ⟨cy, -, rfl⟩ := hv
    simp only [Function.comp, List.length_map, List.length_range]
    omega
  have h2 := List.sum_le_card_nsmul _ 4 h1
  simp only [List.length_map, List.length_range, smul_eq_mul] at h2
  have h3 : min 8 (h - y) ≤ 8 := Nat.min_le_left _ _
  omega

theorem specTileCost_le (pixels : List Nat) (b : Nat) :
    specTileCost pixels b ≤ pixels.length := by
  unfold specTileCost
  have h1 := List.length_filter_le (fun c => decide (c ≠ b)) pixels
  split <;> omega

/-- The cost of a candidate is at most 32 for each tile. -/
theorem specCost_le (p : Pixmap) (w h b : Nat) :
    specCost p w h b ≤ (h + 7) / 8 * ((w + 3) / 4 * 32) := by
  unfold specCost
  have h1 : ∀ v ∈ (List.range ((h + 7) / 8)).map (fun ty =>
      ((List.range ((w + 3) / 4)).map fun tx =>
        specTileCost (tilePixels p w h (4 * tx) (8 * ty)) b).sum), v ≤ (w + 3) / 4 * 32 := by
    intro v hv
    rw [List.mem_map] at hv
    obtain ⟨ty, -, rfl⟩ := hv
    have h2 : ∀ u ∈ (List.range ((w + 3) / 4)).map (fun tx =>
        specTileCost (tilePixels p w h (4 * tx) (8 * ty)) b), u ≤ 32 := by
      intro u hu
      rw [List.mem_map] at hu
      obtain ⟨tx, -, rfl⟩ := hu
      exact (specTileCost_le _ b).trans (tilePixels_length p w h _ _)
    have h3 := List.sum_le_card_nsmul _ 32 h2
    simpa using h3
  have h4 := List.sum_le_card_nsmul _ _ h1
  simpa using h4

/-- The loop of lines 78-114 over candidates `0 .. n - 1` with costs `cost`:
either every cost is at least 65000 and the state is the initial one, or the
state holds the first candidate of least cost. -/
theorem search_fold (cost : Nat → Nat) (n : Nat) :
    ((List.range n).foldl (fun (st : Nat × Int) (b : Nat) =>
        if cost b < st.1 then (cost b, (b : Int)) else st) (65000, -1) = (65000, -1) ∧
      ∀ b, b < n → 65000 ≤ cost b) ∨
    ∃ bg, bg < n ∧ (List.range n).foldl (fun (st : Nat × Int) (b : Nat) =>
        if cost b < st.1 then (cost b, (b : Int)) else st) (65000, -1) = (cost bg, (bg : Int)) ∧
      cost bg < 65000 ∧ (∀ b, b < n → cost bg ≤ cost b) ∧ ∀ b, b < bg → cost bg < cost b := by
  induction n with
  | zero => exact Or.inl ⟨rfl, fun b hb => by omega⟩
  | succ m ih =>
    rw [List.range_succ, List.foldl_append]
    simp only [List.foldl_cons, List.foldl_nil]
    rcases ih with ⟨he, hall⟩ | ⟨bg, hbg, he, hlt, hmin, hfirst⟩
    · rw [he]
      by_cases hc : cost m < 65000
      · refine Or.inr ⟨m, by omega, ?_, hc, ?_, ?_⟩
        · simp only [if_pos hc]
        · intro b hb
          rcases Nat.lt_succ_iff_lt_or_eq.1 hb with h1 | h1
          · have := hall b h1; omega
          · rw [h1]
        · intro b hb
          have := hall b hb; omega
      · refine Or.inl ⟨?_, ?_⟩
        · simp only [if_neg hc]
        · intro b hb
          rcases Nat.lt_succ_iff_lt_or_eq.1 hb with h1 | h1
          · exact hall b h1
          · rw [h1]; omega
    · rw [he]
      by_cases hc : cost m < cost bg
      · refine Or.inr ⟨m, by omega, ?_, by omega, ?_, ?_⟩
        · simp only [if_pos hc]
        · intro b hb
          rcases Nat.lt_succ_iff_lt_or_eq.1 hb with h1 | h1
          · have := hmin b h1; omega
          · rw [h1]
        · intro b hb
          have := hmin b hb; omega
      · refine Or.inr ⟨bg, by omega, ?_, hlt, ?_, hfirst⟩
        · simp only [if_neg hc]
        · intro b hb
          rcases Nat.lt_succ_iff_lt_or_eq.1 hb with h1 | h1
          · exact hmin b h1
          · rw [h1]; omega

/-- Lines 76-114 on a grid of colour indices below 16: the search runs the fold
of `search_fold` over the costs of the candidates. -/
theorem bgSearch_eq (p : Pixmap) (w h : Nat) (hg : isGrid p w h) (hv : cellsBelow p 16) :
    bgSearch p w h = some ((List.range 16).foldl (fun (st : Nat × Int) (b : Nat) =>
        if specCost p w h b < st.1 then (specCost p w h b, (b : Int)) else st) (65000, -1)) := by
  unfold bgSearch
  simp only [bgCost_eq p w h _ hg hv, Option.map_some']
  rw [foldlM_some]

/-- The background search on a grid with fewer than 2032 tiles settles on a
candidate: the first one of least cost. -/
theorem bgSearch_spec (p : Pixmap) (w h : Nat) (hg : isGrid p w h) (hv : cellsBelow p 16)
    (hsmall : (h + 7) / 8 * ((w + 3) / 4 * 32) < 65000) :
    ∃ bg, bg < 16 ∧ bgSearch p w h = some (specCost p w h bg, (bg : Int)) ∧
      (∀ b, b < 16 → specCost p w h bg ≤ specCost p w h b) ∧
      ∀ b, b < bg → specCost p w h bg < specCost p w h b := by
  rw [bgSearch_eq p w h hg hv]
  rcases search_fold (specCost p w h) 16 with ⟨-, hall⟩ | ⟨bg, hbg, he, -, hmin, hfirst⟩
  · have h0 := hall 0 (by omega)
    have h1 := specCost_le p w h 0
    omega
  · exact ⟨bg, hbg, by rw [he], hmin, hfirst⟩

/-- C9: on a 160x200 pixel index grid with values in 0..15 the background search
of lines 76-114 ends with a background `bg` in 0..15 and not with the initial
-1; the cost of `bg` is at most the cost of each of the 16 candidates, and every
candidate before `bg` has a greater cost. -/
theorem C9_background_choice (p : Pixmap) (hg : isGrid p 160 200) (hv : cellsBelow p 16) :
    ∃ (besterr bg : Nat), bgSearch p 160 200 = some (besterr, (bg : Int)) ∧ bg < 16 ∧
      bgCost p 160 200 bg = some besterr ∧
      (∀ b, b < 16 → ∃ c, bgCost p 160 200 b = some c ∧ besterr ≤ c) ∧
      ∀ b, b < bg → ∃ c, bgCost p 160 200 b = some c ∧ besterr < c := by
  obtain ⟨bg, hbg, he, hmin, hfirst⟩ := bgSearch_spec p 160 200 hg hv (by decide)
  exact ⟨specCost p 160 200 bg, bg, he, hbg, bgCost_eq p 160 200 bg hg hv,
    fun b hb => ⟨_, bgCost_eq p 160 200 b hg hv, hmin b hb⟩,
    fun b hb => ⟨_, bgCost_eq p 160 200 b hg hv, hfirst b hb⟩⟩

theorem zeroGrid_isGrid : isGrid zeroGrid 160 200 := by
  unfold isGrid zeroGrid
  refine ⟨List.length_replicate _ _, ?_⟩
  intro col hcol
  rw [List.eq_of_mem_replicate hcol, List.length_replicate]

theorem zeroGrid_below : cellsBelow zeroGrid 16 := by
  unfold cellsBelow zeroGrid
  intro col hcol c hc
  rw [List.eq_of_mem_replicate hcol] at hc
  rw [List.eq_of_mem_replicate hc]
  decide

theorem C9_background_choice_witness :
    isGrid zeroGrid 160 200 ∧ cellsBelow zeroGrid 16 ∧
      ∃ (besterr bg : Nat), bgSearch zeroGrid 160 200 = some (besterr, (bg : Int)) ∧ bg < 16 ∧
        bgCost zeroGrid 160 200 bg = some besterr ∧
        (∀ b, b < 16 → ∃ c, bgCost zeroGrid 160 200 b = some c ∧ besterr ≤ c) ∧
        ∀ b, b < bg → ∃ c, bgCost zeroGrid 160 200 b = some c ∧ besterr < c :=
  ⟨zeroGrid_isGrid, zeroGrid_below, C9_background_choice zeroGrid zeroGrid_isGrid zeroGrid_below⟩

/-! ## The palette of a tile -/

theorem countOf_eq (u : List Nat) (i : Nat) : countOf u i = ((u.getD i 0 : Nat) : Int) := by
  unfold countOf; rfl

theorem C64_length : C64.length = 16 := rfl

theorem C64_get (i : Nat) (hi : i < 16) : ∃ c, C64[i]? = some c ∧ c ∈ C64 := by
  have h : i < C64.length := by rw [C64_length]; exact hi
  exact ⟨C64[i], List.getElem?_eq_getElem h, List.getElem_mem h⟩

/-- Lines 140-153 on a histogram of 16 counts: the three slots hold three
distinct colours in increasing order of count, and every colour left out has at
most the count of the lowest slot and, where its count equals that of a slot, a
higher index than the slot. -/
theorem top3_spec (u : List Nat) (hu : u.length = 16) :
    ∃ i1 i2 i3 : Nat,
      top3 u = ⟨(u.getD i1 0 : Nat), (u.getD i2 0 : Nat), (u.getD i3 0 : Nat), i1, i2, i3⟩ ∧
      i1 < 16 ∧ i2 < 16 ∧ i3 < 16 ∧ i1 ≠ i2 ∧ i1 ≠ i3 ∧ i2 ≠ i3 ∧
      u.getD i1 0 ≤ u.getD i2 0 ∧ u.getD i2 0 ≤ u.getD i3 0 ∧
      ∀ j, j < 16 → j ≠ i1 → j ≠ i2 → j ≠ i3 →
        u.getD j 0 ≤ u.getD i1 0 ∧ (u.getD j 0 = u.getD i1 0 → i1 < j) ∧
          (u.getD j 0 = u.getD i2 0 → i2 < j) ∧ (u.getD j 0 = u.getD i3 0 → i3 < j) := by
  have hinv := top3_inv u
  rw [hu] at hinv
  generalize top3 u = t at hinv
  obtain ⟨c1, c2, c3, i1, i2, i3⟩ := t
  rw [top3Inv_iff] at hinv
  obtain ⟨⟨o1, o2⟩, ⟨f1, f2, f3⟩, -, ⟨d1, d2⟩, ⟨p1, p2, p3⟩, hleft⟩ := hinv
  have q1 := p1 (by omega)
  have q2 := p2 (by omega)
  have q3 := p3 (by omega)
  have g1 : i1 < 16 ∧ c1 = countOf u i1 := by
    rcases f1 with h | h
    · omega
    · exact h
  have g2 : i2 < 16 ∧ c2 = countOf u i2 := by
    rcases f2 with h | h
    · omega
    · exact h
  have g3 : i3 < 16 ∧ c3 = countOf u i3 := by
    rcases f3 with h | h
    · omega
    · exact h
  clear f1 f2 f3 p1 p2 p3
  obtain ⟨b1, e1⟩ := g1
  obtain ⟨b2, e2⟩ := g2
  obtain ⟨b3, e3⟩ := g3
  rw [countOf_eq] at e1 e2 e3
  have dd1 := d1 q3
  have dd2 := d2 q2
  refine ⟨i1, i2, i3, by rw [e1, e2, e3], b1, b2, b3, dd1.1, dd1.2, dd2, by omega, by omega, ?_⟩
  intro j hj n1 n2 n3
  have hs : ¬ ((0 ≤ c1 ∧ j = i1) ∨ (0 ≤ c2 ∧ j = i2) ∨ (0 ≤ c3 ∧ j = i3)) := by
    intro h
    rcases h with h | h | h
    · exact n1 h.2
    · exact n2 h.2
    · exact n3 h.2
  obtain ⟨l1, l2, l3, l4⟩ := hleft j hj hs
  rw [countOf_eq] at l1 l2 l3 l4
  clear hleft d1 d2 hs
  refine ⟨by omega, ?_, ?_, ?_⟩
  · intro he; exact l2 (by omega)
  · intro he; exact l3 (by omega)
  · intro he; exact l4 (by omega)

/-- Lines 123-154 on a grid of colour indices below 16, for a background `bg` in
0..15: the palette of a tile is the background followed by the `top3` of the
tile's histogram. -/
theorem tilePalette_eq (p : Pixmap) (w h bg x y : Nat) (hg : isGrid p w h)
    (hv : cellsBelow p 16) (hbg : bg < 16) (i1 i2 i3 : Nat) (c1 c2 c3 : Int)
    (ht : top3 ((List.range 16).map (specCount (tilePixels p w h x y) bg)) =
      ⟨c1, c2, c3, i1, i2, i3⟩) (h1 : i1 < 16) (h2 : i2 < 16) (h3 : i3 < 16) :
    ∃ v0 v1 v2 v3, tilePalette p w h (bg : Int) x y = some [v0, v1, v2, v3] ∧
      C64[bg]? = some v0 ∧ C64[i1]? = some v1 ∧ C64[i2]? = some v2 ∧ C64[i3]? = some v3 := by
  obtain ⟨v0, e0, -⟩ := C64_get bg hbg
  obtain ⟨v1, e1, -⟩ := C64_get i1 h1
  obtain ⟨v2, e2, -⟩ := C64_get i2 h2
  obtain ⟨v3, e3, -⟩ := C64_get i3 h3
  refine ⟨v0, v1, v2, v3, ?_, e0, e1, e2, e3⟩
  unfold tilePalette
  rw [charUseTile_eq p w h x y (bg : Int) hg hv]
  simp only []
  rw [(tile_hist bg (tilePixels p w h x y) (tilePixels_below p w h x y 16 hg hv)).1, ht]
  have hneg : ¬ ((bg : Int) < 0) := by omega
  rw [if_neg hneg]
  simp only [Int.toNat_ofNat, e0, e1, e2, e3]

/-- C10: for every tile of a pixel index grid with values in 0..15 and a
background `bg` in 0..15, the palette that lines 123-154 assign is
`C64[bg], C64[i1], C64[i2], C64[i3]` for three pairwise distinct indices that are
the three most frequent colours of the tile's histogram of non-background
pixels: count(i1) ≤ count(i2) ≤ count(i3), every other index has at most
count(i1), and an index left out with the count of a selected one comes after
it. -/
theorem C10_three_most_frequent (p : Pixmap) (w h bg x y : Nat) (hg : isGrid p w h)
    (hv : cellsBelow p 16) (hbg : bg < 16) :
    ∃ (i1 i2 i3 : Nat) (v0 v1 v2 v3 : Color),
      tilePalette p w h (bg : Int) x y = some [v0, v1, v2, v3] ∧
      C64[bg]? = some v0 ∧ C64[i1]? = some v1 ∧ C64[i2]? = some v2 ∧ C64[i3]? = some v3 ∧
      i1 < 16 ∧ i2 < 16 ∧ i3 < 16 ∧ i1 ≠ i2 ∧ i1 ≠ i3 ∧ i2 ≠ i3 ∧
      specCount (tilePixels p w h x y) bg i1 ≤ specCount (tilePixels p w h x y) bg i2 ∧
      specCount (tilePixels p w h x y) bg i2 ≤ specCount (tilePixels p w h x y) bg i3 ∧
      ∀ j, j < 16 → j ≠ i1 → j ≠ i2 → j ≠ i3 →
        specCount (tilePixels p w h x y) bg j ≤ specCount (tilePixels p w h x y) bg i1 ∧
        (specCount (tilePixels p w h x y) bg j = specCount (tilePixels p w h x y) bg i1 → i1 < j) ∧
        (specCount (tilePixels p w h x y) bg j = specCount (tilePixels p w h x y) bg i2 → i2 < j) ∧
        (specCount (tilePixels p w h x y) bg j = specCount (tilePixels p w h x y) bg i3 → i3 < j) := by
  have hget : ∀ j, j < 16 →
      ((List.range 16).map (specCount (tilePixels p w h x y) bg)).getD j 0 =
        specCount (tilePixels p w h x y) bg j := by
    intro j hj
    rw [List.getD_eq_getElem?_getD, List.getElem?_map, List.getElem?_range hj]
    rfl
  obtain ⟨i1, i2, i3, ht, b1, b2, b3, n12, n13, n23, o1, o2, hleft⟩ :=
    top3_spec ((List.range 16).map (specCount (tilePixels p w h x y) bg))
      (by rw [List.length_map, List.length_range])
  obtain ⟨v0, v1, v2, v3, hp, e0, e1, e2, e3⟩ :=
    tilePalette_eq p w h bg x y hg hv hbg i1 i2 i3 _ _ _ ht b1 b2 b3
  rw [hget i1 b1, hget i2 b2] at o1
  rw [hget i2 b2, hget i3 b3] at o2
  refine ⟨i1, i2, i3, v0, v1, v2, v3, hp, e0, e1, e2, e3, b1, b2, b3, n12, n13, n23, o1, o2, ?_⟩
  intro j hj m1 m2 m3
  have hl := hleft j hj m1 m2 m3
  rw [hget j hj, hget i1 b1, hget i2 b2, hget i3 b3] at hl
  exact hl

theorem C10_three_most_frequent_witness :
    isGrid tileGrid 4 8 ∧ cellsBelow tileGrid 16 ∧ 0 < 16 ∧
      ∃ (i1 i2 i3 : Nat) (v0 v1 v2 v3 : Color),
        tilePalette tileGrid 4 8 ((0 : Nat) : Int) 0 0 = some [v0, v1, v2, v3] ∧
        C64[0]? = some v0 ∧ C64[i1]? = some v1 ∧ C64[i2]? = some v2 ∧ C64[i3]? = some v3 ∧
        i1 < 16 ∧ i2 < 16 ∧ i3 < 16 ∧ i1 ≠ i2 ∧ i1 ≠ i3 ∧ i2 ≠ i3 :=
  ⟨⟨rfl, by decide⟩, by unfold cellsBelow; decide, by decide,
    match C10_three_most_frequent tileGrid 4 8 0 0 0 ⟨rfl, by decide⟩
        (by unfold cellsBelow; decide) (by decide) with
    | ⟨i1, i2, i3, v0, v1, v2, v3, hp, e0, e1, e2, e3, b1, b2, b3, n12, n13, n23, _⟩ =>
      ⟨i1, i2, i3, v0, v1, v2, v3, hp, e0, e1, e2, e3, b1, b2, b3, n12, n13, n23⟩⟩

/-! ## `color.Palette.Index` -/

theorem indexLoop_range (c : Color) (l : List Color) :
    ∀ (i : Nat) (st : Nat × Nat),
      indexLoop c l i st = st.1 ∨ (i ≤ indexLoop c l i st ∧ indexLoop c l i st < i + l.length) := by
  induction l with
  | nil => intro i st; exact Or.inl rfl
  | cons v rest ih =>
    intro i st
    simp only [indexLoop, List.length_cons]
    split
    · split
      · exact Or.inr ⟨le_refl i, by omega⟩
      · rcases ih (i + 1) (i, toUint32 ((sqDiff c.r v.r + sqDiff c.g v.g + sqDiff c.b v.b +
            sqDiff c.a v.a : Nat) : Int)) with h | h
        · exact Or.inr ⟨by rw [h], by rw [h]; show i < _; omega⟩
        · exact Or.inr ⟨by omega, by omega⟩
    · rcases ih (i + 1) st with h | h
      · exact Or.inl h
      · exact Or.inr ⟨by omega, by omega⟩

/-- The index that `Index` returns lies inside a non-empty palette. -/
theorem Index_lt (p : Palette) (c : Color) (hp : 0 < p.length) : Index p c < p.length := by
  unfold Index
  rcases indexLoop_range c p 0 (0, 4294967295) with h | h
  · rw [h]; exact hp
  · omega

/-- Looking a colour of the master palette up in the master palette gives its
own index. -/
theorem Index_C64 : ∀ k, k < 16 → ∀ c, C64[k]? = some c → Index C64 c = k := by
  decide

/-! ## Loops that fill a slice -/

/-- Nested loops over rows and columns are one loop over the flat index. -/
theorem nested_eq_flat {α : Type} (B : α → Nat → Nat → Option α) (w : Nat) (a0 : α) (n : Nat) :
    (List.range n).foldlM (fun a y => (List.range w).foldlM (fun a x => B a x y) a) a0 =
      (List.range (n * w)).foldlM (fun a k => B a (k % w) (k / w)) a0 := by
  induction n with
  | zero => simp
  | succ n ih =>
    have hmul : (n + 1) * w = n * w + w := by ring
    rw [List.range_succ, List.foldlM_append, ih, hmul, List.range_add, List.foldlM_append]
    cases hs : (List.range (n * w)).foldlM (fun a k => B a (k % w) (k / w)) a0 with
    | none => rfl
    | some s =>
      simp only [Option.some_bind, Option.bind_eq_bind, List.foldlM_cons, List.foldlM_nil,
        List.foldlM_map]
      have : ∀ x ∈ List.range w, ∀ b : α,
          B b x n = B b ((n * w + x) % w) ((n * w + x) / w) := by
        intro x hx b
        have hxw : x < w := List.mem_range.1 hx
        have h1 : (n * w + x) % w = x := by
          rw [Nat.add_comm, Nat.add_mul_mod_self_right]; exact Nat.mod_eq_of_lt hxw
        have h2 : (n * w + x) / w = n := by
          rw [Nat.add_comm, Nat.add_mul_div_right _ _ (by omega : 0 < w)]
          rw [Nat.div_eq_of_lt hxw]; simp
        rw [h1, h2]
      rw [foldlM_option_congr _ _ _ this]
      cases (List.range w).foldlM (fun a x => B a ((n * w + x) % w) ((n * w + x) / w)) s with
      | none => rfl
      | some s' => rfl

theorem take_set_succ (res : List Nat) (i v : Nat) (hi : i < res.length) :
    (res.set i v).take (i + 1) = res.take i ++ [v] := by
  induction res generalizing i with
  | nil => simp at hi
  | cons a res ih =>
    cases i with
    | zero => simp
    | succ i =>
      have hi' : i < res.length := by simpa using hi
      simp only [List.set_cons_succ, List.take_succ_cons, List.cons_append, ih i hi']

theorem drop_set_gt (res : List Nat) (i v n : Nat) (hn : i < n) :
    (res.set i v).drop n = res.drop n := by
  induction res generalizing i n with
  | nil => simp
  | cons a res ih =>
    cases n with
    | zero => omega
    | succ n =>
      cases i with
      | zero => simp
      | succ i => simp only [List.set_cons_succ, List.drop_succ_cons, ih i n (by omega)]

/-- A loop whose body writes one value at the running index `i` and increments
`i`: the values land in order from the start index on. -/
theorem writer_fold {ι : Type} (body : List Nat × Nat → ι → Option (List Nat × Nat))
    (f : ι → Nat) (l : List ι)
    (hbody : ∀ k ∈ l, ∀ st, body st k = (setByte st.1 st.2 (f k)).map fun r => (r, st.2 + 1)) :
    ∀ (res : List Nat) (i : Nat), i + l.length ≤ res.length →
      l.foldlM body (res, i) =
        some (res.take i ++ l.map f ++ res.drop (i + l.length), i + l.length) := by
  induction l with
  | nil =>
    intro res i _
    simp
  | cons k l ih =>
    intro res i hlen
    have hl : i + (l.length + 1) ≤ res.length := by simpa using hlen
    have hi : i < res.length := by omega
    rw [List.foldlM_cons, hbody k (List.mem_cons_self k l) (res, i)]
    unfold setByte
    simp only [if_pos hi, Option.map_some', Option.some_bind, Option.bind_eq_bind]
    rw [ih (fun k' hk' => hbody k' (List.mem_cons_of_mem k hk')) (res.set i (f k)) (i + 1)
      (by rw [List.length_set]; omega)]
    rw [take_set_succ res i (f k) hi, drop_set_gt res i (f k) _ (by omega)]
    have e : i + 1 + l.length = i + (l.length + 1) := by omega
    rw [e]
    simp only [List.map_cons, List.length_cons, List.append_assoc, List.singleton_append,
      List.cons_append, List.nil_append]

/-- A `writer_fold` loop that fills the whole slice from index 0. -/
theorem writer_fold_full {ι : Type} (body : List Nat × Nat → ι → Option (List Nat × Nat))
    (f : ι → Nat) (l : List ι)
    (hbody : ∀ k ∈ l, ∀ st, body st k = (setByte st.1 st.2 (f k)).map fun r => (r, st.2 + 1))
    (n : Nat) (hn : n = l.length) :
    (l.foldlM body (List.replicate n 0, 0)).map (fun st => st.1) = some (l.map f) := by
  rw [writer_fold body f l hbody (List.replicate n 0) 0 (by rw [List.length_replicate]; omega)]
  simp only [Option.map_some', List.take_zero, List.nil_append, Nat.zero_add]
  rw [List.drop_eq_nil_of_le (by rw [List.length_replicate]; omega), List.append_nil]

/-! ## Grids -/

theorem isGrid_head {α : Type} (g : List (List α)) (w h : Nat) (hg : isGrid g w h) (hw : 0 < w) :
    ∃ col0, g[0]? = some col0 ∧ col0.length = h ∧ g.headD [] = col0 := by
  obtain ⟨hl, hcol⟩ := hg
  match g, hl, hcol with
  | col0 :: rest, _, hcol =>
    exact ⟨col0, List.getElem?_cons_zero, hcol col0 (List.mem_cons_self _ _), rfl⟩
  | [], hl, _ => simp at hl; omega

theorem cellAt_some_lt {α : Type} (g : List (List α)) (w h x y : Nat) (v : α)
    (hg : isGrid g w h) (hc : cellAt g x y = some v) : x < w ∧ y < h := by
  obtain ⟨hl, hcol⟩ := hg
  unfold cellAt at hc
  cases hx : g[x]? with
  | none => rw [hx] at hc; simp at hc
  | some col =>
    rw [hx] at hc
    have hx' := (List.getElem?_eq_some_iff.1 hx)
    obtain ⟨hxl, hxe⟩ := hx'
    have hm : col ∈ g := hxe ▸ List.getElem_mem hxl
    have hy : col[y]? = some v := hc
    obtain ⟨hyl, -⟩ := List.getElem?_eq_some_iff.1 hy
    rw [hcol col hm] at hyl
    exact ⟨by omega, hyl⟩

/-- The assignment `g[x][y] = v` inside a grid: the grid keeps its size, the
cell holds `v`, and the other cells are as before. -/
theorem setCell_spec {α : Type} (g : List (List α)) (w h x y : Nat) (v : α)
    (hg : isGrid g w h) (hx : x < w) (hy : y < h) :
    setCell g x y v = some (g.set x ((g.getD x []).set y v)) ∧
    isGrid (g.set x ((g.getD x []).set y v)) w h ∧
    ∀ x' y', cellAt (g.set x ((g.getD x []).set y v)) x' y' =
      if x' = x ∧ y' = y then some v else cellAt g x' y' := by
  obtain ⟨hl, hcol⟩ := hg
  have hx' : x < g.length := by omega
  have e1 : g[x]? = some g[x] := List.getElem?_eq_getElem hx'
  have e2 : g.getD x [] = g[x] := by rw [List.getD_eq_getElem?_getD, e1]; rfl
  have hm : g[x] ∈ g := List.getElem_mem hx'
  have hy' : y < g[x].length := by rw [hcol _ hm]; exact hy
  refine ⟨?_, ⟨?_, ?_⟩, ?_⟩
  · unfold setCell
    rw [e1, e2]
    simp only [if_pos hy']
  · rw [List.length_set]; exact hl
  · intro col hc
    rcases List.mem_or_eq_of_mem_set hc with h1 | h1
    · exact hcol col h1
    · rw [h1, List.length_set, e2]; exact hcol _ hm
  · intro x' y'
    unfold cellAt
    rw [List.getElem?_set, e2]
    by_cases hxx : x = x'
    · subst hxx
      rw [if_pos rfl, if_pos hx']
      simp only [Option.some_bind, List.getElem?_set]
      by_cases hyy : y = y'
      · subst hyy
        rw [if_pos rfl, if_pos hy']
        simp
      · rw [if_neg hyy, if_neg (fun hh => hyy hh.2.symm), e1]
        rfl
    · rw [if_neg hxx, if_neg (fun hh => hxx hh.1.symm)]

/-- The loops `for y ... for x ... g[x][y] = val x y` over a grid: the cell
`(x, y)` ends up holding `val x y`. -/
theorem fill_grid {α : Type} (val : Nat → Nat → α) (w h : Nat) (g0 : List (List α))
    (hg : isGrid g0 w h) :
    ∃ g, (List.range h).foldlM
        (fun g y => (List.range w).foldlM (fun g x => setCell g x y (val x y)) g) g0 = some g ∧
      isGrid g w h ∧ ∀ x y, x < w → y < h → cellAt g x y = some (val x y) := by
  rw [nested_eq_flat (fun g x y => setCell g x y (val x y)) w g0 h]
  obtain ⟨g, hgg, hi1, hi2⟩ := foldlM_range_inv
    (fun g k => setCell g (k % w) (k / w) (val (k % w) (k / w)))
    (fun k g => isGrid g w h ∧ ∀ j, j < k → cellAt g (j % w) (j / w) = some (val (j % w) (j / w)))
    (h * w) g0 ⟨hg, fun j hj => by omega⟩
    (by
      intro k g hk hinv
      obtain ⟨hgk, hcells⟩ := hinv
      obtain ⟨hx, hy⟩ := step_coords_lt w h k hk
      obtain ⟨s1, s2, s3⟩ := setCell_spec g w h (k % w) (k / w) (val (k % w) (k / w)) hgk hx hy
      refine ⟨_, s1, s2, ?_⟩
      intro j hj
      rw [s3]
      by_cases hjk : j % w = k % w ∧ j / w = k / w
      · rw [if_pos hjk, hjk.1, hjk.2]
      · rw [if_neg hjk]
        have hne : j ≠ k := fun e => hjk (by rw [e]; exact ⟨rfl, rfl⟩)
        exact hcells j (by omega))
  refine ⟨g, hgg, hi1, ?_⟩
  intro x y hx hy
  have h1 : (y * w + x) % w = x := by
    rw [Nat.add_comm, Nat.add_mul_mod_self_right]; exact Nat.mod_eq_of_lt hx
  have h2 : (y * w + x) / w = y := by
    rw [Nat.add_comm, Nat.add_mul_div_right _ _ (by omega : 0 < w), Nat.div_eq_of_lt hx]; simp
  have hlt : y * w + x < h * w := by
    have : (y + 1) * w ≤ h * w := Nat.mul_le_mul_right w (by omega)
    rw [Nat.add_mul, Nat.one_mul] at this
    omega
  have := hi2 (y * w + x) hlt
  rw [h1, h2] at this
  exact this

theorem newC64bmp_grids (w h : Nat) :
    isGrid (newC64bmp w h).pixmap w h ∧
      isGrid (newC64bmp w h).palettes ((w + 3) / 4) ((h + 7) / 8) := by
  refine ⟨⟨List.length_replicate _ _, ?_⟩, ⟨List.length_replicate _ _, ?_⟩⟩
  · intro col hc
    rw [List.eq_of_mem_replicate hc, List.length_replicate]
  · intro col hc
    rw [List.eq_of_mem_replicate hc, List.length_replicate]

/-! ## `textmap` and `colormap` -/

theorem flat_coords (w x y : Nat) (hx : x < w) :
    (y * w + x) % w = x ∧ (y * w + x) / w = y := by
  constructor
  · rw [Nat.add_comm, Nat.add_mul_mod_self_right]; exact Nat.mod_eq_of_lt hx
  · rw [Nat.add_comm, Nat.add_mul_div_right _ _ (by omega : 0 < w), Nat.div_eq_of_lt hx]; simp

theorem flat_lt (w h x y : Nat) (hx : x < w) (hy : y < h) : y * w + x < h * w := by
  have : (y + 1) * w ≤ h * w := Nat.mul_le_mul_right w (by omega)
  rw [Nat.add_mul, Nat.one_mul] at this
  omega

theorem getD_of_length (pal : Palette) (i : Nat) (hi : i < pal.length) :
    pal[i]? = some (pal.getD i ⟨0, 0, 0, 0⟩) := by
  rw [List.getD_eq_getElem?_getD, List.getElem?_eq_getElem hi]
  rfl

/-- The function `textmap` on a grid of palettes of at least three colours:
byte `k` is the `textByte` of the palette of tile `(k % w, k / w)`. -/
theorem textmap_eq (bmp : c64bmp) (w h : Nat) (hw : 0 < w) (hg : isGrid bmp.palettes w h)
    (hlen : ∀ col ∈ bmp.palettes, ∀ pal ∈ col, 3 ≤ pal.length) :
    textmap bmp = some ((List.range (h * w)).map fun k =>
      textByte ((bmp.palettes.getD (k % w) []).getD (k / w) [])) := by
  obtain ⟨col0, e0, hc0, -⟩ := isGrid_head bmp.palettes w h hg hw
  unfold textmap
  rw [e0]
  simp only []
  rw [hg.1, hc0, nested_eq_flat]
  refine writer_fold_full _ _ _ ?_ _ (by rw [List.length_range, Nat.mul_comm])
  intro k hk st
  rw [List.mem_range] at hk
  obtain ⟨hx, hy⟩ := step_coords_lt w h k hk
  obtain ⟨c1, c2, c3⟩ := cellAt_grid bmp.palettes w h (k % w) (k / w) [] hg hx hy
  have hl := hlen _ c3 _ c2
  have g1 := getD_of_length ((bmp.palettes.getD (k % w) []).getD (k / w) []) 1 (by omega)
  have g2 := getD_of_length ((bmp.palettes.getD (k % w) []).getD (k / w) []) 2 (by omega)
  rw [c1]
  simp only [Option.some_bind, g1, g2]
  rfl

/-- The function `colormap` on a grid of palettes of at least four colours:
byte `k` is the `colorByte` of the palette of tile `(k % w, k / w)`. -/
theorem colormap_eq (bmp : c64bmp) (w h : Nat) (hw : 0 < w) (hg : isGrid bmp.palettes w h)
    (hlen : ∀ col ∈ bmp.palettes, ∀ pal ∈ col, 4 ≤ pal.length) :
    colormap bmp = some ((List.range (h * w)).map fun k =>
      colorByte ((bmp.palettes.getD (k % w) []).getD (k / w) [])) := by
  obtain ⟨col0, e0, hc0, -⟩ := isGrid_head bmp.palettes w h hg hw
  unfold colormap
  rw [e0]
  simp only []
  rw [hg.1, hc0, nested_eq_flat]
  refine writer_fold_full _ _ _ ?_ _ (by rw [List.length_range, Nat.mul_comm])
  intro k hk st
  rw [List.mem_range] at hk
  obtain ⟨hx, hy⟩ := step_coords_lt w h k hk
  obtain ⟨c1, c2, c3⟩ := cellAt_grid bmp.palettes w h (k % w) (k / w) [] hg hx hy
  have hl := hlen _ c3 _ c2
  have g3 := getD_of_length ((bmp.palettes.getD (k % w) []).getD (k / w) []) 3 (by omega)
  rw [c1]
  simp only [Option.some_bind, g3]
  rfl

theorem C64_index_lt (i : Nat) (v : Color) (h : C64[i]? = some v) : i < 16 := by
  obtain ⟨hl, -⟩ := List.getElem?_eq_some_iff.1 h
  exact hl

/-- C15: on a 40x25 grid of four-colour palettes, for a tile `(tx, ty)` whose
palette is `[C64[bg], C64[i1], C64[i2], C64[i3]]`, byte `ty * 40 + tx` of the
output of `textmap` is `i1 * 16 + i2`, which is below 256, and byte
`ty * 40 + tx` of the output of `colormap` is `i3`; looking `C64[i]` up in the
master palette gives `i`. -/
theorem C15_textmap_colormap_bytes (bmp : c64bmp) (tx ty i1 i2 i3 : Nat) (v0 v1 v2 v3 : Color)
    (hg : isGrid bmp.palettes 40 25)
    (hlen : ∀ col ∈ bmp.palettes, ∀ pal ∈ col, pal.length = 4)
    (hpal : cellAt bmp.palettes tx ty = some [v0, v1, v2, v3])
    (h1 : C64[i1]? = some v1) (h2 : C64[i2]? = some v2) (h3 : C64[i3]? = some v3) :
    ∃ tm cm, textmap bmp = some tm ∧ colormap bmp = some cm ∧
      tm.length = 1000 ∧ cm.length = 1000 ∧
      tm[ty * 40 + tx]? = some (i1 * 16 + i2) ∧ i1 * 16 + i2 < 256 ∧
      cm[ty * 40 + tx]? = some i3 ∧
      Index C64 v1 = i1 ∧ Index C64 v2 = i2 ∧ Index C64 v3 = i3 := by
  obtain ⟨htx, hty⟩ := cellAt_some_lt bmp.palettes 40 25 tx ty _ hg hpal
  have b1 := C64_index_lt i1 v1 h1
  have b2 := C64_index_lt i2 v2 h2
  have b3 := C64_index_lt i3 v3 h3
  have x1 := Index_C64 i1 b1 v1 h1
  have x2 := Index_C64 i2 b2 v2 h2
  have x3 := Index_C64 i3 b3 v3 h3
  obtain ⟨c1, -, -⟩ := cellAt_grid bmp.palettes 40 25 tx ty [] hg htx hty
  rw [hpal] at c1
  have hp : (bmp.palettes.getD tx []).getD ty [] = [v0, v1, v2, v3] := (Option.some.inj c1).symm
  obtain ⟨f1, f2⟩ := flat_coords 40 tx ty htx
  have hk := flat_lt 40 25 tx ty htx hty
  refine ⟨_, _, textmap_eq bmp 40 25 (by decide) hg (fun col hc pal hp => by
      have := hlen col hc pal hp; omega),
    colormap_eq bmp 40 25 (by decide) hg (fun col hc pal hp => by
      have := hlen col hc pal hp; omega), ?_, ?_, ?_, by omega, ?_, x1, x2, x3⟩
  · rw [List.length_map, List.length_range]
  · rw [List.length_map, List.length_range]
  · rw [List.getElem?_map, List.getElem?_range hk, Option.map_some', f1, f2, hp]
    unfold textByte
    show some ((Index C64 v1 % 256 * 16 + Index C64 v2 % 256) % 256) = _
    rw [x1, x2]
    congr 1
    omega
  · rw [List.getElem?_map, List.getElem?_range hk, Option.map_some', f1, f2, hp]
    unfold colorByte
    show some (Index C64 v3 % 256) = _
    rw [x3]
    congr 1
    omega

/-! ## `bitmap` -/

/-- Lines 245-253 on a grid: the loop over `cx` does not panic and computes
`rowByte`. -/
theorem bitmapRow_eq (p : Pixmap) (w h x yy : Nat) (hg : isGrid p w h) (hy : yy < h) :
    bitmapRow p w x yy = some (rowByte p w x yy) := by
  unfold bitmapRow rowByte
  rw [← foldlM_some]
  apply foldlM_option_congr
  intro cx _ v
  by_cases hx : x + cx < w
  · obtain ⟨c1, -, -⟩ := cellAt_grid p w h (x + cx) yy 0 hg hx hy
    simp only [if_pos hx, c1, Option.map_some']
  · simp only [if_neg hx]

/-- The loops of `bitmap` on a `w` by `h` grid with the palette grid of
`newC64bmp`: they do not panic, they write `bitmapByte` at every index of
`result` in turn, and they end with `i` equal to the length of `result`. -/
theorem bitmapState_eq (bmp : c64bmp) (w h : Nat) (hw : 0 < w)
    (hg : isGrid bmp.pixmap w h) (hpg : isGrid bmp.palettes ((w + 3) / 4) ((h + 7) / 8)) :
    bitmapState bmp =
      some ((List.range ((h + 7) / 8 * ((w + 3) / 4) * 8)).map (bitmapByte bmp.pixmap w h),
        (h + 7) / 8 * ((w + 3) / 4) * 8) := by
  obtain ⟨col0, e0, hc0, -⟩ := isGrid_head bmp.pixmap w h hg hw
  obtain ⟨pal0, f0, hp0, -⟩ := isGrid_head bmp.palettes _ _ hpg (by omega)
  unfold bitmapState
  rw [e0, f0]
  simp only []
  rw [hg.1, hc0, hpg.1, hp0, loopStep8]
  simp only [loopStep4]
  rw [nested_eq_flat]
  simp only [bitmapTile]
  rw [nested_eq_flat (fun (st : List Nat × Nat) cy k =>
    (if k / ((w + 3) / 4) * 8 + cy < h then
        bitmapRow bmp.pixmap w (k % ((w + 3) / 4) * 4) (k / ((w + 3) / 4) * 8 + cy)
      else some 0).bind fun v => (setByte st.1 st.2 v).map fun r => (r, st.2 + 1)) 8]
  rw [writer_fold _ (bitmapByte bmp.pixmap w h) _ ?_ _ 0
    (by rw [List.length_replicate, List.length_range]
        have := Nat.mul_comm ((w + 3) / 4) ((h + 7) / 8)
        rw [this]
        omega)]
  · simp only [List.take_zero, List.nil_append, Nat.zero_add, List.length_range]
    rw [List.drop_eq_nil_of_le (by
      rw [List.length_replicate, Nat.mul_comm ((w + 3) / 4) ((h + 7) / 8)]), List.append_nil]
  · intro j _ st
    unfold bitmapByte
    by_cases hy : j / 8 / ((w + 3) / 4) * 8 + j % 8 < h
    · simp only [if_pos hy, bitmapRow_eq bmp.pixmap w h _ _ hg hy, Option.some_bind]
    · simp only [if_neg hy, Option.some_bind]

theorem bitmap_eq (bmp : c64bmp) (w h : Nat) (hw : 0 < w)
    (hg : isGrid bmp.pixmap w h) (hpg : isGrid bmp.palettes ((w + 3) / 4) ((h + 7) / 8)) :
    bitmap bmp =
      some ((List.range ((h + 7) / 8 * ((w + 3) / 4) * 8)).map (bitmapByte bmp.pixmap w h)) := by
  unfold bitmap
  rw [bitmapState_eq bmp w h hw hg hpg]
  rfl

/-- The byte of a row of four pixels with values below 4 that lie inside the
grid. -/
theorem rowByte_full (p : Pixmap) (w x yy : Nat) (hx : x + 3 < w)
    (h0 : (p.getD x []).getD yy 0 < 4) (h1 : (p.getD (x + 1) []).getD yy 0 < 4)
    (h2 : (p.getD (x + 2) []).getD yy 0 < 4) (h3 : (p.getD (x + 3) []).getD yy 0 < 4) :
    rowByte p w x yy = 64 * (p.getD x []).getD yy 0 + 16 * (p.getD (x + 1) []).getD yy 0 +
      4 * (p.getD (x + 2) []).getD yy 0 + (p.getD (x + 3) []).getD yy 0 := by
  unfold rowByte
  have hr : List.range 4 = [0, 1, 2, 3] := rfl
  rw [hr]
  simp only [List.foldl_cons, List.foldl_nil, Nat.add_zero]
  rw [if_pos (by omega), if_pos (by omega), if_pos (by omega), if_pos (by omega)]
  omega

theorem cellAt_below (p : Pixmap) (w h x y n : Nat) (hg : isGrid p w h) (hv : cellsBelow p n)
    (hx : x < w) (hy : y < h) :
    cellAt p x y = some ((p.getD x []).getD y 0) ∧ (p.getD x []).getD y 0 < n := by
  obtain ⟨c1, c2, c3⟩ := cellAt_grid p w h x y 0 hg hx hy
  exact ⟨c1, hv _ c3 _ c2⟩

/-- C14: for a pixel index grid of width `w` and height `h`, multiples of 4 and
8, with all values in 0..3, and the palette grid that `newC64bmp` builds for
that size, `bitmap` returns `(w / 4) * (h / 8) * 8` bytes, and byte number
`8 * (ty * (w / 4) + tx) + cy` is
`64 * p[4tx][8ty+cy] + 16 * p[4tx+1][8ty+cy] + 4 * p[4tx+2][8ty+cy] + p[4tx+3][8ty+cy]`,
which is below 256; the four pixels are the base-4 digits of the byte, so the
grid is recovered from the bytes. -/
theorem C14_bitmap_layout (bmp : c64bmp) (w h tx ty cy : Nat) (hw : w % 4 = 0) (hh : h % 8 = 0)
    (hg : isGrid bmp.pixmap w h) (hpg : isGrid bmp.palettes ((w + 3) / 4) ((h + 7) / 8))
    (hv : cellsBelow bmp.pixmap 4) (htx : tx < w / 4) (hty : ty < h / 8) (hcy : cy < 8) :
    ∃ (bm : List Nat) (p0 p1 p2 p3 : Nat), bitmap bmp = some bm ∧
      bm.length = w / 4 * (h / 8) * 8 ∧
      cellAt bmp.pixmap (4 * tx) (8 * ty + cy) = some p0 ∧
      cellAt bmp.pixmap (4 * tx + 1) (8 * ty + cy) = some p1 ∧
      cellAt bmp.pixmap (4 * tx + 2) (8 * ty + cy) = some p2 ∧
      cellAt bmp.pixmap (4 * tx + 3) (8 * ty + cy) = some p3 ∧
      bm[8 * (ty * (w / 4) + tx) + cy]? = some (64 * p0 + 16 * p1 + 4 * p2 + p3) ∧
      64 * p0 + 16 * p1 + 4 * p2 + p3 < 256 ∧
      p0 = (64 * p0 + 16 * p1 + 4 * p2 + p3) / 64 ∧
      p1 = (64 * p0 + 16 * p1 + 4 * p2 + p3) / 16 % 4 ∧
      p2 = (64 * p0 + 16 * p1 + 4 * p2 + p3) / 4 % 4 ∧
      p3 = (64 * p0 + 16 * p1 + 4 * p2 + p3) % 4 := by
  have hcw : (w + 3) / 4 = w / 4 := by omega
  have hch : (h + 7) / 8 = h / 8 := by omega
  have hwpos : 0 < w := by omega
  have hy : 8 * ty + cy < h := by omega
  obtain ⟨a0, b0⟩ := cellAt_below bmp.pixmap w h (4 * tx) (8 * ty + cy) 4 hg hv (by omega) hy
  obtain ⟨a1, b1⟩ := cellAt_below bmp.pixmap w h (4 * tx + 1) (8 * ty + cy) 4 hg hv (by omega) hy
  obtain ⟨a2, b2⟩ := cellAt_below bmp.pixmap w h (4 * tx + 2) (8 * ty + cy) 4 hg hv (by omega) hy
  obtain ⟨a3, b3⟩ := cellAt_below bmp.pixmap w h (4 * tx + 3) (8 * ty + cy) 4 hg hv (by omega) hy
  refine ⟨_, _, _, _, _, bitmap_eq bmp w h hwpos hg hpg, ?_, a0, a1, a2, a3, ?_, by omega,
    by omega, by omega, by omega, by omega⟩
  · rw [List.length_map, List.length_range, hcw, hch, Nat.mul_comm (h / 8) (w / 4)]
  · obtain ⟨f1, f2⟩ := flat_coords (w / 4) tx ty htx
    have hk := flat_lt (w / 4) (h / 8) tx ty htx hty
    have hj : 8 * (ty * (w / 4) + tx) + cy < (h + 7) / 8 * ((w + 3) / 4) * 8 := by
      rw [hcw, hch]; omega
    have j1 : (8 * (ty * (w / 4) + tx) + cy) / 8 = ty * (w / 4) + tx := by omega
    have j2 : (8 * (ty * (w / 4) + tx) + cy) % 8 = cy := by omega
    rw [List.getElem?_map, List.getElem?_range hj, Option.map_some']
    unfold bitmapByte
    rw [j1, j2, hcw, f1, f2, Nat.mul_comm ty 8, Nat.mul_comm tx 4, if_pos hy,
      rowByte_full bmp.pixmap w (4 * tx) (8 * ty + cy) (by omega) b0 b1 b2 b3]

theorem C14_bitmap_layout_witness :
    4 % 4 = 0 ∧ 8 % 8 = 0 ∧ isGrid bitBmp.pixmap 4 8 ∧
      isGrid bitBmp.palettes ((4 + 3) / 4) ((8 + 7) / 8) ∧ cellsBelow bitBmp.pixmap 4 ∧
      ∃ (bm : List Nat) (p0 p1 p2 p3 : Nat), bitmap bitBmp = some bm ∧
        bm.length = 4 / 4 * (8 / 8) * 8 ∧
        bm[8 * (0 * (4 / 4) + 0) + 3]? = some (64 * p0 + 16 * p1 + 4 * p2 + p3) ∧
        64 * p0 + 16 * p1 + 4 * p2 + p3 = 255 :=
  ⟨rfl, rfl, ⟨rfl, by decide⟩, ⟨rfl, by decide⟩, by unfold cellsBelow; decide,
    match C14_bitmap_layout bitBmp 4 8 0 0 3 rfl rfl ⟨rfl, by decide⟩ ⟨rfl, by decide⟩
        (by unfold cellsBelow; decide) (by decide) (by decide) (by decide) with
    | ⟨bm, p0, p1, p2, p3, hb, hl, a0, a1, a2, a3, hbyte, _⟩ =>
      ⟨bm, p0, p1, p2, p3, hb, hl, hbyte, by
        have e0 : p0 = 3 := (Option.some.inj a0).symm
        have e1 : p1 = 3 := (Option.some.inj a1).symm
        have e2 : p2 = 3 := (Option.some.inj a2).symm
        have e3 : p3 = 3 := (Option.some.inj a3).symm
        rw [e0, e1, e2, e3]⟩⟩

theorem plannedBmp_grid : isGrid plannedBmp.palettes 40 25 := by
  refine ⟨List.length_replicate _ _, ?_⟩
  intro col hc
  rw [List.eq_of_mem_replicate hc, List.length_replicate]

theorem plannedBmp_palettes : ∀ col ∈ plannedBmp.palettes, ∀ pal ∈ col, pal.length = 4 := by
  intro col hc pal hp
  rw [List.eq_of_mem_replicate hc] at hp
  rw [List.eq_of_mem_replicate hp]
  rfl

theorem C15_textmap_colormap_bytes_witness :
    isGrid plannedBmp.palettes 40 25 ∧
      cellAt plannedBmp.palettes 7 3 =
        some [rgba 0x00 0x00 0x00 0xFF, rgba 0xFF 0xFF 0xFF 0xFF, rgba 0x8A 0x41 0x33 0xFF,
          rgba 0x2B 0xBC 0xD8 0xFF] ∧
      ∃ tm cm, textmap plannedBmp = some tm ∧ colormap plannedBmp = some cm ∧
        tm.length = 1000 ∧ cm.length = 1000 ∧
        tm[3 * 40 + 7]? = some (1 * 16 + 2) ∧ 1 * 16 + 2 < 256 ∧ cm[3 * 40 + 7]? = some 3 ∧
        Index C64 (rgba 0xFF 0xFF 0xFF 0xFF) = 1 ∧ Index C64 (rgba 0x8A 0x41 0x33 0xFF) = 2 ∧
        Index C64 (rgba 0x2B 0xBC 0xD8 0xFF) = 3 :=
  ⟨plannedBmp_grid, by decide,
    C15_textmap_colormap_bytes plannedBmp 7 3 1 2 3 (rgba 0x00 0x00 0x00 0xFF)
      (rgba 0xFF 0xFF 0xFF 0xFF) (rgba 0x8A 0x41 0x33 0xFF) (rgba 0x2B 0xBC 0xD8 0xFF)
      plannedBmp_grid plannedBmp_palettes (by decide) rfl rfl rfl⟩

/-! ## The palettes of the tiles -/

/-- Lines 123-154 on a grid of colour indices below 16 with a background in
0..15: no index expression panics, and the palette has four master colours, the
first of which is the background. -/
theorem tilePalette_some (p : Pixmap) (w h bg x y : Nat) (hg : isGrid p w h)
    (hv : cellsBelow p 16) (hbg : bg < 16) :
    ∃ v0 v1 v2 v3, tilePalette p w h (bg : Int) x y = some [v0, v1, v2, v3] ∧
      C64[bg]? = some v0 ∧ v0 ∈ C64 ∧ v1 ∈ C64 ∧ v2 ∈ C64 ∧ v3 ∈ C64 := by
  obtain ⟨i1, i2, i3, ht, b1, b2, b3, -⟩ :=
    top3_spec ((List.range 16).map (specCount (tilePixels p w h x y) bg))
      (by rw [List.length_map, List.length_range])
  obtain ⟨v0, v1, v2, v3, hp, e0, e1, e2, e3⟩ :=
    tilePalette_eq p w h bg x y hg hv hbg i1 i2 i3 _ _ _ ht b1 b2 b3
  exact ⟨v0, v1, v2, v3, hp, e0, List.getElem?_mem e0, List.getElem?_mem e1,
    List.getElem?_mem e2, List.getElem?_mem e3⟩

/-- Lines 121-156 on a grid of colour indices below 16 with a background in
0..15: the loops do not panic, the palette grid keeps its size, and the cell of
tile `(tx, ty)` holds the palette of the tile with top left pixel
`(4 tx, 8 ty)`. -/
theorem assignPalettes_spec (p : Pixmap) (w h bg : Nat) (hg : isGrid p w h)
    (hv : cellsBelow p 16) (hbg : bg < 16) (pals0 : List (List Palette))
    (hp0 : isGrid pals0 ((w + 3) / 4) ((h + 7) / 8)) :
    ∃ pals, assignPalettes p w h (bg : Int) pals0 = some pals ∧
      isGrid pals ((w + 3) / 4) ((h + 7) / 8) ∧
      ∀ tx ty, tx < (w + 3) / 4 → ty < (h + 7) / 8 →
        ∃ pal, tilePalette p w h (bg : Int) (4 * tx) (8 * ty) = some pal ∧
          cellAt pals tx ty = some pal := by
  have hb : ∀ (tx ty : Nat) (pals : List (List Palette)),
      ((tilePalette p w h (bg : Int) (tx * 4) (ty * 8)).bind fun pal =>
        setCell pals (tx * 4 / 4) (ty * 8 / 8) pal) =
      setCell pals tx ty ((tilePalette p w h (bg : Int) (tx * 4) (ty * 8)).getD []) := by
    intro tx ty pals
    obtain ⟨v0, v1, v2, v3, e, -⟩ := tilePalette_some p w h bg (tx * 4) (ty * 8) hg hv hbg
    rw [e, Nat.mul_div_cancel _ (by decide : 0 < 4), Nat.mul_div_cancel _ (by decide : 0 < 8)]
    rfl
  unfold assignPalettes
  rw [loopStep8]
  simp only [loopStep4, hb]
  obtain ⟨pals, e, hgrid, hcells⟩ := fill_grid
    (fun tx ty => (tilePalette p w h (bg : Int) (tx * 4) (ty * 8)).getD [])
    ((w + 3) / 4) ((h + 7) / 8) pals0 hp0
  refine ⟨pals, e, hgrid, ?_⟩
  intro tx ty htx hty
  obtain ⟨v0, v1, v2, v3, e', -⟩ := tilePalette_some p w h bg (4 * tx) (8 * ty) hg hv hbg
  refine ⟨_, e', ?_⟩
  rw [hcells tx ty htx hty, Nat.mul_comm tx 4, Nat.mul_comm ty 8, e']
  rfl

/-! ## Grids of any size -/

/-- C17: for every width and height of at least 1, multiples of 4 and 8 or not,
and every pixel index grid of that size with values in 0..15, with the palette
grid that `newC64bmp` builds: the background search does not panic; for every
tile of the `ceil(w/4)` by `ceil(h/8)` tile grid the histogram loops, which
read the grid for both passes, do not panic whatever the background, and the
assignment to `bmp.palettes[x/4][y/8]` lands inside the palette grid; for a
background in 0..15, as `convertMC` has it, the palette assignment does not
panic and gives every cell of the palette grid a four-colour palette; and
`bitmap` does not panic and writes exactly `ceil(w/4) * ceil(h/8) * 8` bytes,
which fill its result. -/
theorem C17_tile_loops_in_bounds (bmp : c64bmp) (w h : Nat) (hw : 0 < w)
    (hg : isGrid bmp.pixmap w h) (hpg : isGrid bmp.palettes ((w + 3) / 4) ((h + 7) / 8))
    (hv : cellsBelow bmp.pixmap 16) :
    (∃ (besterr : Nat) (bg : Int), bgSearch bmp.pixmap w h = some (besterr, bg)) ∧
    (∀ (bg : Int) (tx ty : Nat), tx < (w + 3) / 4 → ty < (h + 7) / 8 →
      4 * tx < w ∧ 8 * ty < h ∧
      (∃ st, charUseTile bmp.pixmap w h bg (4 * tx) (8 * ty) = some st) ∧
      ∀ pal : Palette, ∃ pals, setCell bmp.palettes (4 * tx / 4) (8 * ty / 8) pal = some pals ∧
        isGrid pals ((w + 3) / 4) ((h + 7) / 8)) ∧
    (∀ bg : Nat, bg < 16 →
      ∃ pals, assignPalettes bmp.pixmap w h (bg : Int) bmp.palettes = some pals ∧
        isGrid pals ((w + 3) / 4) ((h + 7) / 8) ∧
        ∀ tx ty, tx < (w + 3) / 4 → ty < (h + 7) / 8 →
          ∃ pal, cellAt pals tx ty = some pal ∧ pal.length = 4) ∧
    ∃ result, bitmapState bmp = some (result, (w + 3) / 4 * ((h + 7) / 8) * 8) ∧
      result.length = (w + 3) / 4 * ((h + 7) / 8) * 8 ∧ bitmap bmp = some result := by
  refine ⟨?_, ?_, ?_, ?_⟩
  · have e := bgSearch_eq bmp.pixmap w h hg hv
    generalize (List.range 16).foldl (fun (st : Nat × Int) (b : Nat) =>
        if specCost bmp.pixmap w h b < st.1 then (specCost bmp.pixmap w h b, (b : Int)) else st)
      (65000, -1) = st at e
    exact ⟨st.1, st.2, e⟩
  · intro bg tx ty htx hty
    have h1 : 4 * tx < w := by omega
    have h2 : 8 * ty < h := by omega
    have h3 := charUseTile_eq bmp.pixmap w h (4 * tx) (8 * ty) bg hg hv
    refine ⟨h1, h2, ⟨(tilePixels bmp.pixmap w h (4 * tx) (8 * ty)).foldl (histStep bg)
      (List.replicate 16 0, 0), h3⟩, ?_⟩
    intro pal
    have d4 : 4 * tx / 4 = tx := Nat.mul_div_cancel_left tx (by decide : 0 < 4)
    have d8 : 8 * ty / 8 = ty := Nat.mul_div_cancel_left ty (by decide : 0 < 8)
    rw [d4, d8]
    obtain ⟨s1, s2, -⟩ := setCell_spec bmp.palettes ((w + 3) / 4) ((h + 7) / 8) tx ty pal hpg
      htx hty
    exact ⟨bmp.palettes.set tx ((bmp.palettes.getD tx []).set ty pal), s1, s2⟩
  · intro bg hbg
    obtain ⟨pals, e, hgrid, hcells⟩ := assignPalettes_spec bmp.pixmap w h bg hg hv hbg
      bmp.palettes hpg
    refine ⟨pals, e, hgrid, ?_⟩
    intro tx ty htx hty
    obtain ⟨pal, hp, hc⟩ := hcells tx ty htx hty
    obtain ⟨v0, v1, v2, v3, e', -⟩ :=
      tilePalette_some bmp.pixmap w h bg (4 * tx) (8 * ty) hg hv hbg
    rw [e'] at hp
    refine ⟨pal, hc, ?_⟩
    rw [← Option.some.inj hp]
    rfl
  · refine ⟨(List.range ((w + 3) / 4 * ((h + 7) / 8) * 8)).map (bitmapByte bmp.pixmap w h),
      ?_, ?_, ?_⟩
    · rw [bitmapState_eq bmp w h hw hg hpg, Nat.mul_comm ((h + 7) / 8) ((w + 3) / 4)]
    · rw [List.length_map, List.length_range]
    · rw [bitmap_eq bmp w h hw hg hpg, Nat.mul_comm ((h + 7) / 8) ((w + 3) / 4)]

theorem C17_tile_loops_in_bounds_witness :
    0 < 5 ∧ isGrid edgeBmp.pixmap 5 9 ∧
      isGrid edgeBmp.palettes ((5 + 3) / 4) ((9 + 7) / 8) ∧ cellsBelow edgeBmp.pixmap 16 ∧
      (∃ (besterr : Nat) (bg : Int), bgSearch edgeBmp.pixmap 5 9 = some (besterr, bg)) ∧
      ∃ result, bitmapState edgeBmp = some (result, (5 + 3) / 4 * ((9 + 7) / 8) * 8) ∧
        result.length = (5 + 3) / 4 * ((9 + 7) / 8) * 8 ∧ bitmap edgeBmp = some result :=
  ⟨by decide, ⟨rfl, by decide⟩, ⟨rfl, by decide⟩, by unfold cellsBelow; decide,
    (C17_tile_loops_in_bounds edgeBmp 5 9 (by decide) ⟨rfl, by decide⟩
      ⟨rfl, by decide⟩ (by unfold cellsBelow; decide)).1,
    (C17_tile_loops_in_bounds edgeBmp 5 9 (by decide) ⟨rfl, by decide⟩
      ⟨rfl, by decide⟩ (by unfold cellsBelow; decide)).2.2.2⟩

/-! ## `convertMC` up to the palettes of the tiles -/

theorem convertMCGuard_ok (src : Image) (w h : Nat)
    (hok : convertMCGuard src = Except.ok (w, h)) : w = 160 ∧ h = 200 := by
  unfold convertMCGuard at hok
  simp only [] at hok
  by_cases hc : src.w / 2 ≠ 160 ∨ src.h ≠ 200
  · rw [if_pos hc] at hok
    cases hok
  · rw [if_neg hc] at hok
    have e : (src.w / 2, src.h) = (w, h) := by
      injection hok
    have e1 : src.w / 2 = w := congrArg Prod.fst e
    have e2 : src.h = h := congrArg Prod.snd e
    have n1 : ¬ src.w / 2 ≠ 160 := fun hh => hc (Or.inl hh)
    have n2 : ¬ src.h ≠ 200 := fun hh => hc (Or.inr hh)
    omega

theorem cells_of_mem {α : Type} (g : List (List α)) (w h : Nat) (hg : isGrid g w h)
    (col : List α) (hc : col ∈ g) (c : α) (hcc : c ∈ col) :
    ∃ x y, x < w ∧ y < h ∧ cellAt g x y = some c := by
  obtain ⟨x, hx, ex⟩ := List.getElem_of_mem hc
  obtain ⟨y, hy, ey⟩ := List.getElem_of_mem hcc
  refine ⟨x, y, by rw [← hg.1]; exact hx, by rw [← hg.2 col hc]; exact hy, ?_⟩
  unfold cellAt
  rw [List.getElem?_eq_getElem hx, ex]
  show col[y]? = some c
  rw [List.getElem?_eq_getElem hy, ey]

/-- Lines 47-156 of `convertMC` for a half width `w` and a height `h` with fewer
than 2032 tiles: no step panics; the pixel index grid has the indices that
`C64.Index` gives for the pixels of `pass1`, the background is the one the
search finds, in 0..15, and every tile has its palette. -/
theorem convertMCPlan_spec (src : Image) (w h : Nat)
    (hsmall : (h + 7) / 8 * ((w + 3) / 4 * 32) < 65000) :
    ∃ (bmp : c64bmp) (pass1 : RGBAImage) (bg : Nat),
      ToPalette (downsample src w h).toImage C64 = some pass1 ∧
      convertMCPlan src w h = some bmp ∧ bmp.src = downsample src w h ∧
      bmp.bg = (bg : Int) ∧ bg < 16 ∧ isGrid bmp.pixmap w h ∧ cellsBelow bmp.pixmap 16 ∧
      (∀ x y, x < w → y < h →
        cellAt bmp.pixmap x y = some (Index C64 (pass1.At (x : Int) (y : Int)))) ∧
      bgSearch bmp.pixmap w h = some (specCost bmp.pixmap w h bg, (bg : Int)) ∧
      isGrid bmp.palettes ((w + 3) / 4) ((h + 7) / 8) ∧
      ∀ tx ty, tx < (w + 3) / 4 → ty < (h + 7) / 8 →
        ∃ pal, tilePalette bmp.pixmap w h (bg : Int) (4 * tx) (8 * ty) = some pal ∧
          cellAt bmp.palettes tx ty = some pal := by
  obtain ⟨s, hs, -⟩ := ToPaletteState_spec (downsample src w h).toImage C64 (by decide)
  have hpass : ToPalette (downsample src w h).toImage C64 = some s.ctx.dest := by
    unfold ToPalette; rw [hs]; rfl
  obtain ⟨p, hfill, hgrid, hcells⟩ := fill_grid
    (fun x y => Index C64 (s.ctx.dest.At (x : Int) (y : Int))) w h (newC64bmp w h).pixmap
    (newC64bmp_grids w h).1
  have hbelow : cellsBelow p 16 := by
    intro col hc c hcc
    obtain ⟨x, y, hx, hy, e⟩ := cells_of_mem p w h hgrid col hc c hcc
    rw [hcells x y hx hy] at e
    rw [← Option.some.inj e]
    exact Index_lt C64 _ (by decide)
  obtain ⟨bg, hbg, hsearch, -, -⟩ := bgSearch_spec p w h hgrid hbelow hsmall
  obtain ⟨pals, hassign, hpg, hpals⟩ := assignPalettes_spec p w h bg hgrid hbelow hbg
    (newC64bmp w h).palettes (newC64bmp_grids w h).2
  refine ⟨⟨downsample src w h, p, pals, (bg : Int)⟩, s.ctx.dest, bg, hpass, ?_, rfl, rfl, hbg,
    hgrid, hbelow, hcells, hsearch, hpg, hpals⟩
  unfold convertMCPlan
  rw [hpass]
  simp only [Option.some_bind]
  unfold fillPixmap
  rw [hfill]
  simp only [Option.some_bind, hsearch, hassign, Option.map_some']

/-- C11: for a source image that passes the size test of `convertMC`, lines
47-156 do not panic, the background is an index `bg` in 0..15, and after the
per-tile palette assignment every cell of the 40x25 palette grid holds a palette
of exactly four colours whose slot 0 is the master palette entry `C64[bg]`. -/
theorem C11_palette_grid (src : Image) (w h : Nat)
    (hok : convertMCGuard src = Except.ok (w, h)) :
    ∃ (bmp : c64bmp) (bg : Nat) (v0 : Color), convertMCPlan src w h = some bmp ∧
      bmp.bg = (bg : Int) ∧ bg < 16 ∧ C64[bg]? = some v0 ∧ isGrid bmp.palettes 40 25 ∧
      ∀ tx ty, tx < 40 → ty < 25 →
        ∃ pal, cellAt bmp.palettes tx ty = some pal ∧ pal.length = 4 ∧ pal[0]? = some v0 := by
  obtain ⟨rfl, rfl⟩ := convertMCGuard_ok src w h hok
  obtain ⟨bmp, pass1, bg, -, hplan, -, hbg, hlt, hgrid, hbelow, -, -, hpg, hpals⟩ :=
    convertMCPlan_spec src 160 200 (by decide)
  obtain ⟨v0, e0, -⟩ := C64_get bg hlt
  refine ⟨bmp, bg, v0, hplan, hbg, hlt, e0, hpg, ?_⟩
  intro tx ty htx hty
  obtain ⟨pal, hp, hc⟩ := hpals tx ty htx hty
  obtain ⟨u0, u1, u2, u3, e, f0, -⟩ :=
    tilePalette_some bmp.pixmap 160 200 bg (4 * tx) (8 * ty) hgrid hbelow hlt
  rw [e] at hp
  have hpal : pal = [u0, u1, u2, u3] := (Option.some.inj hp).symm
  rw [e0] at f0
  have hv : v0 = u0 := Option.some.inj f0
  refine ⟨pal, hc, ?_, ?_⟩
  · rw [hpal]; rfl
  · rw [hpal, hv]; rfl

theorem C11_palette_grid_witness :
    convertMCGuard stepImage = Except.ok (160, 200) ∧
      ∃ (bmp : c64bmp) (bg : Nat) (v0 : Color), convertMCPlan stepImage 160 200 = some bmp ∧
        bmp.bg = (bg : Int) ∧ bg < 16 ∧ C64[bg]? = some v0 ∧ isGrid bmp.palettes 40 25 ∧
        ∀ tx ty, tx < 40 → ty < 25 →
          ∃ pal, cellAt bmp.palettes tx ty = some pal ∧ pal.length = 4 ∧ pal[0]? = some v0 :=
  ⟨rfl, C11_palette_grid stepImage 160 200 rfl⟩

/-! ## The final diffusion pass -/

theorem c64bmp_set_pixmap (ctx : c64bmp) (x y : Nat) (c : Color) :
    (c64bmpOps.Set ctx x y c).src = ctx.src ∧ (c64bmpOps.Set ctx x y c).palettes = ctx.palettes ∧
    (c64bmpOps.Set ctx x y c).bg = ctx.bg ∧
    (c64bmpOps.Set ctx x y c).pixmap = ctx.pixmap.set x ((ctx.pixmap.getD x []).set y
      (Index (c64bmpOps.PaletteAt ctx x y) c)) :=
  ⟨rfl, rfl, rfl, rfl⟩

/-- The pass `dither.Convert(bmp)` on a `c64bmp` whose grids have the sizes that
`newC64bmp` gives them and whose palettes have four colours: it does not panic,
it leaves the image, the palettes and the background as they are, and every
cell of the pixel index grid ends up with an index below 4. -/
theorem Convert_c64bmp (bmp : c64bmp) (w h : Nat) (hw : 0 < w) (hg : isGrid bmp.pixmap w h)
    (hpg : isGrid bmp.palettes ((w + 3) / 4) ((h + 7) / 8))
    (hlen : ∀ col ∈ bmp.palettes, ∀ pal ∈ col, pal.length = 4) :
    ∃ s, Convert c64bmpOps bmp = some s ∧ s.ctx.src = bmp.src ∧
      s.ctx.palettes = bmp.palettes ∧ s.ctx.bg = bmp.bg ∧ isGrid s.ctx.pixmap w h ∧
      ∀ x y, x < w → y < h → ∃ v, cellAt s.ctx.pixmap x y = some v ∧ v < 4 := by
  obtain ⟨col0, -, hc0, hhead⟩ := isGrid_head bmp.pixmap w h hg hw
  have hW : c64bmpOps.Width bmp = w := hg.1
  have hH : c64bmpOps.Height bmp = h := by
    show (bmp.pixmap.headD []).length = h
    rw [hhead, hc0]
  obtain ⟨s, hs, hinv⟩ := convertSteps_induct c64bmpOps bmp (h * w)
    (fun k s => s.ctx.src = bmp.src ∧ s.ctx.palettes = bmp.palettes ∧ s.ctx.bg = bmp.bg ∧
      isGrid s.ctx.pixmap w h ∧
      ∀ j, j < k → ∃ v, cellAt s.ctx.pixmap (j % w) (j / w) = some v ∧ v < 4)
    ⟨rfl, rfl, rfl, hg, fun j hj => by omega⟩
    (by
      intro k s hk hinv
      obtain ⟨i1, i2, i3, i4, i5⟩ := hinv
      rw [hW, hH]
      obtain ⟨hx, hy⟩ := step_coords_lt w h k hk
      obtain ⟨c1, c2, c3⟩ := cellAt_grid bmp.palettes _ _ (k % w / 4) (k / w / 8) [] hpg
        (by omega) (by omega)
      have hl := hlen _ c3 _ c2
      have hpal : c64bmpOps.PaletteAt s.ctx (k % w) (k / w) =
          (bmp.palettes.getD (k % w / 4) []).getD (k / w / 8) [] := by
        show (s.ctx.palettes.getD (k % w / 4) []).getD (k / w / 8) [] = _
        rw [i2]
      have hne : c64bmpOps.PaletteAt s.ctx (k % w) (k / w) ≠ [] := by
        rw [hpal]
        intro he
        rw [he] at hl
        simp at hl
      obtain ⟨target, s', -, -, hstep, hctx, -, -⟩ :=
        pixelStep_some c64bmpOps w h s (k % w) (k / w) hne
      obtain ⟨q1, q2, q3, q4⟩ := c64bmp_set_pixmap s.ctx (k % w) (k / w) target
      obtain ⟨s1, s2, s3⟩ := setCell_spec s.ctx.pixmap w h (k % w) (k / w)
        (Index (c64bmpOps.PaletteAt s.ctx (k % w) (k / w)) target) i4 hx hy
      refine ⟨s', hstep, ?_, ?_, ?_, ?_, ?_⟩
      · rw [hctx, q1, i1]
      · rw [hctx, q2, i2]
      · rw [hctx, q3, i3]
      · rw [hctx, q4]; exact s2
      · intro j hj
        rw [hctx, q4, s3]
        by_cases hjk : j % w = k % w ∧ j / w = k / w
        · rw [if_pos hjk]
          refine ⟨_, rfl, ?_⟩
          have := Index_lt (c64bmpOps.PaletteAt s.ctx (k % w) (k / w)) target
            (by rw [hpal, hl]; decide)
          rw [hpal, hl] at this
          rw [hpal]
          exact this
        · rw [if_neg hjk]
          have hne' : j ≠ k := fun e => hjk (by rw [e]; exact ⟨rfl, rfl⟩)
          exact i5 j (by omega))
    (h * w) (le_refl _)
  obtain ⟨i1, i2, i3, i4, i5⟩ := hinv
  refine ⟨s, ?_, i1, i2, i3, i4, ?_⟩
  · rw [Convert_eq_steps, hW, hH]; exact hs
  · intro x y hx hy
    obtain ⟨f1, f2⟩ := flat_coords w x y hx
    have := i5 (y * w + x) (flat_lt w h x y hx hy)
    rw [f1, f2] at this
    exact this

/-- Every palette of the planned `c64bmp` has four colours. -/
theorem plan_palettes (src : Image) (w h : Nat)
    (hsmall : (h + 7) / 8 * ((w + 3) / 4 * 32) < 65000) :
    ∃ (bmp : c64bmp) (bg : Nat), convertMCPlan src w h = some bmp ∧ bmp.bg = (bg : Int) ∧
      bg < 16 ∧ isGrid bmp.pixmap w h ∧ cellsBelow bmp.pixmap 16 ∧
      bgSearch bmp.pixmap w h = some (specCost bmp.pixmap w h bg, (bg : Int)) ∧
      isGrid bmp.palettes ((w + 3) / 4) ((h + 7) / 8) ∧
      ∀ col ∈ bmp.palettes, ∀ pal ∈ col, pal.length = 4 := by
  obtain ⟨bmp, pass1, bg, -, hplan, -, hbg, hlt, hgrid, hbelow, -, hsearch, hpg, hpals⟩ :=
    convertMCPlan_spec src w h hsmall
  refine ⟨bmp, bg, hplan, hbg, hlt, hgrid, hbelow, hsearch, hpg, ?_⟩
  intro col hc pal hp
  obtain ⟨tx, ty, htx, hty, e⟩ := cells_of_mem bmp.palettes _ _ hpg col hc pal hp
  obtain ⟨pal', hp', hc'⟩ := hpals tx ty htx hty
  obtain ⟨u0, u1, u2, u3, e', -⟩ :=
    tilePalette_some bmp.pixmap w h bg (4 * tx) (8 * ty) hgrid hbelow hlt
  rw [hc'] at e
  rw [e'] at hp'
  rw [← Option.some.inj e, ← Option.some.inj hp']
  rfl

/-- Lines 47-157 of `convertMC` for a half width `w ≥ 1` and a height `h` with
fewer than 2032 tiles: nothing panics, and after the final pass every cell of
the pixel index grid is below 4. -/
theorem convertMCDither_spec (src : Image) (w h : Nat) (hw : 0 < w)
    (hsmall : (h + 7) / 8 * ((w + 3) / 4 * 32) < 65000) :
    ∃ (plan bmp : c64bmp) (bg : Nat), convertMCPlan src w h = some plan ∧
      convertMCDither src w h = some bmp ∧ plan.bg = (bg : Int) ∧ bg < 16 ∧
      bgSearch plan.pixmap w h = some (specCost plan.pixmap w h bg, (bg : Int)) ∧
      bmp.src = plan.src ∧ bmp.palettes = plan.palettes ∧ bmp.bg = plan.bg ∧
      isGrid bmp.pixmap w h ∧ isGrid bmp.palettes ((w + 3) / 4) ((h + 7) / 8) ∧
      (∀ col ∈ bmp.palettes, ∀ pal ∈ col, pal.length = 4) ∧
      ∀ x y, x < w → y < h → ∃ v, cellAt bmp.pixmap x y = some v ∧ v < 4 := by
  obtain ⟨plan, bg, hplan, hbg, hlt, hgrid, -, hsearch, hpg, hlen⟩ := plan_palettes src w h hsmall
  obtain ⟨s, hs, r1, r2, r3, r4, r5⟩ := Convert_c64bmp plan w h hw hgrid hpg hlen
  refine ⟨plan, s.ctx, bg, hplan, ?_, hbg, hlt, hsearch, r1, r2, r3, r4, by rw [r2]; exact hpg,
    by rw [r2]; exact hlen, r5⟩
  unfold convertMCDither
  rw [hplan]
  simp only [Option.some_bind, hs, Option.map_some']

/-- C12: for a source image that passes the size test of `convertMC`, lines
47-157 do not panic, and after the final diffusion pass the value of the pixel
index grid at every pixel `(x, y)` is in 0..3 and is a valid index into the
four-colour palette of the tile `(x / 4, y / 8)`. -/
theorem C12_pixel_indices_valid (src : Image) (w h : Nat)
    (hok : convertMCGuard src = Except.ok (w, h)) :
    ∃ bmp : c64bmp, convertMCDither src w h = some bmp ∧ isGrid bmp.pixmap 160 200 ∧
      ∀ x y, x < 160 → y < 200 →
        ∃ (v : Nat) (pal : Palette) (c : Color), cellAt bmp.pixmap x y = some v ∧ v < 4 ∧
          cellAt bmp.palettes (x / 4) (y / 8) = some pal ∧ pal.length = 4 ∧
          c64bmpOps.PaletteAt bmp x y = pal ∧ pal[v]? = some c := by
  obtain ⟨rfl, rfl⟩ := convertMCGuard_ok src w h hok
  obtain ⟨plan, bmp, bg, -, hd, -, -, -, -, -, -, hgrid, hpg, hlen, hcells⟩ :=
    convertMCDither_spec src 160 200 (by decide) (by decide)
  refine ⟨bmp, hd, hgrid, ?_⟩
  intro x y hx hy
  obtain ⟨v, hv, hv4⟩ := hcells x y hx hy
  obtain ⟨c1, c2, c3⟩ := cellAt_grid bmp.palettes _ _ (x / 4) (y / 8) [] hpg
    (by omega) (by omega)
  have hl := hlen _ c3 _ c2
  have hvl : v < ((bmp.palettes.getD (x / 4) []).getD (y / 8) []).length := by rw [hl]; exact hv4
  exact ⟨v, _, _, hv, hv4, c1, hl, rfl, List.getElem?_eq_getElem hvl⟩

theorem C12_pixel_indices_valid_witness :
    convertMCGuard stepImage = Except.ok (160, 200) ∧
      ∃ bmp : c64bmp, convertMCDither stepImage 160 200 = some bmp ∧
        isGrid bmp.pixmap 160 200 ∧
        ∀ x y, x < 160 → y < 200 →
          ∃ (v : Nat) (pal : Palette) (c : Color), cellAt bmp.pixmap x y = some v ∧ v < 4 ∧
            cellAt bmp.palettes (x / 4) (y / 8) = some pal ∧ pal.length = 4 ∧
            c64bmpOps.PaletteAt bmp x y = pal ∧ pal[v]? = some c :=
  ⟨rfl, C12_pixel_indices_valid stepImage 160 200 rfl⟩

/-! ## The result of `convertMC` -/

theorem foldlM_range_some {α : Type} (f : α → Nat → Option α) (n : Nat) (a0 : α)
    (hstep : ∀ k a, k < n → ∃ a', f a k = some a') :
    ∃ a, (List.range n).foldlM f a0 = some a := by
  obtain ⟨a, ha, -⟩ := foldlM_range_inv f (fun _ _ => True) n a0 trivial
    (fun k a hk _ => by
      obtain ⟨a', ha'⟩ := hstep k a hk
      exact ⟨a', ha', trivial⟩)
  exact ⟨a, ha⟩

/-- Lines 162-170 do not panic when every cell of the pixel index grid is a
valid index into the palette of its tile. -/
theorem convertMCPreview_some (bmp : c64bmp) (w h : Nat) (hw : 0 < w)
    (hg : isGrid bmp.pixmap w h)
    (hcells : ∀ x y, x < w → y < h →
      ∃ (v : Nat) (c : Color), cellAt bmp.pixmap x y = some v ∧
        (c64bmpOps.PaletteAt bmp x y)[v]? = some c) :
    ∃ pv, convertMCPreview bmp = some pv := by
  obtain ⟨col0, -, hc0, hhead⟩ := isGrid_head bmp.pixmap w h hg hw
  have hW : c64bmpOps.Width bmp = w := hg.1
  have hH : c64bmpOps.Height bmp = h := by
    show (bmp.pixmap.headD []).length = h
    rw [hhead, hc0]
  unfold convertMCPreview
  rw [hW, hH]
  apply foldlM_range_some
  intro y img hy
  apply foldlM_range_some
  intro x img2 hx
  obtain ⟨v, c, e1, e2⟩ := hcells x y hx hy
  have hp : previewColor bmp x y = some c := by
    unfold previewColor
    rw [e1]
    exact e2
  rw [hp]
  exact ⟨_, rfl⟩

/-- C13: for a source image that passes the size test, `convertMC` returns a
result without panicking, and its `Data` is the two bytes 0x00 0x60, then the
8000 bytes of `bitmap`, then the 1000 bytes of `textmap`, then the 1000 bytes of
`colormap`, then one byte equal to the background index that the search chose:
10003 bytes in all. -/
theorem C13_data_layout (src : Image) (w h : Nat)
    (hok : convertMCGuard src = Except.ok (w, h)) :
    ∃ (r : DitherResult) (plan bmp : c64bmp) (bm tm cm : List Nat) (besterr bg : Nat),
      convertMC src = Except.ok (some r) ∧
      convertMCPlan src w h = some plan ∧
      bgSearch plan.pixmap w h = some (besterr, (bg : Int)) ∧ bg < 16 ∧
      convertMCDither src w h = some bmp ∧ bmp.bg = (bg : Int) ∧
      bitmap bmp = some bm ∧ textmap bmp = some tm ∧ colormap bmp = some cm ∧
      r.Data = [0x00, 0x60] ++ bm ++ tm ++ cm ++ [bg] ∧
      bm.length = 8000 ∧ tm.length = 1000 ∧ cm.length = 1000 ∧ r.Data.length = 10003 := by
  obtain ⟨rfl, rfl⟩ := convertMCGuard_ok src w h hok
  obtain ⟨plan, bmp, bg, hplan, hd, hbg, hlt, hsearch, -, -, e3, hgrid, hpg, hlen, hcells⟩ :=
    convertMCDither_spec src 160 200 (by decide) (by decide)
  have hbgb : bmp.bg = (bg : Int) := e3.trans hbg
  have hbm := bitmap_eq bmp 160 200 (by decide) hgrid hpg
  have htm := textmap_eq bmp 40 25 (by decide) hpg
    (fun col hc pal hp => by have := hlen col hc pal hp; omega)
  have hcm := colormap_eq bmp 40 25 (by decide) hpg
    (fun col hc pal hp => by have := hlen col hc pal hp; omega)
  obtain ⟨pv, hpv⟩ := convertMCPreview_some bmp 160 200 (by decide) hgrid (by
    intro x y hx hy
    obtain ⟨v, hv, hv4⟩ := hcells x y hx hy
    obtain ⟨-, c2, c3⟩ := cellAt_grid bmp.palettes _ _ (x / 4) (y / 8) [] hpg
      (by omega) (by omega)
    have hl := hlen _ c3 _ c2
    have hvl : v < ((bmp.palettes.getD (x / 4) []).getD (y / 8) []).length := by
      rw [hl]; exact hv4
    exact ⟨v, _, hv, List.getElem?_eq_getElem hvl⟩)
  have hbyte : (bmp.bg % 256).toNat = bg := by
    rw [hbgb]
    omega
  have hdata : convertMCData bmp = some ([0x00, 0x60] ++
      (List.range ((200 + 7) / 8 * ((160 + 3) / 4) * 8)).map (bitmapByte bmp.pixmap 160 200) ++
      (List.range (25 * 40)).map (fun k =>
        textByte ((bmp.palettes.getD (k % 40) []).getD (k / 40) [])) ++
      (List.range (25 * 40)).map (fun k =>
        colorByte ((bmp.palettes.getD (k % 40) []).getD (k / 40) [])) ++ [bg]) := by
    unfold convertMCData
    rw [hbm, htm, hcm, hbyte]
    rfl
  refine ⟨⟨pv, _⟩, plan, bmp, _, _, _, _, bg, ?_, hplan, hsearch, hlt, hd, hbgb, hbm, htm, hcm,
    rfl, ?_, ?_, ?_, ?_⟩
  · unfold convertMC
    rw [hok]
    simp only []
    unfold convertMCResult
    rw [hd]
    simp only [Option.some_bind, hpv, hdata, Option.map_some']
  · rw [List.length_map, List.length_range]
  · rw [List.length_map, List.length_range]
  · rw [List.length_map, List.length_range]
  · simp only [List.length_append, List.length_map, List.length_range, List.length_cons,
      List.length_nil]

theorem C13_data_layout_witness :
    convertMCGuard stepImage = Except.ok (160, 200) ∧
      ∃ (r : DitherResult) (plan bmp : c64bmp) (bm tm cm : List Nat) (besterr bg : Nat),
        convertMC stepImage = Except.ok (some r) ∧
        convertMCPlan stepImage 160 200 = some plan ∧
        bgSearch plan.pixmap 160 200 = some (besterr, (bg : Int)) ∧ bg < 16 ∧
        convertMCDither stepImage 160 200 = some bmp ∧ bmp.bg = (bg : Int) ∧
        bitmap bmp = some bm ∧ textmap bmp = some tm ∧ colormap bmp = some cm ∧
        r.Data = [0x00, 0x60] ++ bm ++ tm ++ cm ++ [bg] ∧
        bm.length = 8000 ∧ tm.length = 1000 ∧ cm.length = 1000 ∧ r.Data.length = 10003 :=
  ⟨rfl, C13_data_layout stepImage 160 200 rfl⟩

/-! ## An image of one master colour -/

/-- What `closest` and the residual give for a master colour with a zero error
term, checked on the 16 colours. -/
theorem closest_C64 : ∀ k, k < 16 → ∀ c, C64[k]? = some c →
    closest (toInt32 (toInt32 (c.r : Int) + (colError.mk 0 0 0).R))
        (toInt32 (toInt32 (c.g : Int) + (colError.mk 0 0 0).G))
        (toInt32 (toInt32 (c.b : Int) + (colError.mk 0 0 0).B)) C64 = some c ∧
      toInt32 (toInt32 (c.r : Int) - toInt32 (c.r : Int)) = 0 ∧
      toInt32 (toInt32 (c.g : Int) - toInt32 (c.g : Int)) = 0 ∧
      toInt32 (toInt32 (c.b : Int) - toInt32 (c.b : Int)) = 0 ∧ c.is8bit ∧
      average c.r c.r = c.r ∧ average c.g c.g = c.g ∧ average c.b c.b = c.b ∧
      average c.a c.a = c.a := by
  decide

theorem zero_add32 :
    (colError.mk 0 0 0).add32 (share 0 7) (share 0 7) (share 0 7) = ⟨0, 0, 0⟩ ∧
    (colError.mk 0 0 0).add32 (share 0 3) (share 0 3) (share 0 3) = ⟨0, 0, 0⟩ ∧
    (colError.mk 0 0 0).add32 (Int.tdiv 0 16) (Int.tdiv 0 16) (Int.tdiv 0 16) = ⟨0, 0, 0⟩ ∧
    (colError.mk 0 0 0).add32 (share 0 5) (share 0 5) (share 0 5) = ⟨0, 0, 0⟩ := by
  decide

/-- A zero residual leaves an all-zero error grid all zero. -/
theorem diffuse_zero (g : ErrGrid) (w h x y : Nat) (hg : ∀ cy cx, g cy cx = ⟨0, 0, 0⟩)
    (cy cx : Nat) : diffuse g w h x y 0 0 0 cy cx = ⟨0, 0, 0⟩ := by
  obtain ⟨z7, z3, z1, z5⟩ := zero_add32
  rw [diffuse_apply, hg cy cx]
  split
  · exact z7
  · split
    · exact z3
    · split
      · exact z1
      · split
        · exact z5
        · rfl

theorem downsample_dims (src : Image) (w h : Nat) :
    (downsample src w h).minX = 0 ∧ (downsample src w h).minY = 0 ∧
      (downsample src w h).w = w ∧ (downsample src w h).h = h :=
  (downsample_spec src w h h (le_refl h)).1

/-- The half-width image of an image of one master colour has that colour at
every pixel. -/
theorem downsample_uniform (src : Image) (k : Nat) (ck : Color) (hk : C64[k]? = some ck)
    (hpix : ∀ x y : Int, src.minX ≤ x → x < src.minX + 320 → src.minY ≤ y →
      y < src.minY + 200 → src.At x y = ck)
    (x y : Nat) (hx : x < 160) (hy : y < 200) :
    (downsample src 160 200).At (x : Int) (y : Int) = ck := by
  have hlt := C64_index_lt k ck hk
  obtain ⟨-, -, -, -, h8, a1, a2, a3, a4⟩ := closest_C64 k hlt ck hk
  rw [downsample_At src 160 200 x y hx hy]
  have hp : averagePair src x y = ck := by
    unfold averagePair
    simp only []
    rw [hpix _ _ (by omega) (by omega) (by omega) (by omega),
      hpix _ _ (by omega) (by omega) (by omega) (by omega), a1, a2, a3, a4]
  rw [hp]
  exact (rgbaModel_RGBA ck).2 h8

/-- The first diffusion pass on an image that has the master colour `ck` at
every pixel: after any number of iterations every error term is zero, every
colour chosen so far is `ck`, and the destination holds `ck` at the pixels
done. -/
theorem firstPass_uniform (img : Image) (k : Nat) (ck : Color) (hk : C64[k]? = some ck)
    (hmx : img.minX = 0) (hmy : img.minY = 0)
    (hpix : ∀ x y : Nat, x < img.w → y < img.h → img.At (x : Int) (y : Int) = ck) :
    ∀ n, n ≤ img.h * img.w →
      ∃ s, convertSteps imageCtxOps ⟨img, NewRGBA img.minX img.minY img.w img.h, C64⟩ n = some s ∧
        s.ctx.src = img ∧ s.ctx.palette = C64 ∧ (∀ cy cx, s.gerror cy cx = ⟨0, 0, 0⟩) ∧
        (∀ call ∈ s.calls, call.1 < img.w ∧ call.2.1 < img.h ∧ call.2.2 = ck) ∧
        s.ctx.dest.minX = 0 ∧ s.ctx.dest.minY = 0 ∧ s.ctx.dest.w = img.w ∧
        s.ctx.dest.h = img.h ∧
        ∀ j, j < n → s.ctx.dest.pix ((j % img.w : Nat) : Int) ((j / img.w : Nat) : Int)
          = rgbaModel ck := by
  have hlt := C64_index_lt k ck hk
  obtain ⟨hcl, r1, r2, r3, -⟩ := closest_C64 k hlt ck hk
  apply convertSteps_induct imageCtxOps ⟨img, NewRGBA img.minX img.minY img.w img.h, C64⟩
    (img.h * img.w)
    (fun n s => s.ctx.src = img ∧ s.ctx.palette = C64 ∧ (∀ cy cx, s.gerror cy cx = ⟨0, 0, 0⟩) ∧
        (∀ call ∈ s.calls, call.1 < img.w ∧ call.2.1 < img.h ∧ call.2.2 = ck) ∧
        s.ctx.dest.minX = 0 ∧ s.ctx.dest.minY = 0 ∧ s.ctx.dest.w = img.w ∧
        s.ctx.dest.h = img.h ∧
        ∀ j, j < n → s.ctx.dest.pix ((j % img.w : Nat) : Int) ((j / img.w : Nat) : Int)
          = rgbaModel ck)
  · exact ⟨rfl, rfl, fun _ _ => rfl, fun call hc => by simp [convertInit] at hc, hmx, hmy, rfl,
      rfl, fun j hj => by omega⟩
  · intro n s hn hinv
    obtain ⟨i1, i2, i3, i4, d1, d2, d3, d4, i5⟩ := hinv
    show ∃ s', pixelStep imageCtxOps img.w img.h s (n % img.w) (n / img.w) = some s' ∧ _
    obtain ⟨hx, hy⟩ := step_coords_lt img.w img.h n hn
    have hAt : imageCtxOps.At s.ctx (n % img.w) (n / img.w) = ck := by
      show s.ctx.src.At (((n % img.w : Nat) : Int) + s.ctx.src.minX)
        (((n / img.w : Nat) : Int) + s.ctx.src.minY) = ck
      rw [i1, hmx, hmy, Int.add_zero, Int.add_zero]
      exact hpix _ _ hx hy
    have hPal : imageCtxOps.PaletteAt s.ctx (n % img.w) (n / img.w) = C64 := i2
    obtain ⟨target, s', -, hclo, hstep, hctx, hcalls, hgerr⟩ :=
      pixelStep_some imageCtxOps img.w img.h s (n % img.w) (n / img.w)
        (by rw [hPal]; decide)
    rw [hAt, hPal, i3] at hclo
    rw [hcl] at hclo
    have ht : target = ck := (Option.some.inj hclo).symm
    subst ht
    rw [hAt, r1, r2, r3] at hgerr
    clear hclo hcl r1 r2 r3
    have hset : s'.ctx = ⟨s.ctx.src, s.ctx.dest.Set (((n % img.w : Nat) : Int) + s.ctx.dest.minX)
        (((n / img.w : Nat) : Int) + s.ctx.dest.minY) target, s.ctx.palette⟩ := hctx
    rw [d1, d2, Int.add_zero, Int.add_zero] at hset
    have hin : s.ctx.dest.inRect ((n % img.w : Nat) : Int) ((n / img.w : Nat) : Int) = true := by
      unfold RGBAImage.inRect
      rw [d1, d2, d3, d4]
      simp only [decide_eq_true_eq]
      exact ⟨Int.ofNat_nonneg _, by rw [Int.zero_add]; exact_mod_cast hx, Int.ofNat_nonneg _,
        by rw [Int.zero_add]; exact_mod_cast hy⟩
    obtain ⟨q1, q2, q3, q4⟩ := RGBAImage_Set_rect s.ctx.dest ((n % img.w : Nat) : Int)
      ((n / img.w : Nat) : Int) target
    refine ⟨s', hstep, ?_, ?_, ?_, ?_, ?_, ?_, ?_, ?_, ?_⟩
    · rw [hset]; exact i1
    · rw [hset]; exact i2
    · intro cy cx
      rw [hgerr]
      exact diffuse_zero s.gerror img.w img.h _ _ i3 cy cx
    · intro call hc
      rw [hcalls, List.mem_append, List.mem_singleton] at hc
      rcases hc with hc | hc
      · exact i4 call hc
      · rw [hc]; exact ⟨hx, hy, rfl⟩
    · rw [hset]; show (s.ctx.dest.Set _ _ _).minX = 0; rw [q1, d1]
    · rw [hset]; show (s.ctx.dest.Set _ _ _).minY = 0; rw [q2, d2]
    · rw [hset]; show (s.ctx.dest.Set _ _ _).w = img.w; rw [q3, d3]
    · rw [hset]; show (s.ctx.dest.Set _ _ _).h = img.h; rw [q4, d4]
    · intro j hj
      rw [hset]
      show (s.ctx.dest.Set _ _ _).pix _ _ = _
      by_cases hjn : j = n
      · rw [hjn]
        exact RGBAImage_Set_pix_self s.ctx.dest _ _ target hin
      · have hne : ¬ ((((j % img.w : Nat) : Int) = ((n % img.w : Nat) : Int)) ∧
            (((j / img.w : Nat) : Int) = ((n / img.w : Nat) : Int))) := by
          intro he
          have e1 : j % img.w = n % img.w := by exact_mod_cast he.1
          have e2 : j / img.w = n / img.w := by exact_mod_cast he.2
          have := Nat.div_add_mod j img.w
          have := Nat.div_add_mod n img.w
          rw [e1, e2] at *
          omega
        rw [RGBAImage_Set_pix_other s.ctx.dest _ _ target _ _ hne]
        exact i5 j (by omega)

/-- A tile all of whose pixels have the candidate colour costs nothing. -/
theorem specTileCost_uniform (pixels : List Nat) (k : Nat) (hall : ∀ c ∈ pixels, c = k) :
    specTileCost pixels k = 0 := by
  unfold specTileCost
  have hd : specDistinct pixels k = 0 := by
    unfold specDistinct
    rw [List.length_eq_zero, List.filter_eq_nil_iff]
    intro c _ hc
    have hc' : c ≠ k ∧ c ∈ pixels := by simpa using hc
    exact hc'.1 (hall c hc'.2)
  rw [hd]
  rfl

theorem specCost_uniform (p : Pixmap) (w h k : Nat) (hg : isGrid p w h)
    (hcells : ∀ x y, x < w → y < h → cellAt p x y = some k) : specCost p w h k = 0 := by
  have htile : ∀ x y, specTileCost (tilePixels p w h x y) k = 0 := by
    intro x y
    apply specTileCost_uniform
    intro c hc
    unfold tilePixels at hc
    rw [List.mem_flatMap] at hc
    obtain ⟨cy, hcy, hc⟩ := hc
    rw [List.mem_map] at hc
    obtain ⟨cx, hcx, rfl⟩ := hc
    rw [List.mem_range] at hcy hcx
    obtain ⟨c1, -, -⟩ := cellAt_grid p w h (x + cx) (y + cy) 0 hg (by omega) (by omega)
    rw [hcells (x + cx) (y + cy) (by omega) (by omega)] at c1
    exact (Option.some.inj c1).symm
  unfold specCost
  simp only [htile]
  simp

theorem toImage_fields (img : RGBAImage) :
    img.toImage.minX = img.minX ∧ img.toImage.minY = img.minY ∧ img.toImage.w = img.w ∧
      img.toImage.h = img.h ∧ img.toImage.At = img.At :=
  ⟨rfl, rfl, rfl, rfl, rfl⟩

theorem ToPaletteState_steps (img : Image) (p : Palette) :
    ToPaletteState img p =
      convertSteps imageCtxOps ⟨img, NewRGBA img.minX img.minY img.w img.h, p⟩ (img.h * img.w) := by
  unfold ToPaletteState
  rw [Convert_eq_steps]
  rfl

/-- C16: for a master palette index `k` and a 320x200 image whose every pixel
is the colour `C64[k]`: the size test passes; in the first diffusion pass, after
any number of iterations, every accumulated error term is zero and every pixel
done was given the colour `C64[k]`, with residual zero; the pixel index grid is
`k` at every pixel; and the cost of the candidate background `k` is zero. -/
theorem C16_uniform_image (src : Image) (k : Nat) (ck : Color) (hk : C64[k]? = some ck)
    (hw : src.w = 320) (hh : src.h = 200)
    (hpix : ∀ x y : Int, src.minX ≤ x → x < src.minX + 320 → src.minY ≤ y →
      y < src.minY + 200 → src.At x y = ck) :
    convertMCGuard src = Except.ok (160, 200) ∧
    (∀ n, n ≤ 200 * 160 →
      ∃ s, convertSteps imageCtxOps
          ⟨(downsample src 160 200).toImage, NewRGBA 0 0 160 200, C64⟩ n = some s ∧
        (∀ cy cx, s.gerror cy cx = ⟨0, 0, 0⟩) ∧ s.calls.length = n ∧
        ∀ call ∈ s.calls, call.2.2 = ck ∧
          residual (imageCtxOps.At s.ctx call.1 call.2.1) call.2.2 = ⟨0, 0, 0⟩) ∧
    (∃ s, ToPaletteState (downsample src 160 200).toImage C64 = some s ∧
      ∀ cy cx, s.gerror cy cx = ⟨0, 0, 0⟩) ∧
    ∃ plan, convertMCPlan src 160 200 = some plan ∧
      (∀ x y, x < 160 → y < 200 → cellAt plan.pixmap x y = some k) ∧
      bgCost plan.pixmap 160 200 k = some 0 := by
  have hlt := C64_index_lt k ck hk
  obtain ⟨m1, m2, m3, m4⟩ := downsample_dims src 160 200
  obtain ⟨t1, t2, t3, t4, t5⟩ := toImage_fields (downsample src 160 200)
  have hmx : (downsample src 160 200).toImage.minX = 0 := t1.trans m1
  have hmy : (downsample src 160 200).toImage.minY = 0 := t2.trans m2
  have hiw : (downsample src 160 200).toImage.w = 160 := t3.trans m3
  have hih : (downsample src 160 200).toImage.h = 200 := t4.trans m4
  have hfirst := firstPass_uniform (downsample src 160 200).toImage k ck hk hmx hmy (by
    intro x y hx hy
    rw [hiw] at hx
    rw [hih] at hy
    rw [t5]
    exact downsample_uniform src k ck hk hpix x y hx hy)
  rw [hmx, hmy, hiw, hih] at hfirst
  have hcalls : ∀ n, n ≤ 200 * 160 → ∀ s, convertSteps imageCtxOps
      ⟨(downsample src 160 200).toImage, NewRGBA 0 0 160 200, C64⟩ n = some s →
      s.calls.length = n := by
    intro n
    induction n with
    | zero =>
      intro _ s hs
      have e : s = convertInit _ := (Option.some.inj hs).symm
      rw [e]; rfl
    | succ n ih =>
      intro hn s hs
      obtain ⟨s0, hs0, i1, i2, -⟩ := hfirst n (by omega)
      rw [convertSteps_succ, hs0] at hs
      obtain ⟨target, s', -, -, hstep, -, hc, -⟩ :=
        pixelStep_some imageCtxOps (imageCtxOps.Width (⟨(downsample src 160 200).toImage,
          NewRGBA 0 0 160 200, C64⟩ : imageCtx)) (imageCtxOps.Height (⟨(downsample src 160 200).toImage,
          NewRGBA 0 0 160 200, C64⟩ : imageCtx)) s0
          (n % imageCtxOps.Width (⟨(downsample src 160 200).toImage,
          NewRGBA 0 0 160 200, C64⟩ : imageCtx)) (n / imageCtxOps.Width (⟨(downsample src 160 200).toImage,
          NewRGBA 0 0 160 200, C64⟩ : imageCtx))
          (by show s0.ctx.palette ≠ []; rw [i2]; decide)
      have e : s' = s := by
        have := hstep.symm.trans hs
        exact Option.some.inj this
      rw [← e, hc, List.length_append, ih (by omega) s0 hs0]
      rfl
  refine ⟨?_, ?_, ?_, ?_⟩
  · unfold convertMCGuard
    simp only [hw, hh]
    rfl
  · intro n hn
    obtain ⟨s, hs, i1, i2, i3, i4, -⟩ := hfirst n hn
    refine ⟨s, hs, i3, hcalls n hn s hs, ?_⟩
    intro call hc
    obtain ⟨c1, c2, c3⟩ := i4 call hc
    refine ⟨c3, ?_⟩
    have hAt : imageCtxOps.At s.ctx call.1 call.2.1 = ck := by
      show s.ctx.src.At ((call.1 : Int) + s.ctx.src.minX) ((call.2.1 : Int) + s.ctx.src.minY) = ck
      rw [i1, hmx, hmy, Int.add_zero, Int.add_zero, t5]
      exact downsample_uniform src k ck hk hpix _ _ c1 c2
    rw [hAt, c3]
    unfold residual
    simp
  · obtain ⟨s, hs, -, -, i3, -⟩ := hfirst (200 * 160) (le_refl _)
    refine ⟨s, ?_, i3⟩
    rw [ToPaletteState_steps, hmx, hmy, hiw, hih]
    exact hs
  · obtain ⟨s, hs, -, -, -, -, d1, d2, d3, d4, i5⟩ := hfirst (200 * 160) (le_refl _)
    have hpass : ToPalette (downsample src 160 200).toImage C64 = some s.ctx.dest := by
      unfold ToPalette
      rw [ToPaletteState_steps, hmx, hmy, hiw, hih, hs]
      rfl
    obtain ⟨plan, pass1, bg, hp1, hplan, -, -, -, hgrid, -, hcells, -⟩ :=
      convertMCPlan_spec src 160 200 (by decide)
    rw [hpass] at hp1
    have hpe : s.ctx.dest = pass1 := Option.some.inj hp1
    have hk' : ∀ x y, x < 160 → y < 200 → cellAt plan.pixmap x y = some k := by
      intro x y hx hy
      rw [hcells x y hx hy, ← hpe]
      have hin : s.ctx.dest.inRect (x : Int) (y : Int) = true := by
        unfold RGBAImage.inRect
        rw [d1, d2, d3, d4]
        simp only [decide_eq_true_eq]
        exact ⟨Int.ofNat_nonneg _, by rw [Int.zero_add]; exact_mod_cast hx, Int.ofNat_nonneg _,
          by rw [Int.zero_add]; exact_mod_cast hy⟩
      obtain ⟨f1, f2⟩ := flat_coords 160 x y hx
      have hpx := i5 (y * 160 + x) (flat_lt 160 200 x y hx hy)
      rw [f1, f2] at hpx
      obtain ⟨-, -, -, -, h8, -⟩ := closest_C64 k hlt ck hk
      have hat : s.ctx.dest.At (x : Int) (y : Int) = ck := by
        unfold RGBAImage.At
        rw [if_pos hin, hpx]
        exact (rgbaModel_RGBA ck).2 h8
      rw [hat, Index_C64 k hlt ck hk]
    refine ⟨plan, hplan, hk', ?_⟩
    have hb : cellsBelow plan.pixmap 16 := by
      intro col hc c hcc
      obtain ⟨x, y, hx, hy, e⟩ := cells_of_mem plan.pixmap 160 200 hgrid col hc c hcc
      rw [hk' x y hx hy] at e
      rw [← Option.some.inj e]
      exact hlt
    rw [bgCost_eq plan.pixmap 160 200 k hgrid hb, specCost_uniform plan.pixmap 160 200 k hgrid hk']

theorem C16_uniform_image_witness :
    C64[3]? = some (C64.getD 3 ⟨0, 0, 0, 0⟩) ∧ (uniformImage 3).w = 320 ∧
      (uniformImage 3).h = 200 ∧
      ∃ plan, convertMCPlan (uniformImage 3) 160 200 = some plan ∧
        (∀ x y, x < 160 → y < 200 → cellAt plan.pixmap x y = some 3) ∧
        bgCost plan.pixmap 160 200 3 = some 0 :=
  ⟨rfl, rfl, rfl,
    (C16_uniform_image (uniformImage 3) 3 (C64.getD 3 ⟨0, 0, 0, 0⟩) rfl rfl rfl
      (fun _ _ _ _ _ _ => rfl)).2.2.2⟩

end Tiledither
